import Mathlib

/-! # doge-godot: wallet cryptography core

A shallow embedding of the C++ sources under `src/` (hash.cpp, base58.cpp, keypair.cpp,
address.cpp, message_signer.cpp) together with proofs of properties of that code.

Conventions of the embedding.

* `uint8_t` is `Fin 256`; a `std::vector<uint8_t>` or a `(pointer, length)` pair is a
  `List uint8_t`.
* `uint32_t` and `uint64_t` values are natural numbers, every operation that can leave the
  word is followed by an explicit `% 2 ^ 32` or `% 2 ^ 64`.
* `char` is `Char` and a `std::string` is a `List Char`; every byte value of a C++ `char` is
  the code of some `Char`.
* `size_t` quantities that only measure or index a buffer held in memory (lengths, loop
  counters, the working-buffer sizes `len * 138 / 100 + 1` and `len * 733 / 1000 + 1`) are
  natural numbers: a buffer whose length would make these expressions leave 64 bits does not
  fit in an address space.
* `size_t` is 64 bits wide.
* A function with a `bool` result and one output parameter returns an `Option`: `some out` is
  `true` with the value left in `out`, `none` is `false`. For `base58_decode` and
  `base58check_decode` a failing call leaves `out` as it was; `hex_to_bytes` and
  `base64_decode` clear `out` and push to it before they can fail, and what a failing call
  leaves there is not recorded. `wif_to_private_key`, with three output parameters that it
  writes one after the other between its checks, takes and returns their values.
* The calls into libsecp256k1, an external library, are parameters (`Secp256k1`), except the
  range check of a secret key, which is written out from the data model of the specification.
* The entropy source read by `generate_private_key` is a parameter: the sequence of the
  outcomes of its reads. The function calls itself without a bound, so its embedding counts
  the nested calls it may still make.
-/

namespace doge

/-- The C++ type `uint8_t`. -/
abbrev uint8_t := Fin 256

/-- The conversion `static_cast<uint8_t>(n)` of an unsigned value. -/
def to_uint8 (n : Nat) : uint8_t := ⟨n % 256, Nat.mod_lt n (by decide)⟩

/-! ## utils/hash.cpp : SHA-256 -/

/-- The round constants `K[64]`, in the order of the source. -/
def K : List Nat := [
  0x428A2F98, 0x71374491, 0xB5C0FBCF, 0xE9B5DBA5, 0x3956C25B, 0x59F111F1, 0x923F82A4, 0xAB1C5ED5,
  0xD807AA98, 0x12835B01, 0x243185BE, 0x550C7DC3, 0x72BE5D74, 0x80DEB1FE, 0x9BDC06A7, 0xC19BF174,
  0xE49B69C1, 0xEFBE4786, 0x0FC19DC6, 0x240CA1CC, 0x2DE92C6F, 0x4A7484AA, 0x5CB0A9DC, 0x76F988DA,
  0x983E5152, 0xA831C66D, 0xB00327C8, 0xBF597FC7, 0xC6E00BF3, 0xD5A79147, 0x06CA6351, 0x14292967,
  0x27B70A85, 0x2E1B2138, 0x4D2C6DFC, 0x53380D13, 0x650A7354, 0x766A0ABB, 0x81C2C92E, 0x92722C85,
  0xA2BFE8A1, 0xA81A664B, 0xC24B8B70, 0xC76C51A3, 0xD192E819, 0xD6990624, 0xF40E3585, 0x106AA070,
  0x19A4C116, 0x1E376C08, 0x2748774C, 0x34B0BCB5, 0x391C0CB3, 0x4ED8AA4A, 0x5B9CCA4F, 0x682E6FF3,
  0x748F82EE, 0x78A5636F, 0x84C87814, 0x8CC70208, 0x90BEFFFA, 0xA4506CEB, 0xBEF9A3F7, 0xC67178F2]

/-- The complement `~x` of a 32-bit word. -/
def not32 (x : Nat) : Nat := 0xffffffff ^^^ x

/-- The macro `ROTR(x, n)` on a 32-bit word. -/
def ROTR (x n : Nat) : Nat := (x >>> n) ||| ((x <<< (32 - n)) % 2 ^ 32)

/-- The macro `CH(x, y, z)`. -/
def CH (x y z : Nat) : Nat := (x &&& y) ^^^ (not32 x &&& z)

/-- The macro `MAJ(x, y, z)`. -/
def MAJ (x y z : Nat) : Nat := (x &&& y) ^^^ (x &&& z) ^^^ (y &&& z)

/-- The macro `EP0(x)`. -/
def EP0 (x : Nat) : Nat := ROTR x 2 ^^^ ROTR x 13 ^^^ ROTR x 22

/-- The macro `EP1(x)`. -/
def EP1 (x : Nat) : Nat := ROTR x 6 ^^^ ROTR x 11 ^^^ ROTR x 25

/-- The macro `SIG0(x)`. -/
def SIG0 (x : Nat) : Nat := ROTR x 7 ^^^ ROTR x 18 ^^^ (x >>> 3)

/-- The macro `SIG1(x)`. -/
def SIG1 (x : Nat) : Nat := ROTR x 17 ^^^ ROTR x 19 ^^^ (x >>> 10)

/-- The first loop of `sha256_transform`: the sixteen big-endian words of the block. -/
def sha256_block_words (block : List uint8_t) : List Nat :=
  (List.range 16).map fun i =>
    let j := 4 * i
    (((block.getD j 0).val <<< 24) ||| ((block.getD (j + 1) 0).val <<< 16) |||
      ((block.getD (j + 2) 0).val <<< 8) ||| (block.getD (j + 3) 0).val) % 2 ^ 32

/-- The second loop of `sha256_transform`: the schedule `m[16..63]`, appended word by word. -/
def sha256_schedule (m16 : List Nat) : List Nat :=
  (List.range 48).foldl (fun m k =>
    let i := 16 + k
    m ++ [(SIG1 (m.getD (i - 2) 0) + m.getD (i - 7) 0 + SIG0 (m.getD (i - 15) 0)
            + m.getD (i - 16) 0) % 2 ^ 32]) m16

/-- The working variables `a, b, c, d, e, f, g, h` of `sha256_transform`. -/
abbrev Sha256Vars := Nat × Nat × Nat × Nat × Nat × Nat × Nat × Nat

/-- One pass of the round loop of `sha256_transform`, for round index `i`. -/
def sha256_round (m : List Nat) (v : Sha256Vars) (i : Nat) : Sha256Vars :=
  match v with
  | (a, b, c, d, e, f, g, h) =>
    let t1 := (h + EP1 e + CH e f g + K.getD i 0 + m.getD i 0) % 2 ^ 32
    let t2 := (EP0 a + MAJ a b c) % 2 ^ 32
    ((t1 + t2) % 2 ^ 32, a, b, c, (d + t1) % 2 ^ 32, e, f, g)

/-- The function `sha256_transform(state, block)`; the result is the new `state[0..7]`. -/
def sha256_transform (state : List Nat) (block : List uint8_t) : List Nat :=
  let m := sha256_schedule (sha256_block_words block)
  let s := fun j => state.getD j 0
  match (List.range 64).foldl (sha256_round m) (s 0, s 1, s 2, s 3, s 4, s 5, s 6, s 7) with
  | (a, b, c, d, e, f, g, h) =>
    [(s 0 + a) % 2 ^ 32, (s 1 + b) % 2 ^ 32, (s 2 + c) % 2 ^ 32, (s 3 + d) % 2 ^ 32,
     (s 4 + e) % 2 ^ 32, (s 5 + f) % 2 ^ 32, (s 6 + g) % 2 ^ 32, (s 7 + h) % 2 ^ 32]

/-- The initial `state[8]` of `sha256`. -/
def sha256_init : List Nat :=
  [0x6a09e667, 0xbb67ae85, 0x3c6ef372, 0xa54ff53a, 0x510e527f, 0x9b05688c, 0x1f83d9ab, 0x5be0cd19]

/-- The loop `while (i + 64 <= len)` of both hash functions: it runs `len / 64` times, the
`k`-th pass on the 64 bytes at offset `64 * k`. -/
def process_full_blocks (transform : List Nat → List uint8_t → List Nat)
    (state : List Nat) (data : List uint8_t) : List Nat :=
  (List.range (data.length / 64)).foldl
    (fun st k => transform st ((data.drop (64 * k)).take 64)) state

/-- The tail of both hash functions, from `size_t rem = len - i` to the last transform:
`length_bytes` are the eight bytes written at `block[56..63]`. -/
def process_tail (transform : List Nat → List uint8_t → List Nat)
    (state : List Nat) (data : List uint8_t) (length_bytes : List uint8_t) : List Nat :=
  let i := 64 * (data.length / 64)
  let rem := data.length - i
  -- memcpy(block, data + i, rem); block[rem++] = 0x80;
  let block : List uint8_t := data.drop i ++ [0x80]
  let rem := rem + 1
  if rem > 56 then
    -- memset(block + rem, 0, 64 - rem); transform; rem = 0; memset(block, 0, 56)
    let state := transform state (block ++ List.replicate (64 - rem) 0)
    transform state (List.replicate 56 0 ++ length_bytes)
  else
    -- memset(block + rem, 0, 56 - rem)
    transform state (block ++ List.replicate (56 - rem) 0 ++ length_bytes)

/-- The function `sha256(data, len, hash)`; the result is `hash[0..31]`. -/
def sha256 (data : List uint8_t) : List uint8_t :=
  let bitlen := (data.length * 8) % 2 ^ 64
  let state := process_full_blocks sha256_transform sha256_init data
  let length_bytes := (List.range 8).map fun j => to_uint8 ((bitlen >>> (56 - j * 8)) &&& 0xff)
  let state := process_tail sha256_transform state data length_bytes
  (List.range 8).flatMap fun j =>
    let w := state.getD j 0
    [to_uint8 ((w >>> 24) &&& 0xff), to_uint8 ((w >>> 16) &&& 0xff),
     to_uint8 ((w >>> 8) &&& 0xff), to_uint8 (w &&& 0xff)]

/-- The function `sha256_double(data, len, hash)`. -/
def sha256_double (data : List uint8_t) : List uint8_t := sha256 (sha256 data)

/-! ## utils/hash.cpp : RIPEMD-160 -/

/-- The macro `ROL(x, n)` on a 32-bit word. -/
def ROL (x n : Nat) : Nat := ((x <<< n) % 2 ^ 32) ||| (x >>> (32 - n))

/-- The macro `F(x, y, z)`. -/
def F (x y z : Nat) : Nat := x ^^^ y ^^^ z

/-- The macro `G(x, y, z)`. -/
def G (x y z : Nat) : Nat := (x &&& y) ||| (not32 x &&& z)

/-- The macro `H(x, y, z)`. -/
def H (x y z : Nat) : Nat := (x ||| not32 y) ^^^ z

/-- The macro `I(x, y, z)`. -/
def I (x y z : Nat) : Nat := (x &&& z) ||| (y &&& not32 z)

/-- The macro `J(x, y, z)`. -/
def J (x y z : Nat) : Nat := x ^^^ (y ||| not32 z)

/-- The common body of the step macros, `a += f(b, c, d) + x + k; a = ROL(a, s) + e;
c = ROL(c, 10);`: the result is the new `(a, c)`. -/
def ripemd_step (f : Nat → Nat → Nat → Nat) (k : Nat) (a b c d e x s : Nat) : Nat × Nat :=
  let a := (a + f b c d + x + k) % 2 ^ 32
  let a := (ROL a s + e) % 2 ^ 32
  (a, ROL c 10)

/-- The macro `FF`. -/
def FF := ripemd_step F 0
/-- The macro `GG`. -/
def GG := ripemd_step G 0x5a827999
/-- The macro `HH`. -/
def HH := ripemd_step H 0x6ed9eba1
/-- The macro `II`. -/
def II := ripemd_step I 0x8f1bbcdc
/-- The macro `JJ`. -/
def JJ := ripemd_step J 0xa953fd4e
/-- The macro `FFF`. -/
def FFF := ripemd_step F 0
/-- The macro `GGG`. -/
def GGG := ripemd_step G 0x7a6d76e9
/-- The macro `HHH`. -/
def HHH := ripemd_step H 0x6d703ef3
/-- The macro `III`. -/
def III := ripemd_step I 0x5c4dd124
/-- The macro `JJJ`. -/
def JJJ := ripemd_step J 0x50a28be6

/-- The first loop of `ripemd160_transform`: the sixteen little-endian words of the block. -/
def ripemd160_block_words (block : List uint8_t) : List Nat :=
  (List.range 16).map fun i =>
    ((block.getD (i * 4) 0).val ||| ((block.getD (i * 4 + 1) 0).val <<< 8) |||
      ((block.getD (i * 4 + 2) 0).val <<< 16) ||| ((block.getD (i * 4 + 3) 0).val <<< 24)) % 2 ^ 32

set_option maxRecDepth 100000 in
/-- The function `ripemd160_transform(state, block)`; the result is the new `state[0..4]`. -/
def ripemd160_transform (state : List Nat) (block : List uint8_t) : List Nat :=
  let xs := ripemd160_block_words block
  let x := fun i => xs.getD i 0
  let s := fun j => state.getD j 0
  let al := s 0
  let ar := s 0
  let bl := s 1
  let br := s 1
  let cl := s 2
  let cr := s 2
  let dl := s 3
  let dr := s 3
  let el := s 4
  let er := s 4
  -- Left rounds
  let (al, cl) := FF al bl cl dl el (x 0) 11
  let (el, bl) := FF el al bl cl dl (x 1) 14
  let (dl, al) := FF dl el al bl cl (x 2) 15
  let (cl, el) := FF cl dl el al bl (x 3) 12
  let (bl, dl) := FF bl cl dl el al (x 4) 5
  let (al, cl) := FF al bl cl dl el (x 5) 8
  let (el, bl) := FF el al bl cl dl (x 6) 7
  let (dl, al) := FF dl el al bl cl (x 7) 9
  let (cl, el) := FF cl dl el al bl (x 8) 11
  let (bl, dl) := FF bl cl dl el al (x 9) 13
  let (al, cl) := FF al bl cl dl el (x 10) 14
  let (el, bl) := FF el al bl cl dl (x 11) 15
  let (dl, al) := FF dl el al bl cl (x 12) 6
  let (cl, el) := FF cl dl el al bl (x 13) 7
  let (bl, dl) := FF bl cl dl el al (x 14) 9
  let (al, cl) := FF al bl cl dl el (x 15) 8
  let (el, bl) := GG el al bl cl dl (x 7) 7
  let (dl, al) := GG dl el al bl cl (x 4) 6
  let (cl, el) := GG cl dl el al bl (x 13) 8
  let (bl, dl) := GG bl cl dl el al (x 1) 13
  let (al, cl) := GG al bl cl dl el (x 10) 11
  let (el, bl) := GG el al bl cl dl (x 6) 9
  let (dl, al) := GG dl el al bl cl (x 15) 7
  let (cl, el) := GG cl dl el al bl (x 3) 15
  let (bl, dl) := GG bl cl dl el al (x 12) 7
  let (al, cl) := GG al bl cl dl el (x 0) 12
  let (el, bl) := GG el al bl cl dl (x 9) 15
  let (dl, al) := GG dl el al bl cl (x 5) 9
  let (cl, el) := GG cl dl el al bl (x 2) 11
  let (bl, dl) := GG bl cl dl el al (x 14) 7
  let (al, cl) := GG al bl cl dl el (x 11) 13
  let (el, bl) := GG el al bl cl dl (x 8) 12
  let (dl, al) := HH dl el al bl cl (x 3) 11
  let (cl, el) := HH cl dl el al bl (x 10) 13
  let (bl, dl) := HH bl cl dl el al (x 14) 6
  let (al, cl) := HH al bl cl dl el (x 4) 7
  let (el, bl) := HH el al bl cl dl (x 9) 14
  let (dl, al) := HH dl el al bl cl (x 15) 9
  let (cl, el) := HH cl dl el al bl (x 8) 13
  let (bl, dl) := HH bl cl dl el al (x 1) 15
  let (al, cl) := HH al bl cl dl el (x 2) 14
  let (el, bl) := HH el al bl cl dl (x 7) 8
  let (dl, al) := HH dl el al bl cl (x 0) 13
  let (cl, el) := HH cl dl el al bl (x 6) 6
  let (bl, dl) := HH bl cl dl el al (x 13) 5
  let (al, cl) := HH al bl cl dl el (x 11) 12
  let (el, bl) := HH el al bl cl dl (x 5) 7
  let (dl, al) := HH dl el al bl cl (x 12) 5
  let (cl, el) := II cl dl el al bl (x 1) 11
  let (bl, dl) := II bl cl dl el al (x 9) 12
  let (al, cl) := II al bl cl dl el (x 11) 14
  let (el, bl) := II el al bl cl dl (x 10) 15
  let (dl, al) := II dl el al bl cl (x 0) 14
  let (cl, el) := II cl dl el al bl (x 8) 15
  let (bl, dl) := II bl cl dl el al (x 12) 9
  let (al, cl) := II al bl cl dl el (x 4) 8
  let (el, bl) := II el al bl cl dl (x 13) 9
  let (dl, al) := II dl el al bl cl (x 3) 14
  let (cl, el) := II cl dl el al bl (x 7) 5
  let (bl, dl) := II bl cl dl el al (x 15) 6
  let (al, cl) := II al bl cl dl el (x 14) 8
  let (el, bl) := II el al bl cl dl (x 5) 6
  let (dl, al) := II dl el al bl cl (x 6) 5
  let (cl, el) := II cl dl el al bl (x 2) 12
  let (bl, dl) := JJ bl cl dl el al (x 4) 9
  let (al, cl) := JJ al bl cl dl el (x 0) 15
  let (el, bl) := JJ el al bl cl dl (x 5) 5
  let (dl, al) := JJ dl el al bl cl (x 9) 11
  let (cl, el) := JJ cl dl el al bl (x 7) 6
  let (bl, dl) := JJ bl cl dl el al (x 12) 8
  let (al, cl) := JJ al bl cl dl el (x 2) 13
  let (el, bl) := JJ el al bl cl dl (x 10) 12
  let (dl, al) := JJ dl el al bl cl (x 14) 5
  let (cl, el) := JJ cl dl el al bl (x 1) 12
  let (bl, dl) := JJ bl cl dl el al (x 3) 13
  let (al, cl) := JJ al bl cl dl el (x 8) 14
  let (el, bl) := JJ el al bl cl dl (x 11) 11
  let (dl, al) := JJ dl el al bl cl (x 6) 8
  let (cl, el) := JJ cl dl el al bl (x 15) 5
  let (bl, dl) := JJ bl cl dl el al (x 13) 6
  -- Right rounds
  let (ar, cr) := JJJ ar br cr dr er (x 5) 8
  let (er, br) := JJJ er ar br cr dr (x 14) 9
  let (dr, ar) := JJJ dr er ar br cr (x 7) 9
  let (cr, er) := JJJ cr dr er ar br (x 0) 11
  let (br, dr) := JJJ br cr dr er ar (x 9) 13
  let (ar, cr) := JJJ ar br cr dr er (x 2) 15
  let (er, br) := JJJ er ar br cr dr (x 11) 15
  let (dr, ar) := JJJ dr er ar br cr (x 4) 5
  let (cr, er) := JJJ cr dr er ar br (x 13) 7
  let (br, dr) := JJJ br cr dr er ar (x 6) 7
  let (ar, cr) := JJJ ar br cr dr er (x 15) 8
  let (er, br) := JJJ er ar br cr dr (x 8) 11
  let (dr, ar) := JJJ dr er ar br cr (x 1) 14
  let (cr, er) := JJJ cr dr er ar br (x 10) 14
  let (br, dr) := JJJ br cr dr er ar (x 3) 12
  let (ar, cr) := JJJ ar br cr dr er (x 12) 6
  let (er, br) := III er ar br cr dr (x 6) 9
  let (dr, ar) := III dr er ar br cr (x 11) 13
  let (cr, er) := III cr dr er ar br (x 3) 15
  let (br, dr) := III br cr dr er ar (x 7) 7
  let (ar, cr) := III ar br cr dr er (x 0) 12
  let (er, br) := III er ar br cr dr (x 13) 8
  let (dr, ar) := III dr er ar br cr (x 5) 9
  let (cr, er) := III cr dr er ar br (x 10) 11
  let (br, dr) := III br cr dr er ar (x 14) 7
  let (ar, cr) := III ar br cr dr er (x 15) 7
  let (er, br) := III er ar br cr dr (x 8) 12
  let (dr, ar) := III dr er ar br cr (x 12) 7
  let (cr, er) := III cr dr er ar br (x 4) 6
  let (br, dr) := III br cr dr er ar (x 9) 15
  let (ar, cr) := III ar br cr dr er (x 1) 13
  let (er, br) := III er ar br cr dr (x 2) 11
  let (dr, ar) := HHH dr er ar br cr (x 15) 9
  let (cr, er) := HHH cr dr er ar br (x 5) 7
  let (br, dr) := HHH br cr dr er ar (x 1) 15
  let (ar, cr) := HHH ar br cr dr er (x 3) 11
  let (er, br) := HHH er ar br cr dr (x 7) 8
  let (dr, ar) := HHH dr er ar br cr (x 14) 6
  let (cr, er) := HHH cr dr er ar br (x 6) 6
  let (br, dr) := HHH br cr dr er ar (x 9) 14
  let (ar, cr) := HHH ar br cr dr er (x 11) 12
  let (er, br) := HHH er ar br cr dr (x 8) 13
  let (dr, ar) := HHH dr er ar br cr (x 12) 5
  let (cr, er) := HHH cr dr er ar br (x 2) 14
  let (br, dr) := HHH br cr dr er ar (x 10) 13
  let (ar, cr) := HHH ar br cr dr er (x 0) 13
  let (er, br) := HHH er ar br cr dr (x 4) 7
  let (dr, ar) := HHH dr er ar br cr (x 13) 5
  let (cr, er) := GGG cr dr er ar br (x 8) 15
  let (br, dr) := GGG br cr dr er ar (x 6) 5
  let (ar, cr) := GGG ar br cr dr er (x 4) 8
  let (er, br) := GGG er ar br cr dr (x 1) 11
  let (dr, ar) := GGG dr er ar br cr (x 3) 14
  let (cr, er) := GGG cr dr er ar br (x 11) 14
  let (br, dr) := GGG br cr dr er ar (x 15) 6
  let (ar, cr) := GGG ar br cr dr er (x 0) 14
  let (er, br) := GGG er ar br cr dr (x 5) 6
  let (dr, ar) := GGG dr er ar br cr (x 12) 9
  let (cr, er) := GGG cr dr er ar br (x 2) 12
  let (br, dr) := GGG br cr dr er ar (x 13) 9
  let (ar, cr) := GGG ar br cr dr er (x 9) 12
  let (er, br) := GGG er ar br cr dr (x 7) 5
  let (dr, ar) := GGG dr er ar br cr (x 10) 15
  let (cr, er) := GGG cr dr er ar br (x 14) 8
  let (br, dr) := FFF br cr dr er ar (x 12) 8
  let (ar, cr) := FFF ar br cr dr er (x 15) 5
  let (er, br) := FFF er ar br cr dr (x 10) 12
  let (dr, ar) := FFF dr er ar br cr (x 4) 9
  let (cr, er) := FFF cr dr er ar br (x 1) 12
  let (br, dr) := FFF br cr dr er ar (x 5) 5
  let (ar, cr) := FFF ar br cr dr er (x 8) 14
  let (er, br) := FFF er ar br cr dr (x 7) 6
  let (dr, ar) := FFF dr er ar br cr (x 6) 8
  let (cr, er) := FFF cr dr er ar br (x 2) 13
  let (br, dr) := FFF br cr dr er ar (x 13) 6
  let (ar, cr) := FFF ar br cr dr er (x 14) 5
  let (er, br) := FFF er ar br cr dr (x 0) 15
  let (dr, ar) := FFF dr er ar br cr (x 3) 13
  let (cr, er) := FFF cr dr er ar br (x 9) 11
  let (br, dr) := FFF br cr dr er ar (x 11) 11
  let t := (s 1 + cl + dr) % 2 ^ 32
  [t, (s 2 + dl + er) % 2 ^ 32, (s 3 + el + ar) % 2 ^ 32, (s 4 + al + br) % 2 ^ 32,
   (s 0 + bl + cr) % 2 ^ 32]

/-- The initial `state[5]` of `ripemd160`. -/
def ripemd160_init : List Nat := [0x67452301, 0xefcdab89, 0x98badcfe, 0x10325476, 0xc3d2e1f0]

/-- The function `ripemd160(data, len, hash)`; the result is `hash[0..19]`. -/
def ripemd160 (data : List uint8_t) : List uint8_t :=
  let bitlen := (data.length * 8) % 2 ^ 64
  let state := process_full_blocks ripemd160_transform ripemd160_init data
  let length_bytes := (List.range 8).map fun j => to_uint8 ((bitlen >>> (j * 8)) &&& 0xff)
  let state := process_tail ripemd160_transform state data length_bytes
  (List.range 5).flatMap fun j =>
    let w := state.getD j 0
    [to_uint8 (w &&& 0xff), to_uint8 ((w >>> 8) &&& 0xff),
     to_uint8 ((w >>> 16) &&& 0xff), to_uint8 ((w >>> 24) &&& 0xff)]

/-- The function `hash160(data, len, hash)`. -/
def hash160 (data : List uint8_t) : List uint8_t := ripemd160 (sha256 data)

/-! ## crypto/base58.cpp -/

/-- The string constant `BASE58_ALPHABET`, without its terminating NUL. -/
def BASE58_ALPHABET : List Char :=
  "123456789ABCDEFGHJKLMNPQRSTUVWXYZabcdefghijkmnopqrstuvwxyz".toList

/-- The search of the C library function `strchr(s, c)` from offset `i` of the C string whose
remaining characters are the list: the offset of the first occurrence of `c`, where the
terminating NUL of the C string is part of the string searched (ISO C 7.24.5.2), or `none`
for a null pointer. -/
def strchr_from : List Char → Char → Nat → Option Nat
  | [], c, i => if c = Char.ofNat 0 then some i else none
  | x :: xs, c, i => if x = c then some i else strchr_from xs c (i + 1)

/-- The offset `strchr(s, c) - s`, or `none` when `strchr` returns a null pointer. -/
def strchr (s : List Char) (c : Char) : Option Nat := strchr_from s c 0

/-- The element `s[i]` of a C string: past the characters comes the terminating NUL. -/
def c_str_get (s : List Char) (i : Nat) : Char := s.getD i (Char.ofNat 0)

/-- The inner loop of both conversions,
`for (j = 0; j < size; j++) { carry += mul * b[size-j-1]; b[size-j-1] = carry % base;
carry /= base; }`, on the buffer `b` (most significant digit first, as in the source) with a
`uint32_t` carry: the last element is visited first. The result is the new buffer and the
carry left after the loop. -/
def mul_add_pass (mul base : Nat) : List uint8_t → Nat → List uint8_t × Nat
  | [], carry => ([], carry)
  | d :: ds, carry =>
    match mul_add_pass mul base ds carry with
    | (ds', carry) =>
      let carry := (carry + mul * d.val) % 2 ^ 32
      (to_uint8 (carry % base) :: ds', carry / base)

/-- The number of leading elements of a buffer equal to `x`: the value of the counter after
`while (n < size && b[n] == x) n++`. -/
def count_leading {α : Type} [DecidableEq α] (x : α) (b : List α) : Nat :=
  (b.takeWhile (fun y => decide (y = x))).length

/-- The function `base58_encode(data, len)`. -/
def base58_encode (data : List uint8_t) : List Char :=
  if data.length = 0 then []
  else
    let leading_zeros := count_leading 0 data
    let size := data.length * 138 / 100 + 1
    let b58 := data.foldl (fun b58 byte => (mul_add_pass 256 58 b58 byte.val).1)
      (List.replicate size (0 : uint8_t))
    let b58_leading_zeros := count_leading 0 b58
    List.replicate leading_zeros '1' ++
      (b58.drop b58_leading_zeros).map (fun d => c_str_get BASE58_ALPHABET d.val)

/-- The loop `for (i = 0; i < str.size(); i++)` of `base58_decode` on the characters still to
read: `none` is the `return false` inside the loop. -/
def base58_decode_loop : List Char → List uint8_t → Option (List uint8_t)
  | [], b256 => some b256
  | c :: cs, b256 =>
    match strchr BASE58_ALPHABET c with
    | none => none
    | some p => base58_decode_loop cs (mul_add_pass 58 256 b256 p).1

/-- The function `base58_decode(str, out)`: `none` is `false`, `some out` is `true` with the
value written to `out`. -/
def base58_decode (str : List Char) : Option (List uint8_t) :=
  if str.length = 0 then some []
  else
    let leading_ones := count_leading '1' str
    let size := str.length * 733 / 1000 + 1
    match base58_decode_loop str (List.replicate size (0 : uint8_t)) with
    | none => none
    | some b256 =>
      let b256_leading_zeros := count_leading 0 b256
      some (List.replicate leading_ones (0 : uint8_t) ++ b256.drop b256_leading_zeros)

/-- The function `base58check_encode(data, len)`. -/
def base58check_encode (data : List uint8_t) : List Char :=
  let hash := sha256_double data
  let with_checksum := data ++ hash.take 4
  base58_encode with_checksum

/-- The function `base58check_decode(str, out)`: `none` is `false`, `some out` is `true` with
the value written to `out`. -/
def base58check_decode (str : List Char) : Option (List uint8_t) :=
  match base58_decode str with
  | none => none
  | some decoded =>
    if decoded.length < 4 then none
    else
      let payload_len := decoded.length - 4
      let payload := decoded.take payload_len
      let checksum := decoded.drop payload_len
      let hash := sha256_double payload
      if hash.take 4 ≠ checksum.take 4 then none
      else some payload

/-! ## The external elliptic-curve library -/

/-- Modelled from the spec: the order of the group generated by the base point of the curve
secp256k1 ("curve order" of the glossary); the constant lives in the external library
libsecp256k1, which is not part of the sources. -/
def curve_order : Nat := 0xfffffffffffffffffffffffffffffffebaaedce6af48a03bbfd25e8cd0364141

/-- The big-endian value of a byte buffer. -/
def be_value (bytes : List uint8_t) : Nat := bytes.foldl (fun acc b => acc * 256 + b.val) 0

/-- Modelled from the spec: the library call `secp256k1_ec_seckey_verify(ctx, seckey)` on the
32 bytes at `seckey`; the spec's data model reads "PrivateKey: 32-byte scalar; valid iff
1 ≤ value < curve order". -/
def secp256k1_ec_seckey_verify (seckey : List uint8_t) : Bool :=
  let value := be_value (seckey.take 32)
  decide (1 ≤ value ∧ value < curve_order)

/-- The remaining calls into libsecp256k1, whose code is not part of the sources, as
parameters of the embedding. The library's `secp256k1_pubkey` and
`secp256k1_ecdsa_recoverable_signature` are byte arrays; a call that returns 0 is `none`.
`ec_pubkey_serialize pubkey compressed` is the content of the output buffer and
`recoverable_signature_serialize_compact sig` is `(output64, recid)`. -/
structure Secp256k1 where
  /-- The call `secp256k1_ec_pubkey_create(ctx, &pubkey, seckey)`. -/
  ec_pubkey_create : List uint8_t → Option (List uint8_t)
  /-- The call `secp256k1_ec_pubkey_serialize(ctx, out, &len, &pubkey, flags)`. -/
  ec_pubkey_serialize : List uint8_t → Bool → Option (List uint8_t)
  /-- The call `secp256k1_ecdsa_sign_recoverable(ctx, &sig, hash, seckey, nullptr, nullptr)`. -/
  ecdsa_sign_recoverable : List uint8_t → List uint8_t → Option (List uint8_t)
  /-- The call `secp256k1_ecdsa_recoverable_signature_serialize_compact`. -/
  recoverable_signature_serialize_compact : List uint8_t → List uint8_t × Nat
  /-- The call `secp256k1_ecdsa_recoverable_signature_parse_compact(ctx, &sig, in64, recid)`. -/
  recoverable_signature_parse_compact : List uint8_t → Nat → Option (List uint8_t)
  /-- The call `secp256k1_ecdsa_recover(ctx, &pubkey, &sig, hash)`. -/
  ecdsa_recover : List uint8_t → List uint8_t → Option (List uint8_t)

/-- The assumption on the elliptic-curve primitive under which signing and verification are
related: for a valid 32-byte secret key, signing succeeds, the compact form has 64 bytes and a
recovery id in 0..3, and parsing that compact form and recovering from it and the same hash
yields the public key that `ec_pubkey_create` gives for the secret key, which serializes. -/
def recovers_signer (ec : Secp256k1) : Prop :=
  ∀ hash seckey : List uint8_t, seckey.length = 32 → secp256k1_ec_seckey_verify seckey = true →
    ∃ sig pubkey : List uint8_t,
      ec.ecdsa_sign_recoverable hash seckey = some sig ∧
      (ec.recoverable_signature_serialize_compact sig).1.length = 64 ∧
      (ec.recoverable_signature_serialize_compact sig).2 < 4 ∧
      (∃ parsed, ec.recoverable_signature_parse_compact
          (ec.recoverable_signature_serialize_compact sig).1
          (ec.recoverable_signature_serialize_compact sig).2 = some parsed ∧
        ec.ecdsa_recover parsed hash = some pubkey) ∧
      ec.ec_pubkey_create seckey = some pubkey ∧
      ∀ compressed, ∃ bytes, ec.ec_pubkey_serialize pubkey compressed = some bytes

/-- A small instance of the library interface on which `recovers_signer` holds: the public
key is the secret key and a signature is two copies of it. -/
def mirror_curve : Secp256k1 where
  ec_pubkey_create := fun seckey => some seckey
  ec_pubkey_serialize := fun pubkey compressed =>
    some (if compressed then 2 :: pubkey else 4 :: (pubkey ++ pubkey))
  ecdsa_sign_recoverable := fun _ seckey => some (seckey ++ seckey)
  recoverable_signature_serialize_compact := fun sig => (sig, 0)
  recoverable_signature_parse_compact := fun in64 _ => some in64
  ecdsa_recover := fun sig _ => some (sig.take 32)

/-! ## crypto/keypair.cpp -/

/-- The function `generate_private_key(private_key)`. The entropy source is the parameter
`urandom`: `urandom n` is the outcome of the `n`-th read of 32 bytes (each call opens the
source anew and reads once), `none` when the read fails. `reads` counts the reads made before
the call. The function calls itself when the bytes fail the range check, so the embedding
takes the number of nested calls it may make as `fuel`; the outer `none` is "more than `fuel`
calls are needed". The result is `some (none, reads)` for `return false` and
`some (some private_key, reads)` for `return true`, with the number of reads made so far. -/
def generate_private_key (urandom : Nat → Option (List uint8_t)) :
    Nat → Nat → Option (Option (List uint8_t) × Nat)
  | 0, _ => none
  | fuel + 1, reads =>
    match urandom reads with
    | none => some (none, reads + 1)
    | some private_key =>
      if secp256k1_ec_seckey_verify private_key = false then
        -- Invalid key, try again (very rare)
        generate_private_key urandom fuel (reads + 1)
      else some (some private_key, reads + 1)

/-- The function `derive_public_key(private_key, public_key, compressed)`: `none` is `false`,
`some public_key` is `true`. -/
def derive_public_key (ec : Secp256k1) (private_key : List uint8_t) (compressed : Bool) :
    Option (List uint8_t) :=
  if private_key.length ≠ 32 then none
  else if secp256k1_ec_seckey_verify private_key = false then none
  else
    match ec.ec_pubkey_create private_key with
    | none => none
    | some pubkey => ec.ec_pubkey_serialize pubkey compressed

/-- The function `private_key_to_wif(private_key, compressed, mainnet)`; the empty string is
the failure value. -/
def private_key_to_wif (private_key : List uint8_t) (compressed mainnet : Bool) : List Char :=
  if private_key.length ≠ 32 then []
  else
    let version : uint8_t := if mainnet then 0x9e else 0xf1
    let payload := [version] ++ private_key
    let payload := if compressed then payload ++ [0x01] else payload
    base58check_encode payload

/-- The three output parameters of `wif_to_private_key`. -/
structure WifOutputs where
  /-- The parameter `std::vector<uint8_t>& private_key`. -/
  private_key : List uint8_t
  /-- The parameter `bool& compressed`. -/
  compressed : Bool
  /-- The parameter `bool& mainnet`. -/
  mainnet : Bool
deriving DecidableEq, Repr

/-- The function `wif_to_private_key(wif, private_key, compressed, mainnet)`: the result is the
returned `bool` and the values of the three output parameters after the call, `out` being
their values before it. -/
def wif_to_private_key (wif : List Char) (out : WifOutputs) : Bool × WifOutputs :=
  match base58check_decode wif with
  | none => (false, out)
  | some payload =>
    if payload.length ≠ 33 ∧ payload.length ≠ 34 then (false, out)
    else
      let version := payload.getD 0 0
      let network : Option Bool :=
        if version = 0x9e then some true else if version = 0xf1 then some false else none
      match network with
      | none => (false, out)
      | some mainnet =>
        let out := { out with mainnet := mainnet }
        if payload.length = 34 ∧ payload.getD 33 0 ≠ 0x01 then (false, out)
        else
          let out := { out with compressed := decide (payload.length = 34) }
          let out := { out with private_key := (payload.drop 1).take 32 }
          if secp256k1_ec_seckey_verify out.private_key = false then (false, out)
          else (true, out)

/-- The table `hex_chars` of `bytes_to_hex`. -/
def hex_chars : List Char := "0123456789abcdef".toList

/-- The function `bytes_to_hex(data, len)`. -/
def bytes_to_hex (data : List uint8_t) : List Char :=
  data.flatMap fun b => [c_str_get hex_chars (b.val >>> 4), c_str_get hex_chars (b.val &&& 0x0F)]

/-- The value of one hex digit as parsed by `hex_to_bytes`; `none` is the `return false`. -/
def hex_digit_value (c : Char) : Option Nat :=
  if '0' ≤ c ∧ c ≤ '9' then some (c.toNat - '0'.toNat)
  else if 'a' ≤ c ∧ c ≤ 'f' then some (c.toNat - 'a'.toNat + 10)
  else if 'A' ≤ c ∧ c ≤ 'F' then some (c.toNat - 'A'.toNat + 10)
  else none

/-- The loop of `hex_to_bytes` on the characters still to read, `out` being the bytes pushed
so far. The loop is entered with an even number of characters only. -/
def hex_to_bytes_loop : List Char → List uint8_t → Option (List uint8_t)
  | [], out => some out
  | [_], _ => none
  | high :: low :: rest, out =>
    match hex_digit_value high with
    | none => none
    | some h =>
      let byte := to_uint8 (h <<< 4)
      match hex_digit_value low with
      | none => none
      | some l => hex_to_bytes_loop rest (out ++ [to_uint8 (byte.val ||| l)])

/-- The function `hex_to_bytes(hex, out)`: `none` is `false`, `some out` is `true` with the
final value of `out`. -/
def hex_to_bytes (hex : List Char) : Option (List uint8_t) :=
  if hex.length % 2 ≠ 0 then none else hex_to_bytes_loop hex []

/-! ## crypto/address.cpp -/

/-- The function `public_key_to_address(public_key, mainnet)`; the empty string is the failure
value. -/
def public_key_to_address (public_key : List uint8_t) (mainnet : Bool) : List Char :=
  if public_key.length ≠ 33 ∧ public_key.length ≠ 65 then []
  else
    let version : uint8_t := if mainnet then 0x1e else 0x71
    let pubkey_hash := hash160 public_key
    let payload := [version] ++ pubkey_hash.take 20
    base58check_encode payload

/-- The function `validate_address(address, mainnet)`. -/
def validate_address (address : List Char) (mainnet : Bool) : Bool :=
  match base58check_decode address with
  | none => false
  | some payload =>
    if payload.length ≠ 21 then false
    else
      let version := payload.getD 0 0
      let expected_version : uint8_t := if mainnet then 0x1e else 0x71
      decide (version = expected_version)

/-- The function `wif_to_address(wif)`; the empty string is the failure value. The locals
`private_key`, `compressed` and `mainnet` start as an empty vector and two indeterminate
booleans, given here as `compressed0` and `mainnet0`. -/
def wif_to_address (ec : Secp256k1) (wif : List Char) (compressed0 mainnet0 : Bool) :
    List Char :=
  match wif_to_private_key wif ⟨[], compressed0, mainnet0⟩ with
  | (false, _) => []
  | (true, out) =>
    match derive_public_key ec out.private_key out.compressed with
    | none => []
    | some public_key => public_key_to_address public_key out.mainnet

/-! ## crypto/message_signer.cpp -/

/-- The function `encode_varint(value, out)` on an empty `out`, for a 64-bit `size_t value`. -/
def encode_varint (value : Nat) : List uint8_t :=
  if value < 0xfd then [to_uint8 value]
  else if value ≤ 0xffff then
    [0xfd, to_uint8 (value &&& 0xff), to_uint8 ((value >>> 8) &&& 0xff)]
  else if value ≤ 0xffffffff then
    [0xfe, to_uint8 (value &&& 0xff), to_uint8 ((value >>> 8) &&& 0xff),
      to_uint8 ((value >>> 16) &&& 0xff), to_uint8 ((value >>> 24) &&& 0xff)]
  else
    0xff :: (List.range 8).map fun i => to_uint8 ((value >>> (i * 8)) &&& 0xff)

/-- The bytes of a `std::string`, as read through `reinterpret_cast<const uint8_t*>`. -/
def string_bytes (s : List Char) : List uint8_t := s.map fun c => to_uint8 c.toNat

/-- The 25 bytes of the literal `magic` of `construct_bitcoin_message`, octal 030 first. -/
def magic : List uint8_t := 0x18 :: string_bytes "Bitcoin Signed Message:\n".toList

/-- The function `construct_bitcoin_message(message, out)`. -/
def construct_bitcoin_message (message : List Char) : List uint8_t :=
  let msg_len := message.length
  let varint := encode_varint msg_len
  magic.take 25 ++ varint ++ string_bytes message

/-- The string constant `BASE64_ALPHABET`, without its terminating NUL. -/
def BASE64_ALPHABET : List Char :=
  "ABCDEFGHIJKLMNOPQRSTUVWXYZabcdefghijklmnopqrstuvwxyz0123456789+/".toList

/-- The body of the loop of `base64_encode` for the bytes `data[i]`, `data[i + 1]`,
`data[i + 2]`; `none` stands for an index that fails the test `i + 1 < len` or `i + 2 < len`. -/
def base64_encode_chunk (b0 : uint8_t) (b1 b2 : Option uint8_t) : List Char :=
  let triple := b0.val <<< 16
  let triple := match b1 with
    | some b => triple ||| (b.val <<< 8)
    | none => triple
  let triple := match b2 with
    | some b => triple ||| b.val
    | none => triple
  [c_str_get BASE64_ALPHABET ((triple >>> 18) &&& 0x3F),
   c_str_get BASE64_ALPHABET ((triple >>> 12) &&& 0x3F),
   if b1.isSome then c_str_get BASE64_ALPHABET ((triple >>> 6) &&& 0x3F) else '=',
   if b2.isSome then c_str_get BASE64_ALPHABET (triple &&& 0x3F) else '=']

/-- The function `base64_encode(data, len)`: the loop `for (i = 0; i < len; i += 3)` on the
bytes from offset `i` on. -/
def base64_encode : List uint8_t → List Char
  | [] => []
  | [b0] => base64_encode_chunk b0 none none
  | [b0, b1] => base64_encode_chunk b0 (some b1) none
  | b0 :: b1 :: b2 :: rest => base64_encode_chunk b0 (some b1) (some b2) ++ base64_encode rest

/-- The chain of tests on `c` in `base64_decode`; `none` is the `return false`. -/
def base64_value (c : Char) : Option Nat :=
  if 'A' ≤ c ∧ c ≤ 'Z' then some (c.toNat - 'A'.toNat)
  else if 'a' ≤ c ∧ c ≤ 'z' then some (c.toNat - 'a'.toNat + 26)
  else if '0' ≤ c ∧ c ≤ '9' then some (c.toNat - '0'.toNat + 52)
  else if c = '+' then some 62
  else if c = '/' then some 63
  else none

/-- The loop `for (i = 0; i < len; i++)` of `base64_decode` on the characters still to read,
with the `uint32_t buffer`, the counter `bits` and the bytes pushed to `out` so far. -/
def base64_decode_loop : List Char → Nat → Nat → List uint8_t → Option (List uint8_t)
  | [], _, _, out => some out
  | c :: cs, buffer, bits, out =>
    match base64_value c with
    | none => none
    | some value =>
      let buffer := ((buffer <<< 6) % 2 ^ 32) ||| value
      let bits := bits + 6
      if bits ≥ 8 then
        let bits := bits - 8
        base64_decode_loop cs buffer bits (out ++ [to_uint8 ((buffer >>> bits) &&& 0xFF)])
      else base64_decode_loop cs buffer bits out

/-- The function `base64_decode(str, out)`: `none` is `false`, `some out` is `true` with the
final value of `out`. -/
def base64_decode (str : List Char) : Option (List uint8_t) :=
  if str.length = 0 then some []
  else
    -- while (len > 0 && str[len - 1] == '=') len--;
    let len := str.length - count_leading '=' str.reverse
    base64_decode_loop (str.take len) 0 0 []

/-- The function `sign_message(message, private_key, compressed)`; the empty string is the
failure value. -/
def sign_message (ec : Secp256k1) (message : List Char) (private_key : List uint8_t)
    (compressed : Bool) : List Char :=
  if private_key.length ≠ 32 then []
  else
    let full_message := construct_bitcoin_message message
    let hash := sha256_double full_message
    match ec.ecdsa_sign_recoverable hash private_key with
    | none => []
    | some sig =>
      match ec.recoverable_signature_serialize_compact sig with
      | (compact_sig, recovery_id) =>
        let signature :=
          [to_uint8 (27 + recovery_id + (if compressed then 4 else 0))] ++ compact_sig.take 64
        base64_encode signature

/-- The function `verify_message(message, signature_base64, address)`. -/
def verify_message (ec : Secp256k1) (message signature_base64 address : List Char) : Bool :=
  match base64_decode signature_base64 with
  | none => false
  | some signature =>
    if signature.length ≠ 65 then false
    else
      let header := (signature.getD 0 0).val
      if header < 27 ∨ header ≥ 27 + 8 then false
      else
        let recovery_id := (header - 27) &&& 3
        let compressed := decide (header - 27 ≥ 4)
        let full_message := construct_bitcoin_message message
        let hash := sha256_double full_message
        match ec.recoverable_signature_parse_compact (signature.drop 1) recovery_id with
        | none => false
        | some sig =>
          match ec.ecdsa_recover sig hash with
          | none => false
          | some pubkey =>
            match ec.ec_pubkey_serialize pubkey compressed with
            | none => false
            | some pubkey_bytes =>
              let recovered_address := public_key_to_address pubkey_bytes true
              decide (recovered_address = address)

/-! ## Vocabulary of the proofs -/

/-- The number denoted by a list of digits in base `B`, most significant digit first. -/
def dval (B : Nat) : List Nat → Nat
  | [] => 0
  | d :: ds => d * B ^ ds.length + dval B ds

/-- The numeric values of a byte buffer. -/
def vals (l : List uint8_t) : List Nat := l.map Fin.val

/-- The repetition of the multiply-accumulate pass over a list of carries: the outer loop of
both base conversions once the carries are known. -/
def mul_add_fold (mul base : Nat) (carries : List Nat) (buf : List uint8_t) : List uint8_t :=
  carries.foldl (fun b c => (mul_add_pass mul base b c).1) buf

/-! ## Further vocabulary: the signature header, little-endian values, altered strings -/

/-- The header byte that `sign_message` stores in `signature[0]`,
`27 + recovery_id + (compressed ? 4 : 0)`. -/
def signature_header (recovery_id : Nat) (compressed : Bool) : uint8_t :=
  to_uint8 (27 + recovery_id + (if compressed then 4 else 0))

/-- The recovery id that `verify_message` reads from the header, `(header - 27) & 3`. -/
def header_recovery_id (header : Nat) : Nat := (header - 27) &&& 3

/-- The compression flag that `verify_message` reads from the header, `(header - 27) >= 4`. -/
def header_compressed (header : Nat) : Bool := decide (header - 27 ≥ 4)

/-- The number read from a byte buffer, least significant byte first. -/
def le_value : List uint8_t → Nat
  | [] => 0
  | b :: bs => b.val + 256 * le_value bs

/-- The characters accepted by `hex_to_bytes`: 0-9, a-f and A-F. -/
def is_hex_digit (c : Char) : Prop :=
  ('0' ≤ c ∧ c ≤ '9') ∨ ('a' ≤ c ∧ c ≤ 'f') ∨ ('A' ≤ c ∧ c ≤ 'F')

/-- The string `s'` is `s` with exactly one character replaced by a different one. -/
def altered_in_one (s s' : List Char) : Prop :=
  ∃ (before : List Char) (c c' : Char) (after : List Char),
    c ≠ c' ∧ s = before ++ c :: after ∧ s' = before ++ c' :: after

/-- The loop of `base64_decode` with its whole final state: the `buffer`, the counter `bits`
and `out` when the characters are exhausted. -/
def base64_decode_state : List Char → Nat → Nat → List uint8_t →
    Option (Nat × Nat × List uint8_t)
  | [], buffer, bits, out => some (buffer, bits, out)
  | c :: cs, buffer, bits, out =>
    match base64_value c with
    | none => none
    | some value =>
      let buffer := ((buffer <<< 6) % 2 ^ 32) ||| value
      let bits := bits + 6
      if bits ≥ 8 then
        let bits := bits - 8
        base64_decode_state cs buffer bits (out ++ [to_uint8 ((buffer >>> bits) &&& 0xFF)])
      else base64_decode_state cs buffer bits out

/-! ## The padded message of SHA-256, as the specification words it -/

/-- The eight bytes of `n` as a 64-bit big-endian integer. -/
def be64 (n : Nat) : List uint8_t :=
  (List.range 8).map fun j => to_uint8 (n / 256 ^ (7 - j) % 256)

/-- The number `k` of zero bytes of the padding of a message of `len` bytes. -/
def sha256_zero_count (len : Nat) : Nat := (64 - (len + 9) % 64) % 64

/-- The padded message `data || 0x80 || k zero bytes || (8 * len as 64-bit big-endian)`. -/
def sha256_padded (data : List uint8_t) : List uint8_t :=
  data ++ [0x80] ++ List.replicate (sha256_zero_count data.length) 0 ++ be64 (8 * data.length)

/-- The consecutive 64-byte blocks of a message. -/
def blocks64 (message : List uint8_t) : List (List uint8_t) :=
  (List.range (message.length / 64)).map fun k => (message.drop (64 * k)).take 64

/-- The hash of the specification: the fold of the compression function over the blocks of
the padded message, from the standard initial state, written out as 32 big-endian bytes. -/
def sha256_of_padded (data : List uint8_t) : List uint8_t :=
  let state := (blocks64 (sha256_padded data)).foldl sha256_transform sha256_init
  (List.range 8).flatMap fun j =>
    let w := state.getD j 0
    [to_uint8 (w / 2 ^ 24 % 256), to_uint8 (w / 2 ^ 16 % 256), to_uint8 (w / 2 ^ 8 % 256),
     to_uint8 (w % 256)]

/-! ## The working buffer of `base58_encode`, pass by pass -/

/-- The value of `size` in `base58_encode(data, len)`: the number of base-58 digits of the
working buffer `b58`. -/
def base58_encode_size (len : Nat) : Nat := len * 138 / 100 + 1

/-- The working buffer `b58` of `base58_encode(data, len)` after the first `i` passes of the
loop `for (i = 0; i < len; i++)`. -/
def b58_after (data : List uint8_t) (i : Nat) : List uint8_t :=
  (data.take i).foldl (fun b58 byte => (mul_add_pass 256 58 b58 byte.val).1)
    (List.replicate (base58_encode_size data.length) (0 : uint8_t))

/-- The value of `carry` in `base58_encode(data, len)` at the end of the pass for `data[i]`,
after the inner loop `for (j = 0; j < size; j++)`. -/
def b58_carry (data : List uint8_t) (i : Nat) : Nat :=
  (mul_add_pass 256 58 (b58_after data i) (data.getD i 0).val).2

/-- The input lengths from 1 to 63 for which `58 ^ (len * 138 / 100)` is below `256 ^ len`. -/
def tight_lengths : List Nat :=
  [1, 2, 3, 4, 5, 6, 7, 9, 10, 11, 12, 13, 14, 15, 17, 18, 20, 21, 22, 23, 25, 26, 28, 31, 33,
   34, 36, 39, 42, 44, 47, 52, 55, 63]

end doge

/-! # Properties of the code -/

namespace doge

/-! ## Bytes -/

theorem to_uint8_val (n : Nat) : (to_uint8 n).val = n % 256 := rfl

theorem to_uint8_of_val (x : uint8_t) : to_uint8 x.val = x := by
  apply Fin.ext
  rw [to_uint8_val]
  exact Nat.mod_eq_of_lt x.isLt

theorem to_uint8_val_of_lt {n : Nat} (h : n < 256) : (to_uint8 n).val = n := by
  rw [to_uint8_val]
  exact Nat.mod_eq_of_lt h

theorem vals_injective {l₁ l₂ : List uint8_t} (h : vals l₁ = vals l₂) : l₁ = l₂ :=
  List.map_injective_iff.mpr Fin.val_injective h

theorem vals_length (l : List uint8_t) : (vals l).length = l.length := List.length_map _ _

theorem vals_lt_256 (l : List uint8_t) : ∀ d ∈ vals l, d < 256 := by
  intro d hd
  obtain ⟨x, _, rfl⟩ := List.mem_map.mp hd
  exact x.isLt

/-! ## Digit lists -/

theorem dval_lt {B : Nat} {l : List Nat} (h : ∀ d ∈ l, d < B) : dval B l < B ^ l.length := by
  induction l with
  | nil => simp [dval]
  | cons d ds ih =>
    have hd : d < B := h d (List.mem_cons_self d ds)
    have ht : dval B ds < B ^ ds.length := ih fun x hx => h x (List.mem_cons_of_mem d hx)
    have hstep : d * B ^ ds.length + B ^ ds.length ≤ B * B ^ ds.length := by
      calc d * B ^ ds.length + B ^ ds.length = (d + 1) * B ^ ds.length := by ring
        _ ≤ B * B ^ ds.length := Nat.mul_le_mul_right _ hd
    simp only [dval, List.length_cons, pow_succ']
    omega

theorem dval_append (B : Nat) (l₁ l₂ : List Nat) :
    dval B (l₁ ++ l₂) = dval B l₁ * B ^ l₂.length + dval B l₂ := by
  induction l₁ with
  | nil => simp [dval]
  | cons d ds ih =>
    show d * B ^ (ds ++ l₂).length + dval B (ds ++ l₂)
      = (d * B ^ ds.length + dval B ds) * B ^ l₂.length + dval B l₂
    rw [ih, List.length_append, pow_add]
    ring

theorem dval_replicate_zero (B n : Nat) : dval B (List.replicate n 0) = 0 := by
  induction n with
  | zero => rfl
  | succ n ih => simp [List.replicate_succ, dval, ih]

theorem dval_eq_same_length {B : Nat} :
    ∀ {l₁ l₂ : List Nat}, l₁.length = l₂.length → (∀ d ∈ l₁, d < B) → (∀ d ∈ l₂, d < B) →
      dval B l₁ = dval B l₂ → l₁ = l₂
  | [], [], _, _, _, _ => rfl
  | [], _ :: _, hlen, _, _, _ => by simp at hlen
  | _ :: _, [], hlen, _, _, _ => by simp at hlen
  | d₁ :: t₁, d₂ :: t₂, hlen, h₁, h₂, hv => by
    have hlen' : t₁.length = t₂.length := by simpa using hlen
    have b₁ : dval B t₁ < B ^ t₁.length := dval_lt fun x hx => h₁ x (List.mem_cons_of_mem _ hx)
    have b₂ : dval B t₂ < B ^ t₁.length := by
      rw [hlen']
      exact dval_lt fun x hx => h₂ x (List.mem_cons_of_mem _ hx)
    simp only [dval, ← hlen'] at hv
    have hP : 0 < B ^ t₁.length := by omega
    have hd : d₁ = d₂ := by
      have e₁ : (d₁ * B ^ t₁.length + dval B t₁) / B ^ t₁.length = d₁ := by
        rw [Nat.add_comm, Nat.add_mul_div_right _ _ hP, Nat.div_eq_of_lt b₁, Nat.zero_add]
      have e₂ : (d₂ * B ^ t₁.length + dval B t₂) / B ^ t₁.length = d₂ := by
        rw [Nat.add_comm, Nat.add_mul_div_right _ _ hP, Nat.div_eq_of_lt b₂, Nat.zero_add]
      rw [← e₁, ← e₂, hv]
    subst hd
    have ht : dval B t₁ = dval B t₂ := by omega
    rw [dval_eq_same_length hlen' (fun x hx => h₁ x (List.mem_cons_of_mem _ hx))
      (fun x hx => h₂ x (List.mem_cons_of_mem _ hx)) ht]

theorem dval_ge_of_canonical (B : Nat) {d : Nat} (ds : List Nat) (hd : d ≠ 0) :
    B ^ ds.length ≤ dval B (d :: ds) := by
  have h1 : 1 ≤ d := Nat.one_le_iff_ne_zero.mpr hd
  have : 1 * B ^ ds.length ≤ d * B ^ ds.length := Nat.mul_le_mul_right _ h1
  simp only [dval]
  omega

theorem canonical_length_le {B : Nat} (hB : 0 < B) {l₁ l₂ : List Nat}
    (h₁ : l₁.head? ≠ some 0) (b₂ : ∀ d ∈ l₂, d < B) (hv : dval B l₁ = dval B l₂) :
    l₁.length ≤ l₂.length := by
  cases l₁ with
  | nil => simp
  | cons d ds =>
    have hd : d ≠ 0 := by
      intro h0
      exact h₁ (by simp [h0])
    have lo := dval_ge_of_canonical B ds hd
    have hi := dval_lt b₂
    by_contra hcon
    have hlen : l₂.length ≤ ds.length := by
      simp only [List.length_cons] at hcon
      omega
    have := Nat.pow_le_pow_right hB hlen
    omega

theorem canonical_unique {B : Nat} (hB : 0 < B) {l₁ l₂ : List Nat}
    (h₁ : l₁.head? ≠ some 0) (h₂ : l₂.head? ≠ some 0)
    (b₁ : ∀ d ∈ l₁, d < B) (b₂ : ∀ d ∈ l₂, d < B) (hv : dval B l₁ = dval B l₂) : l₁ = l₂ :=
  dval_eq_same_length
    (Nat.le_antisymm (canonical_length_le hB h₁ b₂ hv) (canonical_length_le hB h₂ b₁ hv.symm))
    b₁ b₂ hv

/-! ## The multiply-accumulate pass -/

theorem mul_add_pass_spec {M B : Nat} (hB : 0 < B) (hB' : B ≤ 256) (hM : M ≤ 256) :
    ∀ (buf : List uint8_t) (carry : Nat), (∀ d ∈ vals buf, d < B) → carry ≤ M →
      (mul_add_pass M B buf carry).1.length = buf.length ∧
      (∀ d ∈ vals (mul_add_pass M B buf carry).1, d < B) ∧
      (mul_add_pass M B buf carry).2 ≤ M ∧
      dval B (vals (mul_add_pass M B buf carry).1)
        + (mul_add_pass M B buf carry).2 * B ^ buf.length = M * dval B (vals buf) + carry := by
  intro buf
  induction buf with
  | nil =>
    intro carry _ hc
    simp [mul_add_pass, vals, dval, hc]
  | cons d ds ih =>
    intro carry hbuf hc
    have hds : ∀ x ∈ vals ds, x < B := fun x hx => hbuf x (by
      simp only [vals, List.map_cons, List.mem_cons] at hx ⊢
      exact Or.inr hx)
    have hd : d.val < B := hbuf d.val (by simp [vals])
    obtain ⟨hlen, hdig, hcar, hval⟩ := ih carry hds hc
    rcases hr : mul_add_pass M B ds carry with ⟨ds', c⟩
    rw [hr] at hlen hdig hcar hval
    simp only at hlen hdig hcar hval
    have hMd : M * d.val ≤ M * (B - 1) := Nat.mul_le_mul_left _ (by omega)
    have hMB : M * (B - 1) ≤ 256 * 255 := Nat.mul_le_mul hM (by omega)
    have hMB' : M * (B - 1) + M = M * B := by
      have : B - 1 + 1 = B := by omega
      calc M * (B - 1) + M = M * (B - 1 + 1) := by ring
        _ = M * B := by rw [this]
    have hwrap : (c + M * d.val) % 2 ^ 32 = c + M * d.val := Nat.mod_eq_of_lt (by omega)
    have hstep : mul_add_pass M B (d :: ds) carry
        = (to_uint8 ((c + M * d.val) % B) :: ds', (c + M * d.val) / B) := by
      simp only [mul_add_pass, hr, hwrap]
    rw [hstep]
    have hmodlt : (c + M * d.val) % B < B := Nat.mod_lt _ hB
    have hdigit : (to_uint8 ((c + M * d.val) % B)).val = (c + M * d.val) % B :=
      to_uint8_val_of_lt (by omega)
    refine ⟨by simp [hlen], ?_, ?_, ?_⟩
    · intro x hx
      simp only [vals, List.map_cons, List.mem_cons] at hx
      rcases hx with rfl | hx
      · rw [hdigit]
        exact hmodlt
      · exact hdig x hx
    · apply Nat.div_le_of_le_mul
      calc c + M * d.val ≤ M + M * (B - 1) := by omega
        _ = B * M := by rw [Nat.add_comm, hMB', Nat.mul_comm]
    · have key : (c + M * d.val) % B + B * ((c + M * d.val) / B) = c + M * d.val :=
        Nat.mod_add_div _ _
      have hlen' : (vals ds').length = ds.length := by simp [vals, hlen]
      simp only [vals, List.map_cons, dval, List.length_cons, List.length_map] at hval ⊢
      rw [hdigit, hlen]
      calc (c + M * d.val) % B * B ^ ds.length + dval B (List.map Fin.val ds')
            + (c + M * d.val) / B * B ^ (ds.length + 1)
          = ((c + M * d.val) % B + B * ((c + M * d.val) / B)) * B ^ ds.length
            + dval B (List.map Fin.val ds') := by ring
        _ = M * d.val * B ^ ds.length
            + (dval B (List.map Fin.val ds') + c * B ^ ds.length) := by rw [key]; ring
        _ = M * (d.val * B ^ ds.length + dval B (List.map Fin.val ds)) + carry := by
            rw [hval]; ring

theorem mul_add_fold_spec {M B : Nat} (hB : 0 < B) (hB' : B ≤ 256) (hM : M ≤ 256) :
    ∀ (cs : List Nat) (buf : List uint8_t), (∀ c ∈ cs, c < M) → (∀ d ∈ vals buf, d < B) →
      (dval B (vals buf) + 1) * M ^ cs.length ≤ B ^ buf.length →
      (mul_add_fold M B cs buf).length = buf.length ∧
      (∀ d ∈ vals (mul_add_fold M B cs buf), d < B) ∧
      dval B (vals (mul_add_fold M B cs buf)) = dval B (vals buf) * M ^ cs.length + dval M cs := by
  intro cs
  induction cs with
  | nil =>
    intro buf _ hbuf _
    exact ⟨rfl, hbuf, by simp [mul_add_fold, dval]⟩
  | cons c cs ih =>
    intro buf hcs hbuf hroom
    have hc : c < M := hcs c (List.mem_cons_self _ _)
    have hM0 : 0 < M := by omega
    have hpow : 0 < M ^ cs.length := Nat.pow_pos hM0
    obtain ⟨hlen, hdig, -, hval⟩ := mul_add_pass_spec hB hB' hM buf c hbuf (Nat.le_of_lt hc)
    have hroom' : (dval B (vals buf) + 1) * M * M ^ cs.length ≤ B ^ buf.length := by
      calc (dval B (vals buf) + 1) * M * M ^ cs.length
          = (dval B (vals buf) + 1) * M ^ (c :: cs).length := by
            rw [List.length_cons, pow_succ]; ring
        _ ≤ B ^ buf.length := hroom
    have hfit : (dval B (vals buf) + 1) * M ≤ B ^ buf.length :=
      le_trans (Nat.le_mul_of_pos_right _ hpow) hroom'
    have hlt := dval_lt hdig
    rw [vals, List.length_map, hlen] at hlt
    have hcarry : (mul_add_pass M B buf c).2 = 0 := by
      by_contra hne
      have h1 : 1 ≤ (mul_add_pass M B buf c).2 := Nat.one_le_iff_ne_zero.mpr hne
      have h2 : 1 * B ^ buf.length ≤ (mul_add_pass M B buf c).2 * B ^ buf.length :=
        Nat.mul_le_mul_right _ h1
      have h3 : (dval B (vals buf) + 1) * M = M * dval B (vals buf) + M := by ring
      omega
    rw [hcarry, Nat.zero_mul, Nat.add_zero] at hval
    have hroom'' : (dval B (vals (mul_add_pass M B buf c).1) + 1) * M ^ cs.length
        ≤ B ^ (mul_add_pass M B buf c).1.length := by
      rw [hval, hlen]
      refine le_trans (Nat.mul_le_mul_right _ ?_) hroom'
      have h3 : (dval B (vals buf) + 1) * M = M * dval B (vals buf) + M := by ring
      omega
    obtain ⟨hlen2, hdig2, hval2⟩ :=
      ih (mul_add_pass M B buf c).1 (fun x hx => hcs x (List.mem_cons_of_mem _ hx)) hdig hroom''
    have hunf : mul_add_fold M B (c :: cs) buf = mul_add_fold M B cs (mul_add_pass M B buf c).1 :=
      rfl
    rw [hunf]
    refine ⟨by rw [hlen2, hlen], hdig2, ?_⟩
    rw [hval2, hval]
    simp only [dval, List.length_cons, pow_succ]
    ring

/-! ## The sizes of the working buffers -/

theorem pow_lt_pow_of_ratio {a b P Q : Nat} (hb : 1 < b) (hP : 0 < P) (h : a ^ P ≤ b ^ Q)
    (n : Nat) : a ^ n < b ^ (n * Q / P + 1) := by
  have hlt : n * Q < P * (n * Q / P + 1) := Nat.lt_mul_div_succ _ hP
  have h1 : (a ^ n) ^ P ≤ b ^ (Q * n) := by
    calc (a ^ n) ^ P = (a ^ P) ^ n := by rw [← pow_mul, ← pow_mul, Nat.mul_comm]
      _ ≤ (b ^ Q) ^ n := Nat.pow_le_pow_left h n
      _ = b ^ (Q * n) := by rw [← pow_mul]
  have h2 : b ^ (Q * n) < (b ^ (n * Q / P + 1)) ^ P := by
    rw [← pow_mul]
    apply Nat.pow_lt_pow_right hb
    rw [Nat.mul_comm Q n, Nat.mul_comm _ P]
    exact hlt
  exact lt_of_pow_lt_pow_left₀ P (Nat.zero_le _) (lt_of_le_of_lt h1 h2)

theorem encode_buffer_fits (n : Nat) : 256 ^ n < 58 ^ (n * 138 / 100 + 1) :=
  pow_lt_pow_of_ratio (by decide) (by decide) (by norm_num) n

set_option exponentiation.threshold 10000 in
theorem decode_buffer_fits (n : Nat) : 58 ^ n < 256 ^ (n * 733 / 1000 + 1) :=
  pow_lt_pow_of_ratio (by decide) (by decide) (by decide) n

/-! ## Leading elements -/

theorem take_count_leading {α : Type} [DecidableEq α] (x : α) (l : List α) :
    l.take (count_leading x l) = List.replicate (count_leading x l) x := by
  induction l with
  | nil => rfl
  | cons a l ih =>
    by_cases h : a = x
    · subst h
      simpa [count_leading, List.takeWhile_cons, List.replicate_succ] using ih
    · simp [count_leading, List.takeWhile_cons, h]

theorem drop_count_leading_head {α : Type} [DecidableEq α] (x : α) (l : List α) :
    (l.drop (count_leading x l)).head? ≠ some x := by
  induction l with
  | nil => simp
  | cons a l ih =>
    by_cases h : a = x
    · subst h
      simpa [count_leading, List.takeWhile_cons] using ih
    · simp [count_leading, List.takeWhile_cons, h]

theorem count_leading_le {α : Type} [DecidableEq α] (x : α) (l : List α) :
    count_leading x l ≤ l.length := by
  unfold count_leading
  exact (List.takeWhile_sublist _).length_le

theorem replicate_append_drop_count_leading {α : Type} [DecidableEq α] (x : α) (l : List α) :
    List.replicate (count_leading x l) x ++ l.drop (count_leading x l) = l := by
  rw [← take_count_leading, List.take_append_drop]

theorem count_leading_replicate_append {α : Type} [DecidableEq α] (x : α) (n : Nat)
    (l : List α) (h : l.head? ≠ some x) : count_leading x (List.replicate n x ++ l) = n := by
  induction n with
  | zero =>
    cases l with
    | nil => rfl
    | cons a l =>
      have : a ≠ x := fun e => h (by simp [e])
      simp [count_leading, List.takeWhile_cons, this]
  | succ n ih =>
    simpa [count_leading, List.replicate_succ, List.takeWhile_cons] using ih

theorem vals_replicate_zero (n : Nat) : vals (List.replicate n (0 : uint8_t)) = List.replicate n 0 := by
  simp [vals]

theorem vals_append (l₁ l₂ : List uint8_t) : vals (l₁ ++ l₂) = vals l₁ ++ vals l₂ := by
  simp [vals]

theorem vals_head_ne_zero {l : List uint8_t} (h : l.head? ≠ some 0) :
    (vals l).head? ≠ some 0 := by
  cases l with
  | nil => simp [vals]
  | cons a l =>
    have ha : a ≠ 0 := fun e => h (by simp [e])
    simp only [vals, List.map_cons, List.head?_cons, ne_eq, Option.some.injEq]
    intro e
    exact ha (Fin.ext e)

theorem dval_zeros_append (B n : Nat) (l : List uint8_t) :
    dval B (vals (List.replicate n (0 : uint8_t) ++ l)) = dval B (vals l) := by
  rw [vals_append, dval_append, vals_replicate_zero, dval_replicate_zero, Nat.zero_mul,
    Nat.zero_add]

theorem dval_drop_count_leading (B : Nat) (l : List uint8_t) :
    dval B (vals (l.drop (count_leading 0 l))) = dval B (vals l) := by
  conv_rhs => rw [← replicate_append_drop_count_leading 0 l]
  rw [dval_zeros_append]

theorem mem_vals_drop {l : List uint8_t} {B : Nat} (h : ∀ d ∈ vals l, d < B) (k : Nat) :
    ∀ d ∈ vals (l.drop k), d < B := by
  intro d hd
  obtain ⟨x, hx, rfl⟩ := List.mem_map.mp hd
  exact h x.val (List.mem_map.mpr ⟨x, List.mem_of_mem_drop hx, rfl⟩)

/-! ## The Base58 alphabet -/

theorem base58_strchr_digit : ∀ d : Fin 58,
    strchr BASE58_ALPHABET (c_str_get BASE58_ALPHABET d.val) = some d.val := by
  decide

theorem base58_digit_one : ∀ d : Fin 58, c_str_get BASE58_ALPHABET d.val = '1' → d.val = 0 := by
  decide

theorem base58_digit_zero : c_str_get BASE58_ALPHABET 0 = '1' := by decide

/-! ## Base58: what the encoder writes and what the decoder reads -/

theorem base58_encode_buffer (data : List uint8_t) :
    (mul_add_fold 256 58 (vals data)
        (List.replicate (data.length * 138 / 100 + 1) (0 : uint8_t))).length
      = data.length * 138 / 100 + 1 ∧
    (∀ d ∈ vals (mul_add_fold 256 58 (vals data)
        (List.replicate (data.length * 138 / 100 + 1) (0 : uint8_t))), d < 58) ∧
    dval 58 (vals (mul_add_fold 256 58 (vals data)
        (List.replicate (data.length * 138 / 100 + 1) (0 : uint8_t)))) = dval 256 (vals data) := by
  have hroom : (dval 58 (vals (List.replicate (data.length * 138 / 100 + 1) (0 : uint8_t))) + 1)
      * 256 ^ (vals data).length
      ≤ 58 ^ (List.replicate (data.length * 138 / 100 + 1) (0 : uint8_t)).length := by
    rw [vals_replicate_zero, dval_replicate_zero, vals_length, List.length_replicate]
    have := encode_buffer_fits data.length
    omega
  have hzero : ∀ d ∈ vals (List.replicate (data.length * 138 / 100 + 1) (0 : uint8_t)), d < 58 := by
    intro d hd
    rw [vals_replicate_zero] at hd
    rw [List.eq_of_mem_replicate hd]
    decide
  obtain ⟨h1, h2, h3⟩ := mul_add_fold_spec (M := 256) (B := 58) (by decide) (by decide)
    (by decide) (vals data) _ (vals_lt_256 data) hzero hroom
  refine ⟨by rw [h1, List.length_replicate], h2, ?_⟩
  rw [h3, vals_replicate_zero, dval_replicate_zero, Nat.zero_mul, Nat.zero_add]

theorem base58_encode_unfold (data : List uint8_t) (h : data ≠ []) :
    base58_encode data =
      List.replicate (count_leading 0 data) '1' ++
        ((mul_add_fold 256 58 (vals data)
            (List.replicate (data.length * 138 / 100 + 1) (0 : uint8_t))).drop
          (count_leading 0 (mul_add_fold 256 58 (vals data)
            (List.replicate (data.length * 138 / 100 + 1) (0 : uint8_t))))).map
          (fun d => c_str_get BASE58_ALPHABET d.val) := by
  have hlen : data.length ≠ 0 := fun e => h (List.length_eq_zero.mp e)
  have hfold : ∀ buf : List uint8_t,
      data.foldl (fun b58 byte => (mul_add_pass 256 58 b58 byte.val).1) buf
        = mul_add_fold 256 58 (vals data) buf := by
    intro buf
    simp only [mul_add_fold, vals, List.foldl_map]
  simp only [base58_encode, hlen, if_false, hfold]

theorem base58_encode_digits (data : List uint8_t) :
    ∃ digits : List uint8_t,
      base58_encode data = List.replicate (count_leading 0 data) '1' ++
        digits.map (fun d => c_str_get BASE58_ALPHABET d.val) ∧
      (∀ d ∈ vals digits, d < 58) ∧ digits.head? ≠ some 0 ∧
      dval 58 (vals digits) = dval 256 (vals data) := by
  by_cases h : data = []
  · subst h
    exact ⟨[], rfl, by simp [vals], by simp, rfl⟩
  · obtain ⟨-, hdig, hval⟩ := base58_encode_buffer data
    refine ⟨_, base58_encode_unfold data h, mem_vals_drop hdig _, drop_count_leading_head 0 _, ?_⟩
    rw [dval_drop_count_leading, hval]

theorem base58_decode_loop_digits :
    ∀ (digits : List uint8_t) (buf : List uint8_t), (∀ d ∈ vals digits, d < 58) →
      base58_decode_loop (digits.map (fun d => c_str_get BASE58_ALPHABET d.val)) buf
        = some (mul_add_fold 58 256 (vals digits) buf) := by
  intro digits
  induction digits with
  | nil => intro buf _; rfl
  | cons d ds ih =>
    intro buf h
    have hd : d.val < 58 := h d.val (by simp [vals])
    have hs := base58_strchr_digit ⟨d.val, hd⟩
    simp only at hs
    simp only [List.map_cons, base58_decode_loop, hs]
    rw [ih _ (fun x hx => h x (by
      simp only [vals, List.map_cons, List.mem_cons] at hx ⊢
      exact Or.inr hx))]
    rfl

theorem base58_decode_digits (digits : List uint8_t) (h : ∀ d ∈ vals digits, d < 58) :
    ∃ bytes : List uint8_t,
      base58_decode (digits.map (fun d => c_str_get BASE58_ALPHABET d.val))
        = some (List.replicate
            (count_leading '1' (digits.map (fun d => c_str_get BASE58_ALPHABET d.val)))
            (0 : uint8_t) ++ bytes) ∧
      bytes.head? ≠ some 0 ∧ dval 256 (vals bytes) = dval 58 (vals digits) := by
  by_cases hnil : digits = []
  · subst hnil
    exact ⟨[], rfl, by simp, rfl⟩
  · have hlen : (digits.map (fun d => c_str_get BASE58_ALPHABET d.val)).length ≠ 0 := by
      rw [List.length_map]
      exact fun e => hnil (List.length_eq_zero.mp e)
    have hroom : (dval 256 (vals (List.replicate (digits.length * 733 / 1000 + 1) (0 : uint8_t)))
        + 1) * 58 ^ (vals digits).length
        ≤ 256 ^ (List.replicate (digits.length * 733 / 1000 + 1) (0 : uint8_t)).length := by
      rw [vals_replicate_zero, dval_replicate_zero, vals_length, List.length_replicate]
      have := decode_buffer_fits digits.length
      omega
    obtain ⟨-, -, hval⟩ := mul_add_fold_spec (M := 58) (B := 256) (by decide) (by decide)
      (by decide) (vals digits) _ h (vals_lt_256 _) hroom
    rw [vals_replicate_zero, dval_replicate_zero, Nat.zero_mul, Nat.zero_add] at hval
    refine ⟨(mul_add_fold 58 256 (vals digits)
        (List.replicate (digits.length * 733 / 1000 + 1) (0 : uint8_t))).drop
        (count_leading 0 (mul_add_fold 58 256 (vals digits)
          (List.replicate (digits.length * 733 / 1000 + 1) (0 : uint8_t)))), ?_,
      drop_count_leading_head 0 _, ?_⟩
    · simp only [base58_decode, hlen, if_false]
      rw [base58_decode_loop_digits digits _ h, List.length_map]
    · rw [dval_drop_count_leading, hval]

theorem base58_round_trip (data : List uint8_t) :
    base58_decode (base58_encode data) = some data := by
  obtain ⟨digits, henc, hdig, hhead, hval⟩ := base58_encode_digits data
  -- the leading '1' characters are the digit zero
  have hones : List.replicate (count_leading 0 data) '1'
      = (List.replicate (count_leading 0 data) (0 : uint8_t)).map
          (fun d => c_str_get BASE58_ALPHABET d.val) := by
    rw [List.map_replicate]
    rfl
  have hall : ∀ d ∈ vals (List.replicate (count_leading 0 data) (0 : uint8_t) ++ digits),
      d < 58 := by
    intro d hd
    rw [vals_append, List.mem_append, vals_replicate_zero] at hd
    rcases hd with hd | hd
    · rw [List.eq_of_mem_replicate hd]
      decide
    · exact hdig d hd
  obtain ⟨bytes, hdec, hbhead, hbval⟩ := base58_decode_digits _ hall
  rw [List.map_append, ← hones, ← henc] at hdec
  -- the decoder counts exactly the characters written for the leading zero bytes
  have hcount : count_leading '1' (base58_encode data) = count_leading 0 data := by
    rw [henc]
    apply count_leading_replicate_append
    cases digits with
    | nil => simp
    | cons d ds =>
      have hd : d.val < 58 := hdig d.val (by simp [vals])
      have hd0 : d ≠ 0 := fun e => hhead (by simp [e])
      simp only [List.map_cons, List.head?_cons, ne_eq, Option.some.injEq]
      intro e
      exact hd0 (Fin.ext (base58_digit_one ⟨d.val, hd⟩ e))
  -- both tails are the canonical base-256 digits of the same number
  have htail : bytes = data.drop (count_leading 0 data) := by
    apply vals_injective
    apply canonical_unique (B := 256) (by decide) (vals_head_ne_zero hbhead)
      (vals_head_ne_zero (drop_count_leading_head 0 data)) (vals_lt_256 _) (vals_lt_256 _)
    rw [hbval, dval_zeros_append, hval, dval_drop_count_leading]
  rw [hdec, hcount, htail, replicate_append_drop_count_leading]


/-- C1: for every byte sequence `data`, the empty one and those with leading zero bytes
included, `base58_decode` succeeds on `base58_encode data` and returns exactly `data`. -/
theorem base58_decode_encode (data : List uint8_t) :
    base58_decode (base58_encode data) = some data :=
  base58_round_trip data

/-! ## Lengths of the digests -/

theorem sha256_length (data : List uint8_t) : (sha256 data).length = 32 := by
  simp [sha256, List.length_flatMap, List.range_succ]

theorem sha256_double_length (data : List uint8_t) : (sha256_double data).length = 32 :=
  sha256_length _

theorem ripemd160_length (data : List uint8_t) : (ripemd160 data).length = 20 := by
  simp [ripemd160, List.length_flatMap, List.range_succ]

theorem hash160_length (data : List uint8_t) : (hash160 data).length = 20 :=
  ripemd160_length _

theorem checksum_length (data : List uint8_t) : ((sha256_double data).take 4).length = 4 := by
  rw [List.length_take, sha256_double_length]
  rfl

/-! ## Base58Check -/

theorem base58check_round_trip (payload : List uint8_t) :
    base58check_decode (base58check_encode payload) = some payload := by
  have hck := checksum_length payload
  have hlen : (payload ++ (sha256_double payload).take 4).length = payload.length + 4 := by
    rw [List.length_append, hck]
  have htake : (payload ++ (sha256_double payload).take 4).take payload.length = payload :=
    List.take_left' rfl
  have hdrop : (payload ++ (sha256_double payload).take 4).drop payload.length
      = (sha256_double payload).take 4 := List.drop_left' rfl
  simp only [base58check_decode, base58check_encode, base58_round_trip, hlen,
    Nat.add_sub_cancel, htake, hdrop, List.take_take]
  simp

/-- C2: for every payload, `base58check_decode` succeeds on `base58check_encode payload` and
returns exactly the payload. -/
theorem base58check_decode_encode (payload : List uint8_t) :
    base58check_decode (base58check_encode payload) = some payload :=
  base58check_round_trip payload

/-- C3: `base58check_decode s` succeeds with `payload` exactly when `base58_decode s` succeeds
with some `d` of length at least 4 whose last 4 bytes are the first 4 bytes of
`sha256_double` of `d` without its last 4 bytes, and then `payload` is `d` without its last
4 bytes; a failing `base58_decode`, a decoded length below 4 and a checksum mismatch are each
a failure. -/
theorem base58check_decode_iff (s : List Char) :
    (∀ payload, base58check_decode s = some payload ↔
      ∃ d, base58_decode s = some d ∧ 4 ≤ d.length ∧
        d.drop (d.length - 4) = (sha256_double (d.take (d.length - 4))).take 4 ∧
        payload = d.take (d.length - 4)) ∧
    (base58_decode s = none → base58check_decode s = none) ∧
    (∀ d, base58_decode s = some d ∧ d.length < 4 → base58check_decode s = none) ∧
    (∀ d, base58_decode s = some d ∧
        d.drop (d.length - 4) ≠ (sha256_double (d.take (d.length - 4))).take 4 →
      base58check_decode s = none) := by
  have hcmp : ∀ d : List uint8_t, 4 ≤ d.length →
      (d.drop (d.length - 4)).take 4 = d.drop (d.length - 4) := by
    intro d hd
    apply List.take_of_length_le
    rw [List.length_drop]
    omega
  have htt : ∀ l : List uint8_t, (l.take 4).take 4 = l.take 4 := by
    intro l
    rw [List.take_take]
    rfl
  refine ⟨?_, ?_, ?_, ?_⟩
  · intro payload
    cases hdec : base58_decode s with
    | none => simp [base58check_decode, hdec]
    | some d =>
      by_cases hlen : d.length < 4
      · simp only [base58check_decode, hdec, hlen, if_true]
        constructor
        · intro h
          cases h
        · rintro ⟨d', hd', h4, -⟩
          cases hd'
          omega
      · have h4 : 4 ≤ d.length := by omega
        simp only [base58check_decode, hdec, hlen, if_false, htt, hcmp d h4]
        by_cases hck : (sha256_double (d.take (d.length - 4))).take 4 = d.drop (d.length - 4)
        · simp only [hck, ne_eq, not_true_eq_false, if_false, Option.some.injEq]
          constructor
          · intro h
            exact ⟨d, rfl, h4, hck.symm, h.symm⟩
          · rintro ⟨d', hd', -, -, hp⟩
            cases hd'
            exact hp.symm
        · simp only [ne_eq, hck, not_false_eq_true, if_true]
          constructor
          · intro h
            cases h
          · rintro ⟨d', hd', -, hck', -⟩
            cases hd'
            exact absurd hck'.symm hck
  · intro h
    simp [base58check_decode, h]
  · rintro d ⟨hd, hlen⟩
    simp [base58check_decode, hd, hlen]
  · rintro d ⟨hd, hck⟩
    by_cases hlen : d.length < 4
    · simp [base58check_decode, hd, hlen]
    · have h4 : 4 ≤ d.length := by omega
      simp only [base58check_decode, hd, hlen, if_false, htt, hcmp d h4]
      rw [if_pos (fun e => hck e.symm)]

/-! ## Wallet import format -/

theorem seckey_verify_of_range {k : List uint8_t} (hlen : k.length = 32)
    (hlo : 1 ≤ be_value k) (hhi : be_value k < curve_order) :
    secp256k1_ec_seckey_verify k = true := by
  have htake : k.take 32 = k := List.take_of_length_le (by omega)
  simp only [secp256k1_ec_seckey_verify, htake]
  exact decide_eq_true ⟨hlo, hhi⟩

theorem wif_round_trip (k : List uint8_t) (c m : Bool) (out : WifOutputs)
    (hlen : k.length = 32) (hlo : 1 ≤ be_value k) (hhi : be_value k < curve_order) :
    wif_to_private_key (private_key_to_wif k c m) out = (true, ⟨k, c, m⟩) := by
  have hkey := seckey_verify_of_range hlen hlo hhi
  have hk : ∀ t : List uint8_t, (k ++ t).take 32 = k := fun t => List.take_left' hlen
  have hk' : k.take 32 = k := List.take_of_length_le (by omega)
  have hget : ∀ v : uint8_t, (v :: (k ++ [0x01])).getD 33 0 = 0x01 := by
    intro v
    rw [List.getD_cons_succ, List.getD_append_right _ _ _ _ (by omega), hlen]
    rfl
  cases c <;> cases m <;>
    simp [wif_to_private_key, private_key_to_wif, base58check_round_trip, hlen, hk, hk',
      hget, hkey]

/-- C4: for every 32-byte private key `k` whose big-endian value lies in `[1, curve order)`,
every compression flag `c` and every network `m`, `wif_to_private_key` succeeds on
`private_key_to_wif k c m` and leaves exactly `(k, c, m)` in its output parameters, whatever
they held before. -/
theorem wif_to_private_key_of_wif (k : List uint8_t) (c m : Bool) (out : WifOutputs)
    (hlen : k.length = 32) (hlo : 1 ≤ be_value k) (hhi : be_value k < curve_order) :
    wif_to_private_key (private_key_to_wif k c m) out = (true, ⟨k, c, m⟩) :=
  wif_round_trip k c m out hlen hlo hhi

/-- The round trip through the wallet import format for the key of value 1, compressed, on
mainnet. -/
theorem wif_to_private_key_of_wif_witness :
    wif_to_private_key
        (private_key_to_wif (List.replicate 31 (0 : uint8_t) ++ [1]) true true) ⟨[], false, false⟩
      = (true, ⟨List.replicate 31 (0 : uint8_t) ++ [1], true, true⟩) :=
  wif_to_private_key_of_wif (List.replicate 31 (0 : uint8_t) ++ [1]) true true ⟨[], false, false⟩
    (by decide) (by decide) (by decide)

/-! ## Addresses -/

theorem validate_own_address (pk : List uint8_t) (m : Bool)
    (hpk : pk.length = 33 ∨ pk.length = 65) :
    validate_address (public_key_to_address pk m) m = true ∧
    validate_address (public_key_to_address pk m) (!m) = false := by
  have hsize : ¬(pk.length ≠ 33 ∧ pk.length ≠ 65) := by omega
  have h20 : ((hash160 pk).take 20).length = 20 := by
    rw [List.length_take, hash160_length]
    rfl
  cases m <;>
    simp [validate_address, public_key_to_address, hsize, base58check_round_trip, h20]

/-- C6: for every public key of 33 or 65 bytes and every network `m`, `validate_address`
accepts `public_key_to_address pk m` under `m` and rejects it under the opposite network. -/
theorem validate_address_of_public_key (pk : List uint8_t) (m : Bool)
    (hpk : pk.length = 33 ∨ pk.length = 65) :
    validate_address (public_key_to_address pk m) m = true ∧
    validate_address (public_key_to_address pk m) (!m) = false :=
  validate_own_address pk m hpk

/-- The address of the key made of 33 bytes of value 2 on mainnet is accepted on mainnet and
rejected on testnet. -/
theorem validate_address_of_public_key_witness :
    validate_address (public_key_to_address (List.replicate 33 (2 : uint8_t)) true) true = true ∧
    validate_address (public_key_to_address (List.replicate 33 (2 : uint8_t)) true) (!true)
      = false :=
  validate_address_of_public_key (List.replicate 33 (2 : uint8_t)) true (Or.inl (by decide))

/-! ## The first character of an address -/

theorem canonical_head {B : Nat} (hB : 1 < B) {l : List Nat} {d₀ k : Nat}
    (hl : ∀ d ∈ l, d < B) (hcan : l.head? ≠ some 0) (hd₀ : 0 < d₀) (hd₀' : d₀ < B)
    (hlo : d₀ * B ^ k ≤ dval B l) (hhi : dval B l < (d₀ + 1) * B ^ k) :
    l.head? = some d₀ := by
  have hPk : 0 < B ^ k := Nat.pow_pos (by omega)
  cases l with
  | nil =>
    have h0 : 0 < d₀ * B ^ k := Nat.mul_pos hd₀ hPk
    simp only [dval] at hlo
    omega
  | cons d ds =>
    have hd : d ≠ 0 := fun e => hcan (by simp [e])
    have hge := dval_ge_of_canonical B ds hd
    have hlt := dval_lt hl
    have htail : dval B ds < B ^ ds.length :=
      dval_lt fun x hx => hl x (List.mem_cons_of_mem _ hx)
    have h1 : B ^ k ≤ d₀ * B ^ k := Nat.le_mul_of_pos_left _ hd₀
    have h2 : (d₀ + 1) * B ^ k ≤ B ^ (k + 1) := by
      rw [pow_succ, Nat.mul_comm (B ^ k) B]
      exact Nat.mul_le_mul_right _ hd₀'
    have hlen : ds.length = k := by
      have ha : B ^ ds.length < B ^ (k + 1) := by omega
      have hb : B ^ k < B ^ (ds.length + 1) := by
        rw [List.length_cons] at hlt
        omega
      have ha' := (Nat.pow_lt_pow_iff_right hB).mp ha
      have hb' := (Nat.pow_lt_pow_iff_right hB).mp hb
      omega
    subst hlen
    simp only [dval] at hlo hhi
    have hdiv : (d * B ^ ds.length + dval B ds) / B ^ ds.length = d := by
      rw [Nat.add_comm, Nat.add_mul_div_right _ _ hPk, Nat.div_eq_of_lt htail, Nat.zero_add]
    have hge' : d₀ ≤ d := by
      rw [← hdiv]
      exact (Nat.le_div_iff_mul_le hPk).mpr hlo
    have hle' : d < d₀ + 1 := by
      rw [← hdiv]
      exact (Nat.div_lt_iff_lt_mul hPk).mpr hhi
    have : d = d₀ := by omega
    simp [this]

theorem base58_encode_head (v : uint8_t) (rest : List uint8_t) (d₀ k : Nat)
    (hd₀ : 0 < d₀) (hd₀' : d₀ < 58)
    (hlo : d₀ * 58 ^ k ≤ v.val * 256 ^ rest.length)
    (hhi : (v.val + 1) * 256 ^ rest.length ≤ (d₀ + 1) * 58 ^ k) :
    (base58_encode (v :: rest)).head? = some (c_str_get BASE58_ALPHABET d₀) := by
  obtain ⟨digits, henc, hdig, hhead, hval⟩ := base58_encode_digits (v :: rest)
  have hv : v ≠ 0 := by
    intro e
    subst e
    have : 0 < d₀ * 58 ^ k := Nat.mul_pos hd₀ (Nat.pow_pos (by decide))
    simp only [Fin.val_zero, Nat.zero_mul] at hlo
    omega
  have hz : count_leading 0 (v :: rest) = 0 := by
    simp [count_leading, List.takeWhile_cons, hv]
  have hrest : dval 256 (vals rest) < 256 ^ rest.length := by
    have := dval_lt (vals_lt_256 rest)
    rwa [vals_length] at this
  have hN : dval 256 (vals (v :: rest)) = v.val * 256 ^ rest.length + dval 256 (vals rest) := by
    simp [vals, dval]
  have hhi' : dval 58 (vals digits) < (d₀ + 1) * 58 ^ k := by
    have : (v.val + 1) * 256 ^ rest.length = v.val * 256 ^ rest.length + 256 ^ rest.length := by
      ring
    omega
  have hh := canonical_head (B := 58) (by decide) hdig (vals_head_ne_zero hhead) hd₀ hd₀'
    (by omega) hhi'
  rw [henc, hz]
  cases digits with
  | nil => simp [vals] at hh
  | cons d ds =>
    simp only [vals, List.map_cons, List.head?_cons, Option.some.injEq] at hh
    simp [hh]

set_option exponentiation.threshold 1000 in
/-- C7: for every public key of 33 or 65 bytes the address returned by
`public_key_to_address` begins with the character D on mainnet (version byte 0x1e) and with
the character n on testnet (version byte 0x71); indeed the Base58 text of the version byte
followed by any 24 bytes `rest` (a 20-byte hash160 value and a 4-byte checksum) begins so. -/
theorem public_key_to_address_first_char (pk rest : List uint8_t)
    (hpk : pk.length = 33 ∨ pk.length = 65) (hrest : rest.length = 24) :
    (public_key_to_address pk true).head? = some 'D' ∧
    (public_key_to_address pk false).head? = some 'n' ∧
    (base58_encode (0x1e :: rest)).head? = some 'D' ∧
    (base58_encode (0x71 :: rest)).head? = some 'n' := by
  have h12 : c_str_get BASE58_ALPHABET 12 = 'D' := by decide
  have h45 : c_str_get BASE58_ALPHABET 45 = 'n' := by decide
  have hD : ∀ tail : List uint8_t, tail.length = 24 →
      (base58_encode (0x1e :: tail)).head? = some 'D' := by
    intro tail ht
    rw [← h12]
    exact base58_encode_head 0x1e tail 12 33 (by decide) (by decide)
      (by rw [ht]; decide) (by rw [ht]; decide)
  have hn : ∀ tail : List uint8_t, tail.length = 24 →
      (base58_encode (0x71 :: tail)).head? = some 'n' := by
    intro tail ht
    rw [← h45]
    exact base58_encode_head 0x71 tail 45 33 (by decide) (by decide)
      (by rw [ht]; decide) (by rw [ht]; decide)
  have hsize : ¬(pk.length ≠ 33 ∧ pk.length ≠ 65) := by omega
  have h20 : ((hash160 pk).take 20).length = 20 := by
    rw [List.length_take, hash160_length]
    rfl
  have hlen : ∀ v : uint8_t, ((hash160 pk).take 20 ++
      (sha256_double ([v] ++ (hash160 pk).take 20)).take 4).length = 24 := by
    intro v
    rw [List.length_append, h20, checksum_length]
  have hmain := hD _ (hlen 0x1e)
  have htest := hn _ (hlen 0x71)
  refine ⟨?_, ?_, hD rest hrest, hn rest hrest⟩
  · simpa [public_key_to_address, hsize, base58check_encode] using hmain
  · simpa [public_key_to_address, hsize, base58check_encode] using htest

/-- The first characters for the key made of 33 bytes of value 2 and for the payload tail
made of 24 bytes of value 255. -/
theorem public_key_to_address_first_char_witness :
    (public_key_to_address (List.replicate 33 (2 : uint8_t)) true).head? = some 'D' ∧
    (public_key_to_address (List.replicate 33 (2 : uint8_t)) false).head? = some 'n' ∧
    (base58_encode (0x1e :: List.replicate 24 (255 : uint8_t))).head? = some 'D' ∧
    (base58_encode (0x71 :: List.replicate 24 (255 : uint8_t))).head? = some 'n' :=
  public_key_to_address_first_char (List.replicate 33 (2 : uint8_t))
    (List.replicate 24 (255 : uint8_t)) (Or.inl (by decide)) (by decide)

/-! ## Base64 -/

theorem base64_value_alphabet : ∀ v : Fin 64,
    base64_value (c_str_get BASE64_ALPHABET v.val) = some v.val := by
  decide

theorem base64_alphabet_ne_pad : ∀ v : Fin 64, c_str_get BASE64_ALPHABET v.val ≠ '=' := by
  decide

theorem and_63 (x : Nat) : x &&& 0x3F = x % 64 := Nat.and_pow_two_sub_one_eq_mod x 6

theorem and_255 (x : Nat) : x &&& 0xFF = x % 256 := Nat.and_pow_two_sub_one_eq_mod x 8

theorem shift_or_6 (buffer v : Nat) (hv : v < 64) :
    ((buffer <<< 6) % 2 ^ 32) ||| v = 64 * (buffer % 67108864) + v := by
  have h1 : (buffer <<< 6) % 2 ^ 32 = 2 ^ 6 * (buffer % 67108864) := by
    rw [Nat.shiftLeft_eq]
    omega
  rw [h1, ← Nat.mul_add_lt_is_or (by omega)]

theorem triple_eq (b0 b1 b2 : Nat) (h1 : b1 < 256) (h2 : b2 < 256) :
    (b0 <<< 16) ||| (b1 <<< 8) ||| b2 = 65536 * b0 + 256 * b1 + b2 := by
  have e1 : (b0 <<< 16) ||| (b1 <<< 8) = 2 ^ 16 * b0 + b1 <<< 8 := by
    rw [Nat.shiftLeft_eq b0, Nat.mul_comm b0, ← Nat.mul_add_lt_is_or]
    rw [Nat.shiftLeft_eq]
    omega
  have e2 : 2 ^ 16 * b0 + b1 <<< 8 = 2 ^ 8 * (256 * b0 + b1) := by
    rw [Nat.shiftLeft_eq]
    omega
  rw [e1, e2, ← Nat.mul_add_lt_is_or (by omega)]
  omega

theorem triple_eq_two (b0 b1 : Nat) (h1 : b1 < 256) :
    (b0 <<< 16) ||| (b1 <<< 8) = 65536 * b0 + 256 * b1 := by
  have := triple_eq b0 b1 0 h1 (by decide)
  simpa using this

theorem base64_decode_loop_step (v : Nat) (hv : v < 64) (cs : List Char)
    (buffer bits : Nat) (out : List uint8_t) :
    base64_decode_loop (c_str_get BASE64_ALPHABET v :: cs) buffer bits out =
      if bits + 6 ≥ 8 then
        base64_decode_loop cs (64 * (buffer % 67108864) + v) (bits + 6 - 8)
          (out ++ [to_uint8 ((64 * (buffer % 67108864) + v) / 2 ^ (bits + 6 - 8) % 256)])
      else base64_decode_loop cs (64 * (buffer % 67108864) + v) (bits + 6) out := by
  have hval := base64_value_alphabet ⟨v, hv⟩
  simp only at hval
  simp only [base64_decode_loop, hval, shift_or_6 buffer v hv, and_255,
    Nat.shiftRight_eq_div_pow]

theorem base64_encode_chunk_three (b0 b1 b2 : uint8_t) :
    base64_encode_chunk b0 (some b1) (some b2) =
      [c_str_get BASE64_ALPHABET ((65536 * b0.val + 256 * b1.val + b2.val) / 262144 % 64),
       c_str_get BASE64_ALPHABET ((65536 * b0.val + 256 * b1.val + b2.val) / 4096 % 64),
       c_str_get BASE64_ALPHABET ((65536 * b0.val + 256 * b1.val + b2.val) / 64 % 64),
       c_str_get BASE64_ALPHABET ((65536 * b0.val + 256 * b1.val + b2.val) % 64)] := by
  simp only [base64_encode_chunk, triple_eq b0.val b1.val b2.val b1.isLt b2.isLt, and_63,
    Nat.shiftRight_eq_div_pow, Option.isSome_some, if_true]

theorem base64_encode_chunk_two (b0 b1 : uint8_t) :
    base64_encode_chunk b0 (some b1) none =
      [c_str_get BASE64_ALPHABET ((65536 * b0.val + 256 * b1.val) / 262144 % 64),
       c_str_get BASE64_ALPHABET ((65536 * b0.val + 256 * b1.val) / 4096 % 64),
       c_str_get BASE64_ALPHABET ((65536 * b0.val + 256 * b1.val) / 64 % 64), '='] := by
  simp only [base64_encode_chunk, triple_eq_two b0.val b1.val b1.isLt, and_63,
    Nat.shiftRight_eq_div_pow, Option.isSome_some, Option.isSome_none, if_true]
  rfl

theorem base64_encode_chunk_one (b0 : uint8_t) :
    base64_encode_chunk b0 none none =
      [c_str_get BASE64_ALPHABET ((65536 * b0.val) / 262144 % 64),
       c_str_get BASE64_ALPHABET ((65536 * b0.val) / 4096 % 64), '=', '='] := by
  have h : b0.val <<< 16 = 65536 * b0.val := by
    rw [Nat.shiftLeft_eq]
    omega
  simp only [base64_encode_chunk, h, and_63, Nat.shiftRight_eq_div_pow, Option.isSome_none]
  rfl

theorem base64_bytes_three (buffer b0 b1 b2 : Nat) (h0 : b0 < 256) (h1 : b1 < 256)
    (h2 : b2 < 256) :
    (64 * ((64 * (buffer % 67108864) + (65536 * b0 + 256 * b1 + b2) / 262144 % 64) % 67108864)
        + (65536 * b0 + 256 * b1 + b2) / 4096 % 64) / 16 % 256 = b0 ∧
    (64 * ((64 * ((64 * (buffer % 67108864) + (65536 * b0 + 256 * b1 + b2) / 262144 % 64)
        % 67108864) + (65536 * b0 + 256 * b1 + b2) / 4096 % 64) % 67108864)
        + (65536 * b0 + 256 * b1 + b2) / 64 % 64) / 4 % 256 = b1 ∧
    (64 * ((64 * ((64 * ((64 * (buffer % 67108864) + (65536 * b0 + 256 * b1 + b2) / 262144 % 64)
        % 67108864) + (65536 * b0 + 256 * b1 + b2) / 4096 % 64) % 67108864)
        + (65536 * b0 + 256 * b1 + b2) / 64 % 64) % 67108864)
        + (65536 * b0 + 256 * b1 + b2) % 64) / 1 % 256 = b2 := by
  refine ⟨?_, ?_, ?_⟩ <;> omega


theorem base64_step_0 (v : Nat) (hv : v < 64) (cs : List Char) (buffer : Nat)
    (out : List uint8_t) :
    base64_decode_loop (c_str_get BASE64_ALPHABET v :: cs) buffer 0 out
      = base64_decode_loop cs (64 * (buffer % 67108864) + v) 6 out := by
  rw [base64_decode_loop_step v hv, if_neg (by decide)]

theorem base64_step_6 (v : Nat) (hv : v < 64) (cs : List Char) (buffer : Nat)
    (out : List uint8_t) :
    base64_decode_loop (c_str_get BASE64_ALPHABET v :: cs) buffer 6 out
      = base64_decode_loop cs (64 * (buffer % 67108864) + v) 4
          (out ++ [to_uint8 ((64 * (buffer % 67108864) + v) / 16 % 256)]) := by
  rw [base64_decode_loop_step v hv, if_pos (by decide)]
  rfl

theorem base64_step_4 (v : Nat) (hv : v < 64) (cs : List Char) (buffer : Nat)
    (out : List uint8_t) :
    base64_decode_loop (c_str_get BASE64_ALPHABET v :: cs) buffer 4 out
      = base64_decode_loop cs (64 * (buffer % 67108864) + v) 2
          (out ++ [to_uint8 ((64 * (buffer % 67108864) + v) / 4 % 256)]) := by
  rw [base64_decode_loop_step v hv, if_pos (by decide)]
  rfl

theorem base64_step_2 (v : Nat) (hv : v < 64) (cs : List Char) (buffer : Nat)
    (out : List uint8_t) :
    base64_decode_loop (c_str_get BASE64_ALPHABET v :: cs) buffer 2 out
      = base64_decode_loop cs (64 * (buffer % 67108864) + v) 0
          (out ++ [to_uint8 ((64 * (buffer % 67108864) + v) / 1 % 256)]) := by
  rw [base64_decode_loop_step v hv, if_pos (by decide)]
  rfl

theorem base64_decode_three (b0 b1 b2 : uint8_t) (cs : List Char) (bytes : List uint8_t)
    (h : ∀ buffer out, base64_decode_loop cs buffer 0 out = some (out ++ bytes))
    (buffer : Nat) (out : List uint8_t) :
    base64_decode_loop (base64_encode_chunk b0 (some b1) (some b2) ++ cs) buffer 0 out
      = some (out ++ b0 :: b1 :: b2 :: bytes) := by
  obtain ⟨e0, e1, e2⟩ := base64_bytes_three buffer b0.val b1.val b2.val b0.isLt b1.isLt b2.isLt
  rw [base64_encode_chunk_three]
  simp only [List.cons_append, List.nil_append]
  rw [base64_step_0 _ (Nat.mod_lt _ (by decide)), base64_step_6 _ (Nat.mod_lt _ (by decide)),
    base64_step_4 _ (Nat.mod_lt _ (by decide)), base64_step_2 _ (Nat.mod_lt _ (by decide)),
    h, e0, e1, e2, to_uint8_of_val, to_uint8_of_val, to_uint8_of_val]
  simp

theorem base64_decode_two (b0 b1 : uint8_t) (buffer : Nat) (out : List uint8_t) :
    base64_decode_loop
        [c_str_get BASE64_ALPHABET ((65536 * b0.val + 256 * b1.val) / 262144 % 64),
         c_str_get BASE64_ALPHABET ((65536 * b0.val + 256 * b1.val) / 4096 % 64),
         c_str_get BASE64_ALPHABET ((65536 * b0.val + 256 * b1.val) / 64 % 64)] buffer 0 out
      = some (out ++ [b0, b1]) := by
  have h0 := b0.isLt
  have h1 := b1.isLt
  have e0 : (64 * ((64 * (buffer % 67108864) + (65536 * b0.val + 256 * b1.val) / 262144 % 64)
      % 67108864) + (65536 * b0.val + 256 * b1.val) / 4096 % 64) / 16 % 256 = b0.val := by
    omega
  have e1 : (64 * ((64 * ((64 * (buffer % 67108864)
      + (65536 * b0.val + 256 * b1.val) / 262144 % 64) % 67108864)
      + (65536 * b0.val + 256 * b1.val) / 4096 % 64) % 67108864)
      + (65536 * b0.val + 256 * b1.val) / 64 % 64) / 4 % 256 = b1.val := by
    omega
  rw [base64_step_0 _ (Nat.mod_lt _ (by decide)), base64_step_6 _ (Nat.mod_lt _ (by decide)),
    base64_step_4 _ (Nat.mod_lt _ (by decide)), e0, e1, to_uint8_of_val, to_uint8_of_val]
  simp [base64_decode_loop]

theorem base64_decode_one (b0 : uint8_t) (buffer : Nat) (out : List uint8_t) :
    base64_decode_loop
        [c_str_get BASE64_ALPHABET ((65536 * b0.val) / 262144 % 64),
         c_str_get BASE64_ALPHABET ((65536 * b0.val) / 4096 % 64)] buffer 0 out
      = some (out ++ [b0]) := by
  have h0 := b0.isLt
  have e0 : (64 * ((64 * (buffer % 67108864) + (65536 * b0.val) / 262144 % 64) % 67108864)
      + (65536 * b0.val) / 4096 % 64) / 16 % 256 = b0.val := by
    omega
  rw [base64_step_0 _ (Nat.mod_lt _ (by decide)), base64_step_6 _ (Nat.mod_lt _ (by decide)),
    e0, to_uint8_of_val]
  simp [base64_decode_loop]

theorem base64_symbol_ne_pad (n : Nat) : c_str_get BASE64_ALPHABET (n % 64) ≠ '=' :=
  base64_alphabet_ne_pad ⟨n % 64, Nat.mod_lt _ (by decide)⟩

theorem base64_encode_split : ∀ data : List uint8_t,
    ∃ (body : List Char) (k : Nat),
      base64_encode data = body ++ List.replicate k '=' ∧ (∀ c ∈ body, c ≠ '=') ∧
      ∀ buffer out, base64_decode_loop body buffer 0 out = some (out ++ data)
  | [] => ⟨[], 0, rfl, by simp, by simp [base64_decode_loop]⟩
  | [b0] => by
    refine ⟨_, 2, ?_, ?_, base64_decode_one b0⟩
    · rw [base64_encode, base64_encode_chunk_one]
      rfl
    · intro c hc
      simp only [List.mem_cons, List.mem_singleton, List.not_mem_nil, or_false] at hc
      rcases hc with rfl | rfl <;> exact base64_symbol_ne_pad _
  | [b0, b1] => by
    refine ⟨_, 1, ?_, ?_, base64_decode_two b0 b1⟩
    · rw [base64_encode, base64_encode_chunk_two]
      rfl
    · intro c hc
      simp only [List.mem_cons, List.mem_singleton, List.not_mem_nil, or_false] at hc
      rcases hc with rfl | rfl | rfl <;> exact base64_symbol_ne_pad _
  | b0 :: b1 :: b2 :: rest => by
    obtain ⟨body, k, henc, hbody, hdec⟩ := base64_encode_split rest
    refine ⟨base64_encode_chunk b0 (some b1) (some b2) ++ body, k, ?_, ?_, ?_⟩
    · rw [base64_encode, henc, List.append_assoc]
    · intro c hc
      rcases List.mem_append.mp hc with hc | hc
      · rw [base64_encode_chunk_three] at hc
        simp only [List.mem_cons, List.mem_singleton, List.not_mem_nil, or_false] at hc
        rcases hc with rfl | rfl | rfl | rfl <;> exact base64_symbol_ne_pad _
      · exact hbody c hc
    · intro buffer out
      exact base64_decode_three b0 b1 b2 body rest hdec buffer out

theorem base64_round_trip (data : List uint8_t) :
    base64_decode (base64_encode data) = some data := by
  obtain ⟨body, k, henc, hbody, hdec⟩ := base64_encode_split data
  by_cases hlen : (base64_encode data).length = 0
  · have hb : body = [] := by
      rw [henc, List.length_append] at hlen
      exact List.length_eq_zero.mp (by omega)
    subst hb
    have h := hdec 0 []
    simp only [base64_decode_loop, List.nil_append, Option.some.injEq] at h
    simp only [base64_decode, hlen, if_true, h]
  · have hlast : body.reverse.head? ≠ some '=' := by
      intro e
      have hmem : '=' ∈ body.reverse := List.mem_of_mem_head? e
      exact hbody '=' (List.mem_reverse.mp hmem) rfl
    have hcount : count_leading '=' (base64_encode data).reverse = k := by
      rw [henc, List.reverse_append, List.reverse_replicate]
      exact count_leading_replicate_append '=' k _ hlast
    have htake : (base64_encode data).take ((base64_encode data).length - k) = body := by
      rw [henc, List.length_append, List.length_replicate, Nat.add_sub_cancel]
      exact List.take_left' rfl
    simp only [base64_decode, hlen, if_false, hcount, htake]
    simpa using hdec 0 []

/-- C8: for every byte sequence `data`, the empty one included, `base64_decode` succeeds on
`base64_encode data` and returns exactly `data`. -/
theorem base64_decode_encode (data : List uint8_t) :
    base64_decode (base64_encode data) = some data :=
  base64_round_trip data

theorem strchr_from_some {xs : List Char} {c : Char} {i j : Nat}
    (h : strchr_from xs c i = some j) : c ∈ xs ∨ c = Char.ofNat 0 := by
  induction xs generalizing i with
  | nil =>
    by_cases hc : c = Char.ofNat 0
    · exact Or.inr hc
    · simp [strchr_from, hc] at h
  | cons x xs ih =>
    by_cases hx : x = c
    · exact Or.inl (by simp [hx])
    · simp only [strchr_from, hx, if_false] at h
      rcases ih h with h' | h'
      · exact Or.inl (List.mem_cons_of_mem _ h')
      · exact Or.inr h'

theorem base58_decode_loop_rejects {s : List Char} {c : Char} (hc : c ∈ s)
    (hout : c ∉ BASE58_ALPHABET) (hnul : c ≠ Char.ofNat 0) :
    ∀ buf, base58_decode_loop s buf = none := by
  induction s with
  | nil => simp at hc
  | cons x xs ih =>
    intro buf
    cases hs : strchr BASE58_ALPHABET x with
    | none => simp [base58_decode_loop, hs]
    | some p =>
      have hx : x ≠ c := by
        intro e
        subst e
        rcases strchr_from_some hs with h | h
        · exact hout h
        · exact hnul h
      have hc' : c ∈ xs := by
        rcases List.mem_cons.mp hc with h | h
        · exact absurd h.symm hx
        · exact h
      simp only [base58_decode_loop, hs]
      exact ih hc' _

/-- Every character outside the alphabet other than NUL is rejected: a string with a character
that is neither one of the 58 symbols nor NUL makes `base58_decode` fail. -/
theorem base58_decode_rejects (s : List Char) (c : Char) (hc : c ∈ s)
    (hout : c ∉ BASE58_ALPHABET) (hnul : c ≠ Char.ofNat 0) : base58_decode s = none := by
  have hlen : s.length ≠ 0 := by
    intro e
    rw [List.length_eq_zero.mp e] at hc
    simp at hc
  simp only [base58_decode, hlen, if_false, base58_decode_loop_rejects hc hout hnul]

/-! ## Signing and verifying a message -/

theorem mirror_curve_recovers_signer : recovers_signer mirror_curve := by
  intro hash seckey hlen _
  refine ⟨seckey ++ seckey, seckey, rfl, ?_, ?_, ⟨seckey ++ seckey, rfl, ?_⟩, rfl,
    fun c => ⟨_, rfl⟩⟩
  · simp [mirror_curve, hlen]
  · simp [mirror_curve]
  · simp [mirror_curve, List.take_left' hlen]

theorem header_decode (recid : Nat) (hrec : recid < 4) (c : Bool) :
    (to_uint8 (27 + recid + (if c then 4 else 0))).val - 27 &&& 3 = recid ∧
    decide ((to_uint8 (27 + recid + (if c then 4 else 0))).val - 27 ≥ 4) = c ∧
    ¬((to_uint8 (27 + recid + (if c then 4 else 0))).val < 27 ∨
      (to_uint8 (27 + recid + (if c then 4 else 0))).val ≥ 27 + 8) := by
  interval_cases recid <;> cases c <;> decide

theorem sign_then_verify (ec : Secp256k1) (message : List Char)
    (k : List uint8_t) (c : Bool) (hec : recovers_signer ec) (hlen : k.length = 32)
    (hlo : 1 ≤ be_value k) (hhi : be_value k < curve_order) :
    ∃ pk, derive_public_key ec k c = some pk ∧
      verify_message ec message (sign_message ec message k c)
        (public_key_to_address pk true) = true := by
  have hkey := seckey_verify_of_range hlen hlo hhi
  obtain ⟨sig, pubkey, hsign, hclen, hrec, ⟨parsed, hparse, hrecover⟩, hcreate, hser⟩ :=
    hec (sha256_double (construct_bitcoin_message message)) k hlen hkey
  obtain ⟨bytes, hbytes⟩ := hser c
  refine ⟨bytes, by simp [derive_public_key, hlen, hkey, hcreate, hbytes], ?_⟩
  rcases hsc : ec.recoverable_signature_serialize_compact sig with ⟨compact, recid⟩
  rw [hsc] at hclen hrec hparse
  simp only at hclen hrec hparse
  obtain ⟨h1, h2, h3⟩ := header_decode recid hrec c
  have htake : compact.take 64 = compact := List.take_of_length_le (by omega)
  simp only [sign_message, hlen, ne_eq, not_true_eq_false, if_false, hsign, hsc, htake,
    verify_message, base64_round_trip, List.singleton_append, List.length_cons, hclen,
    List.getD_cons_zero, h1, h2, h3, List.drop_succ_cons, List.drop_zero, hparse, hrecover,
    hbytes, decide_True]

/-- C5: for every message, every valid private key `k` and every compression flag `c`, on an
elliptic-curve primitive that recovers the signer's public key from a signature it produced,
`derive_public_key k c` succeeds and `verify_message` accepts `sign_message message k c`
for the address of that public key (`public_key_to_address` with its default network
argument, mainnet). -/
theorem verify_message_of_sign_message (ec : Secp256k1) (message : List Char)
    (k : List uint8_t) (c : Bool) (hec : recovers_signer ec) (hlen : k.length = 32)
    (hlo : 1 ≤ be_value k) (hhi : be_value k < curve_order) :
    ∃ pk, derive_public_key ec k c = some pk ∧
      verify_message ec message (sign_message ec message k c)
        (public_key_to_address pk true) = true :=
  sign_then_verify ec message k c hec hlen hlo hhi

/-- Signing and verifying the message "hi" with the key of value 1 on the instance
`mirror_curve` of the library interface. -/
theorem verify_message_of_sign_message_witness :
    ∃ pk, derive_public_key mirror_curve (List.replicate 31 (0 : uint8_t) ++ [1]) true = some pk ∧
      verify_message mirror_curve "hi".toList
        (sign_message mirror_curve "hi".toList (List.replicate 31 (0 : uint8_t) ++ [1]) true)
        (public_key_to_address pk true) = true :=
  verify_message_of_sign_message mirror_curve "hi".toList
    (List.replicate 31 (0 : uint8_t) ++ [1]) true mirror_curve_recovers_signer
    (by decide) (by decide) (by decide)

/-! ## Hexadecimal -/

theorem hex_digit_value_chars : ∀ n : Fin 16,
    hex_digit_value (c_str_get hex_chars n.val) = some n.val := by
  decide

theorem hex_chars_lowercase : ∀ n : Fin 16,
    ('0' ≤ c_str_get hex_chars n.val ∧ c_str_get hex_chars n.val ≤ '9') ∨
    ('a' ≤ c_str_get hex_chars n.val ∧ c_str_get hex_chars n.val ≤ 'f') := by
  decide

theorem hex_high_lt (b : uint8_t) : b.val >>> 4 < 16 := by
  rw [Nat.shiftRight_eq_div_pow]
  have := b.isLt
  omega

theorem hex_low_lt (b : uint8_t) : b.val &&& 0x0F < 16 := by
  rw [Nat.and_pow_two_sub_one_eq_mod b.val 4]
  exact Nat.mod_lt _ (by decide)

theorem hex_byte_rebuilt (b : uint8_t) :
    to_uint8 ((to_uint8 ((b.val >>> 4) <<< 4)).val ||| (b.val &&& 0x0F)) = b := by
  have hb := b.isLt
  have hlo : b.val &&& 0x0F = b.val % 16 := Nat.and_pow_two_sub_one_eq_mod b.val 4
  have hhi : (b.val >>> 4) <<< 4 = 2 ^ 4 * (b.val / 16) := by
    rw [Nat.shiftRight_eq_div_pow, Nat.shiftLeft_eq]
    omega
  have hsmall : 2 ^ 4 * (b.val / 16) < 256 := by omega
  apply Fin.ext
  rw [to_uint8_val, hlo, hhi, to_uint8_val_of_lt hsmall,
    ← Nat.mul_add_lt_is_or (Nat.mod_lt _ (by decide))]
  omega

theorem bytes_to_hex_cons (b : uint8_t) (rest : List uint8_t) :
    bytes_to_hex (b :: rest) =
      c_str_get hex_chars (b.val >>> 4) :: c_str_get hex_chars (b.val &&& 0x0F)
        :: bytes_to_hex rest := by
  simp [bytes_to_hex]

theorem bytes_to_hex_length (data : List uint8_t) :
    (bytes_to_hex data).length = 2 * data.length := by
  induction data with
  | nil => rfl
  | cons b rest ih =>
    rw [bytes_to_hex_cons, List.length_cons, List.length_cons, ih, List.length_cons]
    omega

theorem hex_to_bytes_loop_of_hex (data : List uint8_t) :
    ∀ out, hex_to_bytes_loop (bytes_to_hex data) out = some (out ++ data) := by
  induction data with
  | nil =>
    intro out
    simp [bytes_to_hex, hex_to_bytes_loop]
  | cons b rest ih =>
    intro out
    have hh := hex_digit_value_chars ⟨b.val >>> 4, hex_high_lt b⟩
    have hl := hex_digit_value_chars ⟨b.val &&& 0x0F, hex_low_lt b⟩
    simp only at hh hl
    rw [bytes_to_hex_cons]
    simp only [hex_to_bytes_loop, hh, hl, hex_byte_rebuilt, ih]
    simp

/-- C9: for every byte sequence `data`, `hex_to_bytes` succeeds on `bytes_to_hex data` and
returns exactly `data`, and `bytes_to_hex data` has `2 * data.length` characters, each a
lowercase hex digit 0-9 or a-f. -/
theorem hex_to_bytes_of_hex (data : List uint8_t) :
    hex_to_bytes (bytes_to_hex data) = some data ∧
    (bytes_to_hex data).length = 2 * data.length ∧
    ∀ c ∈ bytes_to_hex data, ('0' ≤ c ∧ c ≤ '9') ∨ ('a' ≤ c ∧ c ≤ 'f') := by
  refine ⟨?_, bytes_to_hex_length data, ?_⟩
  · have hlen := bytes_to_hex_length data
    have heven : ¬((bytes_to_hex data).length % 2 ≠ 0) := by omega
    simp only [hex_to_bytes, heven, if_false]
    simpa using hex_to_bytes_loop_of_hex data []
  · intro c hc
    simp only [bytes_to_hex, List.mem_flatMap, List.mem_cons, List.mem_singleton,
      List.not_mem_nil, or_false] at hc
    obtain ⟨b, -, rfl | rfl⟩ := hc
    · exact hex_chars_lowercase ⟨b.val >>> 4, hex_high_lt b⟩
    · exact hex_chars_lowercase ⟨b.val &&& 0x0F, hex_low_lt b⟩

/-! ## Characters outside the Base58 alphabet -/

/-- C10 fails on the code: the NUL character is not one of the 58 symbols of
`BASE58_ALPHABET`, yet `base58_decode` accepts the one-character string made of it and
returns the byte 58, since `strchr` finds the terminating NUL of the alphabet at offset 58. -/
theorem base58_decode_accepts_nul :
    Char.ofNat 0 ∉ BASE58_ALPHABET ∧ base58_decode [Char.ofNat 0] = some [58] := by
  decide

/-! ## Importing a key from the wallet import format -/

theorem wif_to_private_key_of_payload (wif : List Char) (out : WifOutputs)
    (payload : List uint8_t) (hdec : base58check_decode wif = some payload) :
    wif_to_private_key wif out =
      if payload.length ≠ 33 ∧ payload.length ≠ 34 then (false, out)
      else if payload.getD 0 0 ≠ 0x9e ∧ payload.getD 0 0 ≠ 0xf1 then (false, out)
      else if payload.length = 34 ∧ payload.getD 33 0 ≠ 0x01 then
        (false, ⟨out.private_key, out.compressed, decide (payload.getD 0 0 = 0x9e)⟩)
      else if secp256k1_ec_seckey_verify ((payload.drop 1).take 32) = false then
        (false, ⟨(payload.drop 1).take 32, decide (payload.length = 34),
          decide (payload.getD 0 0 = 0x9e)⟩)
      else
        (true, ⟨(payload.drop 1).take 32, decide (payload.length = 34),
          decide (payload.getD 0 0 = 0x9e)⟩) := by
  simp only [wif_to_private_key, hdec]
  by_cases hlen : payload.length ≠ 33 ∧ payload.length ≠ 34
  · rw [if_pos hlen, if_pos hlen]
  · rw [if_neg hlen, if_neg hlen]
    by_cases h1 : payload.getD 0 0 = 0x9e
    · have hn : ¬(payload.getD 0 0 ≠ 0x9e ∧ payload.getD 0 0 ≠ 0xf1) := fun h => h.1 h1
      rw [if_pos h1, if_neg hn, decide_eq_true h1]
    · by_cases h2 : payload.getD 0 0 = 0xf1
      · have hn : ¬(payload.getD 0 0 ≠ 0x9e ∧ payload.getD 0 0 ≠ 0xf1) := fun h => h.2 h2
        rw [if_neg h1, if_pos h2, if_neg hn, decide_eq_false h1]
      · rw [if_neg h1, if_neg h2, if_pos ⟨h1, h2⟩]

theorem wif_to_private_key_success (wif : List Char) (out : WifOutputs) :
    ((wif_to_private_key wif out).1 = true ↔
      ∃ payload, base58check_decode wif = some payload ∧
        (payload.length = 33 ∨ (payload.length = 34 ∧ payload.getD 33 0 = 0x01)) ∧
        (payload.getD 0 0 = 0x9e ∨ payload.getD 0 0 = 0xf1) ∧
        secp256k1_ec_seckey_verify ((payload.drop 1).take 32) = true) ∧
    (∀ payload, base58check_decode wif = some payload ∧ (wif_to_private_key wif out).1 = true →
      (wif_to_private_key wif out).2 =
        ⟨(payload.drop 1).take 32, decide (payload.length = 34),
          decide (payload.getD 0 0 = 0x9e)⟩) := by
  cases hdec : base58check_decode wif with
  | none => simp [wif_to_private_key, hdec]
  | some payload =>
    rw [wif_to_private_key_of_payload wif out payload hdec]
    constructor
    · constructor
      · intro h
        refine ⟨payload, rfl, ?_⟩
        split_ifs at h with h1 h2 h3 h4
        refine ⟨?_, ?_, ?_⟩
        · by_cases h33 : payload.length = 33
          · exact Or.inl h33
          · have h34 : payload.length = 34 := by
              by_contra h34
              exact h1 ⟨h33, h34⟩
            refine Or.inr ⟨h34, ?_⟩
            by_contra hflag
            exact h3 ⟨h34, hflag⟩
        · by_contra hv
          push_neg at hv
          exact h2 hv
        · simpa using h4
      · rintro ⟨p, hp, hlen, hver, hkey⟩
        cases hp
        have h1 : ¬(payload.length ≠ 33 ∧ payload.length ≠ 34) := by
          rcases hlen with h | ⟨h, -⟩ <;> omega
        have h2 : ¬(payload.getD 0 0 ≠ 0x9e ∧ payload.getD 0 0 ≠ 0xf1) := by
          rintro ⟨ha, hb⟩
          rcases hver with h | h
          · exact ha h
          · exact hb h
        have h3 : ¬(payload.length = 34 ∧ payload.getD 33 0 ≠ 0x01) := by
          rintro ⟨ha, hb⟩
          rcases hlen with h | ⟨-, h⟩
          · omega
          · exact hb h
        simp only [h1, h2, h3, hkey, if_false]
        simp
    · rintro p ⟨hp, h⟩
      cases hp
      split_ifs at h ⊢ with h1 h2 h3 h4
      rfl

/-- C11: `wif_to_private_key` succeeds exactly when `base58check_decode` succeeds with a
payload that has length 33, or length 34 with last byte 0x01, whose first byte is 0x9e or
0xf1, and whose bytes 1..32 pass the curve-range check; on success the output parameters
hold those 32 bytes, `compressed = (length is 34)` and `mainnet = (first byte is 0x9e)`. -/
theorem wif_to_private_key_iff (wif : List Char) (out : WifOutputs) :
    ((wif_to_private_key wif out).1 = true ↔
      ∃ payload, base58check_decode wif = some payload ∧
        (payload.length = 33 ∨ (payload.length = 34 ∧ payload.getD 33 0 = 0x01)) ∧
        (payload.getD 0 0 = 0x9e ∨ payload.getD 0 0 = 0xf1) ∧
        secp256k1_ec_seckey_verify ((payload.drop 1).take 32) = true) ∧
    (∀ payload, base58check_decode wif = some payload ∧ (wif_to_private_key wif out).1 = true →
      (wif_to_private_key wif out).2 =
        ⟨(payload.drop 1).take 32, decide (payload.length = 34),
          decide (payload.getD 0 0 = 0x9e)⟩) :=
  wif_to_private_key_success wif out

/-! ## From a public key, or an imported key, to an address -/

theorem base58_encode_ne_nil {data : List uint8_t} (h : data ≠ []) : base58_encode data ≠ [] := by
  intro e
  have hrt := base58_round_trip data
  rw [e] at hrt
  have hnil : base58_decode [] = some [] := rfl
  rw [hnil] at hrt
  exact h (Option.some.inj hrt).symm

theorem base58check_encode_ne_nil (payload : List uint8_t) : base58check_encode payload ≠ [] := by
  apply base58_encode_ne_nil
  intro e
  have hlen := congrArg List.length e
  rw [List.length_append, checksum_length] at hlen
  simp at hlen

theorem hash160_take (data : List uint8_t) : (hash160 data).take 20 = hash160 data :=
  List.take_of_length_le (by rw [hash160_length])

/-- C12: `public_key_to_address pk m` is the empty string, the failure value, exactly when
the length of `pk` is neither 33 nor 65; otherwise it is `base58check_encode` of the 21-byte
payload made of the version byte, 0x1e on mainnet and 0x71 on testnet, and `hash160 pk`. -/
theorem public_key_to_address_eq (pk : List uint8_t) (m : Bool) :
    (public_key_to_address pk m = [] ↔ ¬(pk.length = 33 ∨ pk.length = 65)) ∧
    ((pk.length = 33 ∨ pk.length = 65) →
      public_key_to_address pk m
        = base58check_encode ((if m then (0x1e : uint8_t) else 0x71) :: hash160 pk) ∧
      ((if m then (0x1e : uint8_t) else 0x71) :: hash160 pk).length = 21) := by
  by_cases hsize : pk.length ≠ 33 ∧ pk.length ≠ 65
  · have hno : ¬(pk.length = 33 ∨ pk.length = 65) := by omega
    have heq : public_key_to_address pk m = [] := by
      simp only [public_key_to_address]
      rw [if_pos hsize]
    exact ⟨⟨fun _ => hno, fun _ => heq⟩, fun h => absurd h hno⟩
  · have hyes : pk.length = 33 ∨ pk.length = 65 := by omega
    have heq : public_key_to_address pk m
        = base58check_encode ((if m then (0x1e : uint8_t) else 0x71) :: hash160 pk) := by
      simp only [public_key_to_address, hsize, if_false, hash160_take, List.singleton_append]
    refine ⟨?_, fun _ => ⟨heq, by rw [List.length_cons, hash160_length]⟩⟩
    rw [heq]
    constructor
    · intro e
      exact absurd e (base58check_encode_ne_nil _)
    · intro hno
      exact absurd hyes hno

theorem wif_to_address_cases (ec : Secp256k1) (wif : List Char) (c0 m0 : Bool) :
    (∀ out, wif_to_private_key wif ⟨[], c0, m0⟩ = (false, out) →
      wif_to_address ec wif c0 m0 = []) ∧
    (∀ out, wif_to_private_key wif ⟨[], c0, m0⟩ = (true, out) →
      derive_public_key ec out.private_key out.compressed = none →
      wif_to_address ec wif c0 m0 = []) ∧
    (∀ out pk, wif_to_private_key wif ⟨[], c0, m0⟩ = (true, out) →
      derive_public_key ec out.private_key out.compressed = some pk →
      wif_to_address ec wif c0 m0 = public_key_to_address pk out.mainnet) := by
  refine ⟨?_, ?_, ?_⟩
  · intro out h
    simp only [wif_to_address, h]
  · intro out h hd
    simp only [wif_to_address, h, hd]
  · intro out pk h hd
    simp only [wif_to_address, h, hd]

/-- C13: `wif_to_address w` is the empty string, the failure value, whenever
`wif_to_private_key w` fails or `derive_public_key` fails on the imported key; otherwise,
with `(k, c, m)` the imported key, flag and network, it is
`public_key_to_address (derive_public_key k c) m`. So for every valid key `k`,
`wif_to_address (private_key_to_wif k c m)` is the address on network `m` of the public key
derived from `k` with flag `c` (and the failure value if that derivation fails), whatever the
two uninitialised locals `c0`, `m0` hold. -/
theorem wif_to_address_eq (ec : Secp256k1) (wif : List Char) (c0 m0 : Bool)
    (k : List uint8_t) (c m : Bool)
    (hlen : k.length = 32) (hlo : 1 ≤ be_value k) (hhi : be_value k < curve_order) :
    (∀ out, wif_to_private_key wif ⟨[], c0, m0⟩ = (false, out) →
      wif_to_address ec wif c0 m0 = []) ∧
    (∀ out, wif_to_private_key wif ⟨[], c0, m0⟩ = (true, out) →
      derive_public_key ec out.private_key out.compressed = none →
      wif_to_address ec wif c0 m0 = []) ∧
    (∀ out pk, wif_to_private_key wif ⟨[], c0, m0⟩ = (true, out) →
      derive_public_key ec out.private_key out.compressed = some pk →
      wif_to_address ec wif c0 m0 = public_key_to_address pk out.mainnet) ∧
    (derive_public_key ec k c = none →
      wif_to_address ec (private_key_to_wif k c m) c0 m0 = []) ∧
    (∀ pk, derive_public_key ec k c = some pk →
      wif_to_address ec (private_key_to_wif k c m) c0 m0 = public_key_to_address pk m) := by
  obtain ⟨h1, h2, h3⟩ := wif_to_address_cases ec wif c0 m0
  obtain ⟨-, g2, g3⟩ := wif_to_address_cases ec (private_key_to_wif k c m) c0 m0
  have hrt := wif_round_trip k c m ⟨[], c0, m0⟩ hlen hlo hhi
  exact ⟨h1, h2, h3, fun hd => g2 ⟨k, c, m⟩ hrt hd, fun pk hd => g3 ⟨k, c, m⟩ pk hrt hd⟩

/-- The address of an imported key on the instance `mirror_curve`, for the text "QNea" and
the key of value 1. -/
theorem wif_to_address_eq_witness :
    (∀ out, wif_to_private_key "QNea".toList
        ⟨[], false, false⟩ = (false, out) →
      wif_to_address mirror_curve "QNea".toList
        false false = []) ∧
    (∀ out, wif_to_private_key "QNea".toList
        ⟨[], false, false⟩ = (true, out) →
      derive_public_key mirror_curve out.private_key out.compressed = none →
      wif_to_address mirror_curve "QNea".toList
        false false = []) ∧
    (∀ out pk, wif_to_private_key "QNea".toList
        ⟨[], false, false⟩ = (true, out) →
      derive_public_key mirror_curve out.private_key out.compressed = some pk →
      wif_to_address mirror_curve "QNea".toList
        false false = public_key_to_address pk out.mainnet) ∧
    (derive_public_key mirror_curve (List.replicate 31 (0 : uint8_t) ++ [1]) true = none →
      wif_to_address mirror_curve
        (private_key_to_wif (List.replicate 31 (0 : uint8_t) ++ [1]) true true) false false
        = []) ∧
    (∀ pk, derive_public_key mirror_curve (List.replicate 31 (0 : uint8_t) ++ [1]) true
        = some pk →
      wif_to_address mirror_curve
        (private_key_to_wif (List.replicate 31 (0 : uint8_t) ++ [1]) true true) false false
        = public_key_to_address pk true) := by
  have h := wif_to_address_eq mirror_curve "QNea".toList false false
    (List.replicate 31 (0 : uint8_t) ++ [1]) true true (by decide) (by decide) (by decide)
  exact h

/-! ## Verification: what is rejected before the curve is consulted -/

theorem verify_message_rejects_early (ec : Secp256k1) (message s address : List Char) :
    (base64_decode s = none → verify_message ec message s address = false) ∧
    (∀ signature, base64_decode s = some signature ∧ signature.length ≠ 65 →
      verify_message ec message s address = false) ∧
    (∀ signature, base64_decode s = some signature ∧
        ((signature.getD 0 0).val < 27 ∨ 35 ≤ (signature.getD 0 0).val) →
      verify_message ec message s address = false) := by
  refine ⟨?_, ?_, ?_⟩
  · intro h
    simp only [verify_message, h]
  · rintro signature ⟨h, hlen⟩
    simp only [verify_message, h]
    rw [if_pos hlen]
  · rintro signature ⟨h, hrange⟩
    simp only [verify_message, h]
    by_cases hlen : signature.length ≠ 65
    · rw [if_pos hlen]
    · have hr : (signature.getD 0 0).val < 27 ∨ (signature.getD 0 0).val ≥ 27 + 8 := by omega
      rw [if_neg hlen, if_pos hr]

/-- C15: `verify_message` returns false whenever `base64_decode` fails on the signature
string, or the decoded signature does not have exactly 65 bytes, or its first byte, the
header, lies outside `[27, 35)`. -/
theorem verify_message_rejects (ec : Secp256k1) (message s address : List Char) :
    (base64_decode s = none → verify_message ec message s address = false) ∧
    (∀ signature, base64_decode s = some signature ∧ signature.length ≠ 65 →
      verify_message ec message s address = false) ∧
    (∀ signature, base64_decode s = some signature ∧
        ((signature.getD 0 0).val < 27 ∨ 35 ≤ (signature.getD 0 0).val) →
      verify_message ec message s address = false) :=
  verify_message_rejects_early ec message s address

/-! ## The signature header -/

theorem sign_message_header (ec : Secp256k1) (message : List Char) (private_key : List uint8_t)
    (compressed : Bool) (sig : List uint8_t) (hlen : private_key.length = 32)
    (hsign : ec.ecdsa_sign_recoverable (sha256_double (construct_bitcoin_message message))
      private_key = some sig) :
    sign_message ec message private_key compressed =
      base64_encode (signature_header (ec.recoverable_signature_serialize_compact sig).2
        compressed :: (ec.recoverable_signature_serialize_compact sig).1.take 64) := by
  simp only [sign_message, hlen, ne_eq, not_true_eq_false, if_false, hsign, signature_header,
    List.singleton_append]

theorem verify_message_header (ec : Secp256k1) (message s address : List Char)
    (signature : List uint8_t) (hdec : base64_decode s = some signature)
    (hlen : signature.length = 65)
    (hrange : 27 ≤ (signature.getD 0 0).val ∧ (signature.getD 0 0).val < 35) :
    verify_message ec message s address =
      match ec.recoverable_signature_parse_compact (signature.drop 1)
          (header_recovery_id (signature.getD 0 0).val) with
      | none => false
      | some sig =>
        match ec.ecdsa_recover sig (sha256_double (construct_bitcoin_message message)) with
        | none => false
        | some pubkey =>
          match ec.ec_pubkey_serialize pubkey (header_compressed (signature.getD 0 0).val) with
          | none => false
          | some pubkey_bytes => decide (public_key_to_address pubkey_bytes true = address) := by
  have h1 : ¬(signature.length ≠ 65) := by omega
  have h2 : ¬((signature.getD 0 0).val < 27 ∨ (signature.getD 0 0).val ≥ 27 + 8) := by omega
  simp only [verify_message, hdec]
  rw [if_neg h1, if_neg h2]
  rfl

/-- The arithmetic of the header byte alone: for every recovery id `r` in 0..3 and every
compression flag `c`, the byte `27 + r + (4 if c)` lies in `[27, 35)`, and `(h - 27) & 3` and
`(h - 27) >= 4` give back `r` and `c`. -/
theorem signature_header_decode (r : Nat) (c : Bool) (hr : r < 4) :
    (signature_header r c).val = 27 + r + (if c then 4 else 0) ∧
    27 ≤ (signature_header r c).val ∧ (signature_header r c).val < 35 ∧
    header_recovery_id (signature_header r c).val = r ∧
    header_compressed (signature_header r c).val = c := by
  interval_cases r <;> cases c <;> decide

/-- The header for recovery id 3 of a compressed key. -/
theorem signature_header_decode_witness :
    (signature_header 3 true).val = 27 + 3 + (if true then 4 else 0) ∧
    27 ≤ (signature_header 3 true).val ∧ (signature_header 3 true).val < 35 ∧
    header_recovery_id (signature_header 3 true).val = 3 ∧
    header_compressed (signature_header 3 true).val = true :=
  signature_header_decode 3 true (by decide)

/-! ## The header byte from `sign_message` to `verify_message` -/

theorem sign_message_header_read (ec : Secp256k1) (message address : List Char)
    (private_key : List uint8_t) (compressed : Bool) (sig : List uint8_t)
    (hlen : private_key.length = 32)
    (hsign : ec.ecdsa_sign_recoverable (sha256_double (construct_bitcoin_message message))
      private_key = some sig)
    (hsize : (ec.recoverable_signature_serialize_compact sig).1.length = 64)
    (hrec : (ec.recoverable_signature_serialize_compact sig).2 < 4) :
    ∃ signature : List uint8_t,
      base64_decode (sign_message ec message private_key compressed) = some signature ∧
      signature.length = 65 ∧
      signature.drop 1 = (ec.recoverable_signature_serialize_compact sig).1 ∧
      (signature.getD 0 0).val =
        27 + (ec.recoverable_signature_serialize_compact sig).2 +
          (if compressed then 4 else 0) ∧
      27 ≤ (signature.getD 0 0).val ∧ (signature.getD 0 0).val < 35 ∧
      ((signature.getD 0 0).val - 27) &&& 3 =
        (ec.recoverable_signature_serialize_compact sig).2 ∧
      decide ((signature.getD 0 0).val - 27 ≥ 4) = compressed ∧
      verify_message ec message (sign_message ec message private_key compressed) address =
        match ec.recoverable_signature_parse_compact
            (ec.recoverable_signature_serialize_compact sig).1
            (ec.recoverable_signature_serialize_compact sig).2 with
        | none => false
        | some parsed =>
          match ec.ecdsa_recover parsed (sha256_double (construct_bitcoin_message message)) with
          | none => false
          | some pubkey =>
            match ec.ec_pubkey_serialize pubkey compressed with
            | none => false
            | some pubkey_bytes =>
              decide (public_key_to_address pubkey_bytes true = address) := by
  have hs := sign_message_header ec message private_key compressed sig hlen hsign
  have htake : (ec.recoverable_signature_serialize_compact sig).1.take 64 =
      (ec.recoverable_signature_serialize_compact sig).1 :=
    List.take_of_length_le (by omega)
  rw [htake] at hs
  obtain ⟨hval, hlo, hhi, hid, hcomp⟩ :
      (signature_header (ec.recoverable_signature_serialize_compact sig).2 compressed).val =
        27 + (ec.recoverable_signature_serialize_compact sig).2 +
          (if compressed then 4 else 0) ∧
      27 ≤ (signature_header (ec.recoverable_signature_serialize_compact sig).2
        compressed).val ∧
      (signature_header (ec.recoverable_signature_serialize_compact sig).2
        compressed).val < 35 ∧
      header_recovery_id (signature_header (ec.recoverable_signature_serialize_compact sig).2
        compressed).val = (ec.recoverable_signature_serialize_compact sig).2 ∧
      header_compressed (signature_header (ec.recoverable_signature_serialize_compact sig).2
        compressed).val = compressed := by
    generalize (ec.recoverable_signature_serialize_compact sig).2 = r at hrec
    interval_cases r <;> cases compressed <;> decide
  have hdec : base64_decode (sign_message ec message private_key compressed) =
      some (signature_header (ec.recoverable_signature_serialize_compact sig).2 compressed ::
        (ec.recoverable_signature_serialize_compact sig).1) := by
    rw [hs, base64_round_trip]
  have hv := verify_message_header ec message
    (sign_message ec message private_key compressed) address _ hdec
    (by rw [List.length_cons, hsize]) ⟨hlo, hhi⟩
  refine ⟨_, hdec, by rw [List.length_cons, hsize], rfl, hval, hlo, hhi, hid, hcomp, ?_⟩
  have hget : (signature_header (ec.recoverable_signature_serialize_compact sig).2 compressed ::
      (ec.recoverable_signature_serialize_compact sig).1).getD 0 0 =
      signature_header (ec.recoverable_signature_serialize_compact sig).2 compressed := rfl
  have hdrop : (signature_header (ec.recoverable_signature_serialize_compact sig).2 compressed ::
      (ec.recoverable_signature_serialize_compact sig).1).drop 1 =
      (ec.recoverable_signature_serialize_compact sig).1 := rfl
  rw [hget, hdrop, hid, hcomp] at hv
  exact hv

/-- C16: whenever `sign_message` gets a signature from the curve primitive, with a 64-byte
compact form and a recovery id `r` in 0..3, for either compression flag `c`: the string it
returns decodes to 65 bytes whose first byte is `27 + r + (4 if c)`, a value in `[27, 35)`,
followed by the compact form; `(h - 27) & 3` is `r` and `(h - 27) >= 4` is `c` for that byte
`h`; and `verify_message` on that string calls the parse primitive with exactly `r` and the
serialisation of the recovered key with exactly `c`. -/
theorem sign_message_header_decoded (ec : Secp256k1) (message address : List Char)
    (private_key : List uint8_t) (compressed : Bool) (sig : List uint8_t)
    (hlen : private_key.length = 32)
    (hsign : ec.ecdsa_sign_recoverable (sha256_double (construct_bitcoin_message message))
      private_key = some sig)
    (hsize : (ec.recoverable_signature_serialize_compact sig).1.length = 64)
    (hrec : (ec.recoverable_signature_serialize_compact sig).2 < 4) :
    ∃ signature : List uint8_t,
      base64_decode (sign_message ec message private_key compressed) = some signature ∧
      signature.length = 65 ∧
      signature.drop 1 = (ec.recoverable_signature_serialize_compact sig).1 ∧
      (signature.getD 0 0).val =
        27 + (ec.recoverable_signature_serialize_compact sig).2 +
          (if compressed then 4 else 0) ∧
      27 ≤ (signature.getD 0 0).val ∧ (signature.getD 0 0).val < 35 ∧
      ((signature.getD 0 0).val - 27) &&& 3 =
        (ec.recoverable_signature_serialize_compact sig).2 ∧
      decide ((signature.getD 0 0).val - 27 ≥ 4) = compressed ∧
      verify_message ec message (sign_message ec message private_key compressed) address =
        match ec.recoverable_signature_parse_compact
            (ec.recoverable_signature_serialize_compact sig).1
            (ec.recoverable_signature_serialize_compact sig).2 with
        | none => false
        | some parsed =>
          match ec.ecdsa_recover parsed (sha256_double (construct_bitcoin_message message)) with
          | none => false
          | some pubkey =>
            match ec.ec_pubkey_serialize pubkey compressed with
            | none => false
            | some pubkey_bytes =>
              decide (public_key_to_address pubkey_bytes true = address) :=
  sign_message_header_read ec message address private_key compressed sig hlen hsign hsize hrec

/-- The instance `mirror_curve` with recovery id 3, the key of value 1 and a compressed key:
the string that `sign_message` returns decodes to 65 bytes that start with the header 34. -/
theorem sign_message_header_decoded_witness :
    ∃ signature : List uint8_t,
      base64_decode
        (sign_message
          { mirror_curve with recoverable_signature_serialize_compact := fun sig => (sig, 3) }
          "hi".toList (List.replicate 31 (0 : uint8_t) ++ [1]) true) = some signature ∧
      signature.length = 65 ∧ (signature.getD 0 0).val = 34 ∧
      ((signature.getD 0 0).val - 27) &&& 3 = 3 ∧
      decide ((signature.getD 0 0).val - 27 ≥ 4) = true := by
  obtain ⟨signature, h1, h2, -, h4, -, -, h7, h8, -⟩ :=
    sign_message_header_decoded
      { mirror_curve with recoverable_signature_serialize_compact := fun sig => (sig, 3) }
      "hi".toList [] (List.replicate 31 (0 : uint8_t) ++ [1]) true
      ((List.replicate 31 (0 : uint8_t) ++ [1]) ++ (List.replicate 31 (0 : uint8_t) ++ [1]))
      (by decide) rfl (by decide) (by decide)
  exact ⟨signature, h1, h2, h4, h7, h8⟩

/-! ## The message envelope -/

/-- C17: for every message the envelope built by `construct_bitcoin_message` is the 25 magic
bytes (0x18, the 23 ASCII bytes of "Bitcoin Signed Message:" and a newline), then
`encode_varint` of the message length, then the bytes of the message; its length is 25 plus
the length of the varint plus the length of the message. -/
theorem construct_bitcoin_message_eq (message : List Char) :
    construct_bitcoin_message message =
      [0x18, 0x42, 0x69, 0x74, 0x63, 0x6f, 0x69, 0x6e, 0x20, 0x53, 0x69, 0x67, 0x6e, 0x65, 0x64,
        0x20, 0x4d, 0x65, 0x73, 0x73, 0x61, 0x67, 0x65, 0x3a, 0x0a]
        ++ encode_varint message.length ++ string_bytes message ∧
    [(0x18 : uint8_t), 0x42, 0x69, 0x74, 0x63, 0x6f, 0x69, 0x6e, 0x20, 0x53, 0x69, 0x67, 0x6e,
        0x65, 0x64, 0x20, 0x4d, 0x65, 0x73, 0x73, 0x61, 0x67, 0x65, 0x3a, 0x0a]
      = 0x18 :: string_bytes "Bitcoin Signed Message:\n".toList ∧
    (construct_bitcoin_message message).length
      = 25 + (encode_varint message.length).length + message.length := by
  have hmagic : magic.take 25 =
      [0x18, 0x42, 0x69, 0x74, 0x63, 0x6f, 0x69, 0x6e, 0x20, 0x53, 0x69, 0x67, 0x6e, 0x65, 0x64,
        0x20, 0x4d, 0x65, 0x73, 0x73, 0x61, 0x67, 0x65, 0x3a, 0x0a] := by decide
  refine ⟨?_, by decide, ?_⟩
  · simp only [construct_bitcoin_message, hmagic]
  · simp only [construct_bitcoin_message, hmagic, List.length_append, string_bytes,
      List.length_map, List.length_cons, List.length_nil]

/-! ## The variable-length integer -/

theorem and_ff (x : Nat) : x &&& 0xff = x % 256 := Nat.and_pow_two_sub_one_eq_mod x 8

theorem encode_varint_cases (v : Nat) (hv : v < 2 ^ 64) :
    (v < 0xfd → encode_varint v = [to_uint8 v] ∧ (to_uint8 v).val = v) ∧
    (0xfd ≤ v ∧ v ≤ 0xffff →
      ∃ tail, encode_varint v = 0xfd :: tail ∧ tail.length = 2 ∧ le_value tail = v) ∧
    (0x10000 ≤ v ∧ v ≤ 0xffffffff →
      ∃ tail, encode_varint v = 0xfe :: tail ∧ tail.length = 4 ∧ le_value tail = v) ∧
    (0x100000000 ≤ v →
      ∃ tail, encode_varint v = 0xff :: tail ∧ tail.length = 8 ∧ le_value tail = v) := by
  refine ⟨?_, ?_, ?_, ?_⟩
  · intro h
    refine ⟨by simp only [encode_varint, h, if_true], ?_⟩
    rw [to_uint8_val]
    omega
  · rintro ⟨h1, h2⟩
    have n1 : ¬(v < 0xfd) := by omega
    refine ⟨[to_uint8 (v &&& 0xff), to_uint8 ((v >>> 8) &&& 0xff)],
      by simp only [encode_varint, n1, h2, if_true, if_false], rfl, ?_⟩
    simp only [le_value, to_uint8_val, and_ff, Nat.shiftRight_eq_div_pow]
    omega
  · rintro ⟨h1, h2⟩
    have n1 : ¬(v < 0xfd) := by omega
    have n2 : ¬(v ≤ 0xffff) := by omega
    refine ⟨[to_uint8 (v &&& 0xff), to_uint8 ((v >>> 8) &&& 0xff),
        to_uint8 ((v >>> 16) &&& 0xff), to_uint8 ((v >>> 24) &&& 0xff)],
      by simp only [encode_varint, n1, n2, h2, if_true, if_false], rfl, ?_⟩
    simp only [le_value, to_uint8_val, and_ff, Nat.shiftRight_eq_div_pow]
    omega
  · intro h1
    have n1 : ¬(v < 0xfd) := by omega
    have n2 : ¬(v ≤ 0xffff) := by omega
    have n3 : ¬(v ≤ 0xffffffff) := by omega
    have hr : List.range 8 = [0, 1, 2, 3, 4, 5, 6, 7] := by decide
    refine ⟨(List.range 8).map fun i => to_uint8 ((v >>> (i * 8)) &&& 0xff),
      by simp only [encode_varint, n1, n2, n3, if_false], by simp, ?_⟩
    simp only [hr, List.map, le_value, to_uint8_val, and_ff, Nat.shiftRight_eq_div_pow]
    norm_num
    omega

/-- C18: for every value `v < 2^64`, `encode_varint v` is the smallest encoding that fits
`v`: the single byte `v` below 0xfd; 0xfd and 2 bytes up to 0xffff; 0xfe and 4 bytes up to
0xffffffff; 0xff and 8 bytes otherwise; and the bytes after the prefix, read least
significant first, give back `v`. -/
theorem encode_varint_spec (v : Nat) (hv : v < 2 ^ 64) :
    (v < 0xfd → encode_varint v = [to_uint8 v] ∧ (to_uint8 v).val = v) ∧
    (0xfd ≤ v ∧ v ≤ 0xffff →
      ∃ tail, encode_varint v = 0xfd :: tail ∧ tail.length = 2 ∧ le_value tail = v) ∧
    (0x10000 ≤ v ∧ v ≤ 0xffffffff →
      ∃ tail, encode_varint v = 0xfe :: tail ∧ tail.length = 4 ∧ le_value tail = v) ∧
    (0x100000000 ≤ v →
      ∃ tail, encode_varint v = 0xff :: tail ∧ tail.length = 8 ∧ le_value tail = v) :=
  encode_varint_cases v hv

/-- The encoding of the value 70000. -/
theorem encode_varint_spec_witness :
    (70000 < 0xfd → encode_varint 70000 = [to_uint8 70000] ∧ (to_uint8 70000).val = 70000) ∧
    (0xfd ≤ 70000 ∧ 70000 ≤ 0xffff →
      ∃ tail, encode_varint 70000 = 0xfd :: tail ∧ tail.length = 2 ∧ le_value tail = 70000) ∧
    (0x10000 ≤ 70000 ∧ 70000 ≤ 0xffffffff →
      ∃ tail, encode_varint 70000 = 0xfe :: tail ∧ tail.length = 4 ∧ le_value tail = 70000) ∧
    (0x100000000 ≤ 70000 →
      ∃ tail, encode_varint 70000 = 0xff :: tail ∧ tail.length = 8 ∧ le_value tail = 70000) :=
  encode_varint_spec 70000 (by decide)

/-! ## Hexadecimal input -/

theorem char_le_iff (a b : Char) : a ≤ b ↔ a.toNat ≤ b.toNat := Iff.rfl

theorem hex_digit_value_eq (c : Char) :
    hex_digit_value c =
      if 48 ≤ c.toNat ∧ c.toNat ≤ 57 then some (c.toNat - 48)
      else if 97 ≤ c.toNat ∧ c.toNat ≤ 102 then some (c.toNat - 97 + 10)
      else if 65 ≤ c.toNat ∧ c.toNat ≤ 70 then some (c.toNat - 65 + 10)
      else none := by
  simp only [hex_digit_value, char_le_iff]
  rfl

theorem is_hex_digit_iff (c : Char) :
    is_hex_digit c ↔ (48 ≤ c.toNat ∧ c.toNat ≤ 57) ∨ (97 ≤ c.toNat ∧ c.toNat ≤ 102) ∨
      (65 ≤ c.toNat ∧ c.toNat ≤ 70) := by
  simp only [is_hex_digit, char_le_iff]
  rfl

theorem hex_digit_value_isSome (c : Char) : (hex_digit_value c).isSome ↔ is_hex_digit c := by
  rw [hex_digit_value_eq, is_hex_digit_iff]
  split_ifs with h1 h2 h3
  · simp [h1]
  · simp [h2]
  · simp [h3]
  · simp only [Option.isSome_none, Bool.false_eq_true, false_iff]
    tauto

theorem hex_digit_value_toUpper (c : Char) : hex_digit_value c.toUpper = hex_digit_value c := by
  by_cases h : c.toNat ≥ 97 ∧ c.toNat ≤ 122
  · have hup : c.toUpper = Char.ofNat (c.toNat - 32) := by
      simp only [Char.toUpper]
      rw [if_pos h]
    have hc : c = Char.ofNat c.toNat := (Char.ofNat_toNat c).symm
    rw [hup]
    conv_rhs => rw [hc]
    obtain ⟨h1, h2⟩ := h
    generalize c.toNat = n at h1 h2
    interval_cases n <;> decide
  · simp only [Char.toUpper]
    rw [if_neg h]

theorem hex_digit_value_toLower (c : Char) : hex_digit_value c.toLower = hex_digit_value c := by
  by_cases h : c.toNat ≥ 65 ∧ c.toNat ≤ 90
  · have hlow : c.toLower = Char.ofNat (c.toNat + 32) := by
      simp only [Char.toLower]
      rw [if_pos h]
    have hc : c = Char.ofNat c.toNat := (Char.ofNat_toNat c).symm
    rw [hlow]
    conv_rhs => rw [hc]
    obtain ⟨h1, h2⟩ := h
    generalize c.toNat = n at h1 h2
    interval_cases n <;> decide
  · simp only [Char.toLower]
    rw [if_neg h]

theorem hex_to_bytes_loop_map (f : Char → Char)
    (hf : ∀ c, hex_digit_value (f c) = hex_digit_value c) :
    ∀ (s : List Char) (out : List uint8_t),
      hex_to_bytes_loop (s.map f) out = hex_to_bytes_loop s out
  | [], _ => rfl
  | [_], _ => rfl
  | a :: b :: rest, out => by
    simp only [List.map_cons, hex_to_bytes_loop, hf]
    cases hex_digit_value a with
    | none => rfl
    | some h =>
      cases hex_digit_value b with
      | none => rfl
      | some l => exact hex_to_bytes_loop_map f hf rest _

theorem hex_to_bytes_map (f : Char → Char)
    (hf : ∀ c, hex_digit_value (f c) = hex_digit_value c) (s : List Char) :
    hex_to_bytes (s.map f) = hex_to_bytes s := by
  simp only [hex_to_bytes, List.length_map, hex_to_bytes_loop_map f hf]

theorem hex_to_bytes_loop_isSome :
    ∀ (s : List Char) (out : List uint8_t),
      (hex_to_bytes_loop s out).isSome ↔ (s.length % 2 = 0 ∧ ∀ c ∈ s, is_hex_digit c)
  | [], _ => by simp [hex_to_bytes_loop]
  | [_], _ => by simp [hex_to_bytes_loop]
  | a :: b :: rest, out => by
    have hlen : (a :: b :: rest).length % 2 = rest.length % 2 := by
      simp only [List.length_cons]
      omega
    have ha := hex_digit_value_isSome a
    have hb := hex_digit_value_isSome b
    rw [hlen]
    simp only [hex_to_bytes_loop, List.mem_cons, forall_eq_or_imp]
    cases hva : hex_digit_value a with
    | none =>
      rw [hva] at ha
      simp only [Option.isSome_none, Bool.false_eq_true, false_iff] at ha ⊢
      tauto
    | some h =>
      rw [hva] at ha
      cases hvb : hex_digit_value b with
      | none =>
        rw [hvb] at hb
        simp only [Option.isSome_none, Bool.false_eq_true, false_iff] at hb ⊢
        tauto
      | some l =>
        rw [hvb] at hb
        simp only [Option.isSome_some, true_iff] at ha hb
        simp only [hex_to_bytes_loop_isSome rest, ha, hb, true_and]

theorem hex_to_bytes_isSome (s : List Char) :
    (hex_to_bytes s).isSome ↔ (s.length % 2 = 0 ∧ ∀ c ∈ s, is_hex_digit c) := by
  by_cases hodd : s.length % 2 ≠ 0
  · simp only [hex_to_bytes]
    rw [if_pos hodd]
    simp only [Option.isSome_none, Bool.false_eq_true, false_iff]
    tauto
  · simp only [hex_to_bytes]
    rw [if_neg hodd]
    exact hex_to_bytes_loop_isSome s []

/-- C19: `hex_to_bytes s` succeeds exactly when `s` has even length and each of its characters
is a hex digit 0-9, a-f or A-F; and decoding does not depend on the case of the letters:
`s` with all letters upper-cased and `s` with all letters lower-cased decode like `s`, hence
to the same bytes. -/
theorem hex_to_bytes_iff (s : List Char) :
    ((hex_to_bytes s).isSome ↔ (s.length % 2 = 0 ∧ ∀ c ∈ s, is_hex_digit c)) ∧
    hex_to_bytes (s.map Char.toUpper) = hex_to_bytes s ∧
    hex_to_bytes (s.map Char.toLower) = hex_to_bytes s ∧
    hex_to_bytes (s.map Char.toUpper) = hex_to_bytes (s.map Char.toLower) := by
  have hu := hex_to_bytes_map Char.toUpper hex_digit_value_toUpper s
  have hl := hex_to_bytes_map Char.toLower hex_digit_value_toLower s
  exact ⟨hex_to_bytes_isSome s, hu, hl, hu.trans hl.symm⟩

/-! ## Test vectors -/

set_option maxRecDepth 1000000 in
/-- C20: `sha256` of the three ASCII bytes of "abc" is the 32 bytes
ba7816bf8f01cfea414140de5dae2223b00361a396177a9cb410ff61f20015ad. -/
theorem sha256_abc :
    sha256 (string_bytes "abc".toList) =
      [0xba, 0x78, 0x16, 0xbf, 0x8f, 0x01, 0xcf, 0xea, 0x41, 0x41, 0x40, 0xde, 0x5d, 0xae, 0x22,
        0x23, 0xb0, 0x03, 0x61, 0xa3, 0x96, 0x17, 0x7a, 0x9c, 0xb4, 0x10, 0xff, 0x61, 0xf2, 0x00,
        0x15, 0xad] ∧
    string_bytes "abc".toList = [0x61, 0x62, 0x63] ∧
    bytes_to_hex (sha256 (string_bytes "abc".toList)) =
      "ba7816bf8f01cfea414140de5dae2223b00361a396177a9cb410ff61f20015ad".toList :=
  ⟨by rfl, by rfl, by rfl⟩

/-! ## The signature string is read through its Base64 decoding only -/

theorem verify_message_congr (ec : Secp256k1) (message address s s' : List Char)
    (h : base64_decode s' = base64_decode s) :
    verify_message ec message s' address = verify_message ec message s address := by
  simp only [verify_message, h]

theorem verify_message_true_decodes {ec : Secp256k1} {message s address : List Char}
    (h : verify_message ec message s address = true) :
    ∃ signature, base64_decode s = some signature ∧ signature.length = 65 := by
  cases hdec : base64_decode s with
  | none => simp [verify_message, hdec] at h
  | some signature =>
    refine ⟨signature, rfl, ?_⟩
    by_contra hlen
    simp only [verify_message, hdec] at h
    rw [if_pos hlen] at h
    cases h

/-- C14 fails on the code: the two signature strings differ in exactly one character, the
87th (E against F, which differ in the two low bits that `base64_decode` shifts out), they
decode to the same 65 bytes, so `verify_message` returns the same on both for every
primitive, message and address, and both are accepted for the message "hi" and the address
DRa4H3ftX7TxGtvHZYAwAm2x9cyBsF2EAH on the instance `mirror_curve`, where the first string is
what `sign_message` returns for the key of value 1. -/
theorem verify_message_accepts_altered_signature :
    altered_in_one
      "HwAAAAAAAAAAAAAAAAAAAAAAAAAAAAAAAAAAAAAAAAABAAAAAAAAAAAAAAAAAAAAAAAAAAAAAAAAAAAAAAAAAAE=".toList
      "HwAAAAAAAAAAAAAAAAAAAAAAAAAAAAAAAAAAAAAAAAABAAAAAAAAAAAAAAAAAAAAAAAAAAAAAAAAAAAAAAAAAAF=".toList ∧
    sign_message mirror_curve "hi".toList (List.replicate 31 (0 : uint8_t) ++ [1]) true =
      "HwAAAAAAAAAAAAAAAAAAAAAAAAAAAAAAAAAAAAAAAAABAAAAAAAAAAAAAAAAAAAAAAAAAAAAAAAAAAAAAAAAAAE=".toList ∧
    verify_message mirror_curve "hi".toList
      "HwAAAAAAAAAAAAAAAAAAAAAAAAAAAAAAAAAAAAAAAAABAAAAAAAAAAAAAAAAAAAAAAAAAAAAAAAAAAAAAAAAAAE=".toList
      (public_key_to_address (2 :: (List.replicate 31 (0 : uint8_t) ++ [1])) true) = true ∧
    verify_message mirror_curve "hi".toList
      "HwAAAAAAAAAAAAAAAAAAAAAAAAAAAAAAAAAAAAAAAAABAAAAAAAAAAAAAAAAAAAAAAAAAAAAAAAAAAAAAAAAAAF=".toList
      (public_key_to_address (2 :: (List.replicate 31 (0 : uint8_t) ++ [1])) true) = true ∧
    (∀ (ec : Secp256k1) (message address : List Char),
      verify_message ec message
        "HwAAAAAAAAAAAAAAAAAAAAAAAAAAAAAAAAAAAAAAAAABAAAAAAAAAAAAAAAAAAAAAAAAAAAAAAAAAAAAAAAAAAF=".toList
        address =
      verify_message ec message
        "HwAAAAAAAAAAAAAAAAAAAAAAAAAAAAAAAAAAAAAAAAABAAAAAAAAAAAAAAAAAAAAAAAAAAAAAAAAAAAAAAAAAAE=".toList
        address) := by
  have hsign : sign_message mirror_curve "hi".toList (List.replicate 31 (0 : uint8_t) ++ [1])
      true =
      "HwAAAAAAAAAAAAAAAAAAAAAAAAAAAAAAAAAAAAAAAAABAAAAAAAAAAAAAAAAAAAAAAAAAAAAAAAAAAAAAAAAAAE=".toList := by
    decide
  have hdec : base64_decode
      "HwAAAAAAAAAAAAAAAAAAAAAAAAAAAAAAAAAAAAAAAAABAAAAAAAAAAAAAAAAAAAAAAAAAAAAAAAAAAAAAAAAAAF=".toList
      = base64_decode
      "HwAAAAAAAAAAAAAAAAAAAAAAAAAAAAAAAAAAAAAAAAABAAAAAAAAAAAAAAAAAAAAAAAAAAAAAAAAAAAAAAAAAAE=".toList := by
    decide
  have hderive : derive_public_key mirror_curve (List.replicate 31 (0 : uint8_t) ++ [1]) true
      = some (2 :: (List.replicate 31 (0 : uint8_t) ++ [1])) := by
    decide
  obtain ⟨pk, hpk, hver⟩ := sign_then_verify mirror_curve "hi".toList
    (List.replicate 31 (0 : uint8_t) ++ [1]) true mirror_curve_recovers_signer
    (by decide) (by decide) (by decide)
  rw [hderive] at hpk
  cases hpk
  rw [hsign] at hver
  refine ⟨?_, hsign, hver, ?_, fun ec message address =>
    verify_message_congr ec message address _ _ hdec⟩
  · exact ⟨"HwAAAAAAAAAAAAAAAAAAAAAAAAAAAAAAAAAAAAAAAAABAAAAAAAAAAAAAAAAAAAAAAAAAAAAAAAAAAAAAAAAAA".toList,
      'E', 'F', ['='], by decide, by decide, by decide⟩
  · rw [verify_message_congr _ _ _ _ _ hdec]
    exact hver

/-! ## Every accepted signature string has an accepted one-character alteration -/

theorem base64_decode_loop_eq_state :
    ∀ (cs : List Char) (buffer bits : Nat) (out : List uint8_t),
      base64_decode_loop cs buffer bits out
        = (base64_decode_state cs buffer bits out).map fun st => st.2.2
  | [], _, _, _ => rfl
  | c :: cs, buffer, bits, out => by
    simp only [base64_decode_loop, base64_decode_state]
    cases base64_value c with
    | none => rfl
    | some value =>
      simp only
      split_ifs
      · exact base64_decode_loop_eq_state cs _ _ _
      · exact base64_decode_loop_eq_state cs _ _ _

theorem base64_decode_state_append :
    ∀ (xs ys : List Char) (buffer bits : Nat) (out : List uint8_t),
      base64_decode_state (xs ++ ys) buffer bits out
        = (base64_decode_state xs buffer bits out).bind
            fun st => base64_decode_state ys st.1 st.2.1 st.2.2
  | [], _, _, _, _ => rfl
  | c :: cs, ys, buffer, bits, out => by
    simp only [List.cons_append, base64_decode_state]
    cases base64_value c with
    | none => rfl
    | some value =>
      simp only
      split_ifs
      · exact base64_decode_state_append cs ys _ _ _
      · exact base64_decode_state_append cs ys _ _ _

theorem base64_decode_state_counts :
    ∀ (cs : List Char) (buffer bits : Nat) (out : List uint8_t) (st : Nat × Nat × List uint8_t),
      bits < 8 → base64_decode_state cs buffer bits out = some st →
      st.2.1 < 8 ∧ 8 * st.2.2.length + st.2.1 = 8 * out.length + bits + 6 * cs.length
  | [], _, _, _, st, hb, h => by
    simp only [base64_decode_state, Option.some.injEq] at h
    subst h
    simp [hb]
  | c :: cs, buffer, bits, out, st, hb, h => by
    simp only [base64_decode_state] at h
    cases hv : base64_value c with
    | none => simp [hv] at h
    | some value =>
      simp only [hv] at h
      split_ifs at h with hge
      · obtain ⟨h1, h2⟩ := base64_decode_state_counts cs _ _ _ st (by omega) h
        refine ⟨h1, ?_⟩
        rw [h2]
        simp only [List.length_append, List.length_cons, List.length_nil]
        omega
      · obtain ⟨h1, h2⟩ := base64_decode_state_counts cs _ _ _ st (by omega) h
        refine ⟨h1, ?_⟩
        rw [h2]
        simp only [List.length_cons]
        omega

theorem base64_value_lt {c : Char} {v : Nat} (h : base64_value c = some v) : v < 64 := by
  simp only [base64_value, char_le_iff] at h
  split_ifs at h with h1 h2 h3 h4 h5
  · have : 'Z'.toNat = 90 := rfl
    have : 'A'.toNat = 65 := rfl
    cases h
    omega
  · have : 'z'.toNat = 122 := rfl
    have : 'a'.toNat = 97 := rfl
    cases h
    omega
  · have : '9'.toNat = 57 := rfl
    have : '0'.toNat = 48 := rfl
    cases h
    omega
  · cases h
    decide
  · cases h
    decide

theorem base64_decode_strip (body : List Char) (k : Nat)
    (hlast : body.reverse.head? ≠ some '=') :
    base64_decode (body ++ List.replicate k '=') = base64_decode_loop body 0 0 [] := by
  by_cases hlen : (body ++ List.replicate k '=').length = 0
  · have hb : body = [] := by
      rw [List.length_append] at hlen
      exact List.length_eq_zero.mp (by omega)
    subst hb
    simp only [base64_decode, hlen, if_true]
    rfl
  · have hcount : count_leading '=' (body ++ List.replicate k '=').reverse = k := by
      rw [List.reverse_append, List.reverse_replicate]
      exact count_leading_replicate_append '=' k _ hlast
    have htake : (body ++ List.replicate k '=').take
        ((body ++ List.replicate k '=').length - k) = body := by
      rw [List.length_append, List.length_replicate, Nat.add_sub_cancel]
      exact List.take_left' rfl
    simp only [base64_decode, hlen, if_false, hcount, htake]

theorem strip_padding (s : List Char) :
    ∃ (body : List Char) (k : Nat),
      s = body ++ List.replicate k '=' ∧ body.reverse.head? ≠ some '=' := by
  refine ⟨(s.reverse.drop (count_leading '=' s.reverse)).reverse,
    count_leading '=' s.reverse, ?_, ?_⟩
  · have h := replicate_append_drop_count_leading '=' s.reverse
    have h' := congrArg List.reverse h
    rw [List.reverse_append, List.reverse_reverse, List.reverse_replicate] at h'
    exact h'.symm
  · rw [List.reverse_reverse]
    exact drop_count_leading_head '=' s.reverse

theorem base64_last_symbol_low_bits (c : Char) (buffer : Nat) (out : List uint8_t)
    (st : Nat × Nat × List uint8_t)
    (h : base64_decode_state [c] buffer 4 out = some st) :
    ∃ c', c' ≠ c ∧ c' ≠ '=' ∧
      (base64_decode_state [c'] buffer 4 out).map (fun t => t.2.2) = some st.2.2 := by
  simp only [base64_decode_state] at h
  cases hv : base64_value c with
  | none => simp [hv] at h
  | some v =>
    have hv64 := base64_value_lt hv
    simp only [hv] at h
    rw [if_pos (by decide)] at h
    simp only [Option.some.injEq] at h
    subst h
    -- the symbol whose value differs from `v` in the lowest bit
    have hex : ∃ v', v' < 64 ∧ v' ≠ v ∧ v' / 4 = v / 4 := by
      by_cases hpar : v % 2 = 0
      · exact ⟨v + 1, by omega, by omega, by omega⟩
      · exact ⟨v - 1, by omega, by omega, by omega⟩
    obtain ⟨v', hv', hne, hquot⟩ := hex
    have hval' := base64_value_alphabet ⟨v', hv'⟩
    simp only at hval'
    refine ⟨c_str_get BASE64_ALPHABET v', ?_, base64_alphabet_ne_pad ⟨v', hv'⟩, ?_⟩
    · intro e
      rw [e, hv] at hval'
      exact hne (Option.some.inj hval').symm
    · simp only [base64_decode_state, hval']
      rw [if_pos (by decide)]
      simp only [Option.map_some', Option.some.injEq, shift_or_6 buffer v hv64,
        shift_or_6 buffer v' hv', and_255, Nat.shiftRight_eq_div_pow]
      have hbyte : (64 * (buffer % 67108864) + v') / 2 ^ (4 + 6 - 8) % 256
          = (64 * (buffer % 67108864) + v) / 2 ^ (4 + 6 - 8) % 256 := by
        norm_num
        omega
      rw [hbyte]

theorem accepted_signature_malleable (ec : Secp256k1) (message s address : List Char)
    (h : verify_message ec message s address = true) :
    ∃ s', altered_in_one s s' ∧ verify_message ec message s' address = true := by
  obtain ⟨signature, hdec, hlen⟩ := verify_message_true_decodes h
  obtain ⟨body, k, hs, hlast⟩ := strip_padding s
  rw [hs, base64_decode_strip body k hlast, base64_decode_loop_eq_state] at hdec
  cases hst : base64_decode_state body 0 0 [] with
  | none => simp [hst] at hdec
  | some st =>
    rw [hst] at hdec
    simp only [Option.map_some', Option.some.injEq] at hdec
    obtain ⟨-, hcount⟩ := base64_decode_state_counts body 0 0 [] st (by decide) hst
    rw [hdec, hlen] at hcount
    simp only [List.length_nil] at hcount
    have hst8 : st.2.1 < 8 := (base64_decode_state_counts body 0 0 [] st (by decide) hst).1
    have hbody : body.length = 87 := by omega
    -- split the body into its first 86 symbols and the last one
    have hsplit : body = body.take 86 ++ body.drop 86 := (List.take_append_drop 86 body).symm
    have hdroplen : (body.drop 86).length = 1 := by
      rw [List.length_drop, hbody]
    obtain ⟨c, hc⟩ := List.length_eq_one.mp hdroplen
    have htakelen : (body.take 86).length = 86 := by
      rw [List.length_take, hbody]
      rfl
    rw [hsplit, hc, base64_decode_state_append] at hst
    cases hpre : base64_decode_state (body.take 86) 0 0 [] with
    | none => simp [hpre] at hst
    | some mid =>
      rw [hpre] at hst
      simp only [Option.some_bind] at hst
      obtain ⟨hmid8, hmidcount⟩ :=
        base64_decode_state_counts (body.take 86) 0 0 [] mid (by decide) hpre
      rw [htakelen] at hmidcount
      simp only [List.length_nil] at hmidcount
      have hbits : mid.2.1 = 4 := by omega
      rw [hbits] at hst
      obtain ⟨c', hne, hpad, hsame⟩ := base64_last_symbol_low_bits c mid.1 mid.2.2 st hst
      have hdec' : base64_decode ((body.take 86 ++ [c']) ++ List.replicate k '=')
          = some signature := by
        rw [base64_decode_strip _ k (by simp [hpad]), base64_decode_loop_eq_state,
          base64_decode_state_append, hpre]
        simp only [Option.some_bind]
        rw [hbits, hsame, hdec]
      have hdec0 : base64_decode s = some signature := by
        obtain ⟨sig0, h0, -⟩ := verify_message_true_decodes h
        rw [hs, base64_decode_strip body k hlast, base64_decode_loop_eq_state, hsplit, hc,
          base64_decode_state_append, hpre]
        simp only [Option.some_bind]
        rw [hbits, hst]
        simp only [Option.map_some', hdec]
      refine ⟨(body.take 86 ++ [c']) ++ List.replicate k '=', ?_, ?_⟩
      · refine ⟨body.take 86, c, c', List.replicate k '=', hne.symm, ?_, ?_⟩
        · rw [hs]
          conv_lhs => rw [hsplit, hc]
          simp
        · simp
      · rw [verify_message_congr ec message address s _ (hdec'.trans hdec0.symm)]
        exact h

/-- C14, as the code has it: `verify_message` reads the signature string only through
`base64_decode`. A string that decodes to the same bytes as `s` gets the same answer as `s`,
and every accepted `s` has such a string that differs from it in exactly one character; a
string on which `base64_decode` fails, or gives other than 65 bytes, or gives a header byte
outside `[27, 35)`, is rejected. -/
theorem verify_message_reads_decoded_signature (ec : Secp256k1)
    (message s s' address : List Char) :
    (base64_decode s' = base64_decode s →
      verify_message ec message s' address = verify_message ec message s address) ∧
    (verify_message ec message s address = true →
      ∃ t, altered_in_one s t ∧ verify_message ec message t address = true) ∧
    (base64_decode s' = none → verify_message ec message s' address = false) ∧
    (∀ signature, base64_decode s' = some signature ∧ signature.length ≠ 65 →
      verify_message ec message s' address = false) ∧
    (∀ signature, base64_decode s' = some signature ∧
        ((signature.getD 0 0).val < 27 ∨ 35 ≤ (signature.getD 0 0).val) →
      verify_message ec message s' address = false) :=
  ⟨verify_message_congr ec message address s s',
    accepted_signature_malleable ec message s address,
    verify_message_rejects_early ec message s' address⟩

/-! ## Test vectors of RIPEMD-160 and Base58 -/

set_option maxRecDepth 1000000 in
/-- C21: `ripemd160` of the empty byte sequence (the bytes of the string `""`) is the 20 bytes
`9c1185a5c5e9fc54612808977ee8f548b2258d31`, given as bytes and as the hex string that
`bytes_to_hex` prints. -/
theorem ripemd160_empty :
    ripemd160 [] =
      [0x9c, 0x11, 0x85, 0xa5, 0xc5, 0xe9, 0xfc, 0x54, 0x61, 0x28,
       0x08, 0x97, 0x7e, 0xe8, 0xf5, 0x48, 0xb2, 0x25, 0x8d, 0x31] ∧
    (ripemd160 []).length = 20 ∧
    string_bytes "".toList = [] ∧
    bytes_to_hex (ripemd160 (string_bytes "".toList)) =
      "9c1185a5c5e9fc54612808977ee8f548b2258d31".toList :=
  ⟨by rfl, by rfl, by rfl, by rfl⟩

set_option maxRecDepth 1000000 in
/-- C22: `base58_encode` of the 12 ASCII bytes of `Hello World!` is the string
`2NEpo7TZRRrLZSi2U`. -/
theorem base58_encode_hello_world :
    string_bytes "Hello World!".toList =
      [0x48, 0x65, 0x6c, 0x6c, 0x6f, 0x20, 0x57, 0x6f, 0x72, 0x6c, 0x64, 0x21] ∧
    base58_encode (string_bytes "Hello World!".toList) = "2NEpo7TZRRrLZSi2U".toList :=
  ⟨by rfl, by rfl⟩

/-! ## Leading zero bytes of `base58_encode` -/

/-- The output of `base58_encode` starts with as many `'1'` as the input has leading zero
bytes, and the character after them, if any, is not `'1'`. -/
theorem base58_encode_leading (data : List uint8_t) :
    (base58_encode data).take (count_leading 0 data) =
      List.replicate (count_leading 0 data) '1' ∧
    ((base58_encode data).drop (count_leading 0 data)).head? ≠ some '1' := by
  obtain ⟨digits, henc, hlt, hhead, -⟩ := base58_encode_digits data
  rw [henc]
  constructor
  · rw [List.take_left']
    simp
  · rw [List.drop_left']
    · cases digits with
      | nil => simp
      | cons d ds =>
        intro h
        have hd : d.val < 58 := hlt d.val (by simp [vals])
        have h1 : c_str_get BASE58_ALPHABET d.val = '1' := by simpa using h
        have h0 := base58_digit_one ⟨d.val, hd⟩ h1
        apply hhead
        have : d = 0 := Fin.ext h0
        simp [this]
    · simp

/-- C23: if `b` is `k` zero bytes followed by a rest that does not start with a zero byte
(so `b` has exactly `k` leading zero bytes), then the first `k` characters of
`base58_encode b` are `'1'` and the character after them, if there is one, is not `'1'`. -/
theorem base58_encode_leading_ones (k : Nat) (rest : List uint8_t)
    (hrest : rest.head? ≠ some 0) :
    count_leading 0 (List.replicate k (0 : uint8_t) ++ rest) = k ∧
    (base58_encode (List.replicate k 0 ++ rest)).take k = List.replicate k '1' ∧
    ((base58_encode (List.replicate k 0 ++ rest)).drop k).head? ≠ some '1' ∧
    count_leading '1' (base58_encode (List.replicate k 0 ++ rest)) = k := by
  have hk := count_leading_replicate_append (0 : uint8_t) k rest hrest
  have h := base58_encode_leading (List.replicate k 0 ++ rest)
  rw [hk] at h
  refine ⟨hk, h.1, h.2, ?_⟩
  have hsplit := List.take_append_drop k (base58_encode (List.replicate k 0 ++ rest))
  rw [h.1] at hsplit
  rw [← hsplit]
  exact count_leading_replicate_append '1' k _ h.2

/-- Witness of C23: two zero bytes followed by the byte 1 are encoded as `112`. -/
theorem base58_encode_leading_ones_witness :
    ([1] : List uint8_t).head? ≠ some 0 ∧
    base58_encode (List.replicate 2 0 ++ [1]) = "112".toList ∧
    (base58_encode (List.replicate 2 0 ++ [1])).take 2 = List.replicate 2 '1' ∧
    ((base58_encode (List.replicate 2 0 ++ [1])).drop 2).head? ≠ some '1' :=
  ⟨by decide, by decide,
    (base58_encode_leading_ones 2 [1] (by decide)).2.1,
    (base58_encode_leading_ones 2 [1] (by decide)).2.2.1⟩

/-! ## The shape of `base64_encode` -/

theorem base64_encode_length : ∀ data : List uint8_t,
    (base64_encode data).length = 4 * ((data.length + 2) / 3)
  | [] => rfl
  | [_] => by simp [base64_encode, base64_encode_chunk]
  | [_, _] => by simp [base64_encode, base64_encode_chunk]
  | b0 :: b1 :: b2 :: rest => by
    have ih := base64_encode_length rest
    rw [base64_encode, List.length_append, ih]
    simp only [base64_encode_chunk, List.length_cons, List.length_nil]
    omega

theorem base64_encode_append : ∀ (pre post : List uint8_t), pre.length % 3 = 0 →
    base64_encode (pre ++ post) = base64_encode pre ++ base64_encode post
  | [], post, _ => rfl
  | [_], _, h => by simp at h
  | [_, _], _, h => by simp at h
  | b0 :: b1 :: b2 :: rest, post, h => by
    have hrest : rest.length % 3 = 0 := by
      simp only [List.length_cons] at h
      omega
    have ih := base64_encode_append rest post hrest
    show base64_encode (b0 :: b1 :: b2 :: (rest ++ post)) = _
    rw [base64_encode, ih, base64_encode, List.append_assoc]

theorem base64_symbol_mem (n : Nat) : c_str_get BASE64_ALPHABET (n % 64) ∈ BASE64_ALPHABET := by
  have h : ∀ v : Fin 64, c_str_get BASE64_ALPHABET v.val ∈ BASE64_ALPHABET := by decide
  exact h ⟨n % 64, Nat.mod_lt _ (by decide)⟩

theorem base64_encode_mem : ∀ data : List uint8_t,
    ∀ c ∈ base64_encode data, c ∈ BASE64_ALPHABET ∨ c = '='
  | [] => by simp [base64_encode]
  | [b0] => by
    intro c hc
    rw [base64_encode, base64_encode_chunk_one] at hc
    simp only [List.mem_cons, List.mem_singleton, List.not_mem_nil, or_false] at hc
    rcases hc with rfl | rfl | rfl | rfl
    · exact Or.inl (base64_symbol_mem _)
    · exact Or.inl (base64_symbol_mem _)
    · exact Or.inr rfl
    · exact Or.inr rfl
  | [b0, b1] => by
    intro c hc
    rw [base64_encode, base64_encode_chunk_two] at hc
    simp only [List.mem_cons, List.mem_singleton, List.not_mem_nil, or_false] at hc
    rcases hc with rfl | rfl | rfl | rfl
    · exact Or.inl (base64_symbol_mem _)
    · exact Or.inl (base64_symbol_mem _)
    · exact Or.inl (base64_symbol_mem _)
    · exact Or.inr rfl
  | b0 :: b1 :: b2 :: rest => by
    intro c hc
    rw [base64_encode, base64_encode_chunk_three, List.mem_append] at hc
    rcases hc with hc | hc
    · simp only [List.mem_cons, List.mem_singleton, List.not_mem_nil, or_false] at hc
      rcases hc with rfl | rfl | rfl | rfl
      · exact Or.inl (base64_symbol_mem _)
      · exact Or.inl (base64_symbol_mem _)
      · exact Or.inl (base64_symbol_mem _)
      · exact Or.inl (base64_symbol_mem _)
    · exact base64_encode_mem rest c hc

theorem base64_encode_count_pad : ∀ data : List uint8_t,
    (base64_encode data).count '=' = (3 - data.length % 3) % 3
  | [] => rfl
  | [b0] => by
    rw [base64_encode, base64_encode_chunk_one]
    simp [List.count_cons, base64_symbol_ne_pad]
  | [b0, b1] => by
    rw [base64_encode, base64_encode_chunk_two]
    simp [List.count_cons, base64_symbol_ne_pad]
  | b0 :: b1 :: b2 :: rest => by
    have ih := base64_encode_count_pad rest
    rw [base64_encode, base64_encode_chunk_three, List.count_append, ih]
    have e : (b0 :: b1 :: b2 :: rest).length % 3 = rest.length % 3 := by
      simp only [List.length_cons]
      omega
    rw [e]
    simp [List.count_cons, base64_symbol_ne_pad]

/-- C28: for every byte sequence `data` of length `n`, `base64_encode data` has exactly
`4 * ceil(n / 3)` characters (`(n + 2) / 3` is the ceiling); every 3-byte chunk that starts at
an offset divisible by 3 is mapped to the four alphabet symbols of the 6-bit groups of its
24-bit value, most significant first; a final chunk of two bytes gives three symbols and one
`=`, a final chunk of one byte gives two symbols and two `=`; every character of the result is
a symbol of the standard alphabet or `=`, and the number of `=` is 2, 1, 0 for `n % 3` equal to
1, 2, 0. -/
theorem base64_encode_spec (data : List uint8_t) :
    (base64_encode data).length = 4 * ((data.length + 2) / 3) ∧
    (∀ pre b0 b1 b2 post, data = pre ++ b0 :: b1 :: b2 :: post → pre.length % 3 = 0 →
      base64_encode data = base64_encode pre ++
        [c_str_get BASE64_ALPHABET ((65536 * b0.val + 256 * b1.val + b2.val) / 262144 % 64),
         c_str_get BASE64_ALPHABET ((65536 * b0.val + 256 * b1.val + b2.val) / 4096 % 64),
         c_str_get BASE64_ALPHABET ((65536 * b0.val + 256 * b1.val + b2.val) / 64 % 64),
         c_str_get BASE64_ALPHABET ((65536 * b0.val + 256 * b1.val + b2.val) % 64)] ++
        base64_encode post) ∧
    (∀ pre b0 b1, data = pre ++ [b0, b1] → pre.length % 3 = 0 →
      base64_encode data = base64_encode pre ++
        [c_str_get BASE64_ALPHABET ((65536 * b0.val + 256 * b1.val) / 262144 % 64),
         c_str_get BASE64_ALPHABET ((65536 * b0.val + 256 * b1.val) / 4096 % 64),
         c_str_get BASE64_ALPHABET ((65536 * b0.val + 256 * b1.val) / 64 % 64), '=']) ∧
    (∀ pre b0, data = pre ++ [b0] → pre.length % 3 = 0 →
      base64_encode data = base64_encode pre ++
        [c_str_get BASE64_ALPHABET ((65536 * b0.val) / 262144 % 64),
         c_str_get BASE64_ALPHABET ((65536 * b0.val) / 4096 % 64), '=', '=']) ∧
    (∀ c ∈ base64_encode data, c ∈ BASE64_ALPHABET ∨ c = '=') ∧
    (data.length % 3 = 0 → (base64_encode data).count '=' = 0) ∧
    (data.length % 3 = 1 → (base64_encode data).count '=' = 2) ∧
    (data.length % 3 = 2 → (base64_encode data).count '=' = 1) ∧
    BASE64_ALPHABET =
      "ABCDEFGHIJKLMNOPQRSTUVWXYZabcdefghijklmnopqrstuvwxyz0123456789+/".toList := by
  refine ⟨base64_encode_length data, ?_, ?_, ?_, base64_encode_mem data, ?_, ?_, ?_, rfl⟩
  · rintro pre b0 b1 b2 post rfl hpre
    rw [base64_encode_append pre _ hpre, base64_encode, base64_encode_chunk_three,
      List.append_assoc]
  · rintro pre b0 b1 rfl hpre
    rw [base64_encode_append pre _ hpre, base64_encode, base64_encode_chunk_two]
  · rintro pre b0 rfl hpre
    rw [base64_encode_append pre _ hpre, base64_encode, base64_encode_chunk_one]
  · intro h
    rw [base64_encode_count_pad, h]
  · intro h
    rw [base64_encode_count_pad, h]
  · intro h
    rw [base64_encode_count_pad, h]

/-- The four bytes of `Many` are encoded as the chunk `TWFu` of `Man` followed by the padded
chunk `eQ==` of `y`. -/
theorem base64_encode_spec_witness :
    base64_encode (string_bytes "Many".toList) = "TWFueQ==".toList ∧
    (base64_encode (string_bytes "Many".toList)).length = 4 * ((4 + 2) / 3) ∧
    (base64_encode (string_bytes "Many".toList)).count '=' = 2 :=
  ⟨by decide, (base64_encode_spec (string_bytes "Many".toList)).1,
    (base64_encode_spec (string_bytes "Many".toList)).2.2.2.2.2.2.1 (by decide)⟩

/-! ## `verify_message` and the network of the address -/

theorem verify_message_true_address {ec : Secp256k1} {message s address : List Char}
    (h : verify_message ec message s address = true) :
    ∃ pubkey_bytes, public_key_to_address pubkey_bytes true = address := by
  unfold verify_message at h
  split at h
  · cases h
  · split at h
    · cases h
    · simp only at h
      split at h
      · cases h
      · split at h
        · cases h
        · split at h
          · cases h
          · split at h
            · cases h
            · rename_i pubkey_bytes _
              exact ⟨pubkey_bytes, of_decide_eq_true h⟩

theorem validate_address_nil (m : Bool) : validate_address [] m = false := by
  cases m <;> rfl

theorem verify_message_mainnet_only (ec : Secp256k1) (message s address : List Char)
    (h : validate_address address false = true) :
    verify_message ec message s address = false := by
  cases hv : verify_message ec message s address with
  | false => rfl
  | true =>
    obtain ⟨pk, rfl⟩ := verify_message_true_address hv
    by_cases hpk : pk.length = 33 ∨ pk.length = 65
    · have h2 := (validate_own_address pk true hpk).2
      simp only [Bool.not_true] at h2
      rw [h2] at h
      cases h
    · have hnil : public_key_to_address pk true = [] := by
        have : pk.length ≠ 33 ∧ pk.length ≠ 65 := by omega
        simp only [public_key_to_address]
        rw [if_pos this]
      rw [hnil, validate_address_nil] at h
      cases h

/-- C29: for every choice of the curve primitives, every message `m`, every signature string
`s` and every address `a` that `validate_address` accepts for testnet, `verify_message m s a`
is false: the address that `verify_message` compares with is derived with mainnet
parameters. -/
theorem verify_message_rejects_testnet (ec : Secp256k1) (m s a : List Char)
    (h : validate_address a false = true) :
    verify_message ec m s a = false :=
  verify_message_mainnet_only ec m s a h

/-- The testnet address of a key is rejected for the signature that `sign_message` makes with
that key on the instance `mirror_curve`. -/
theorem verify_message_rejects_testnet_witness :
    validate_address
      (public_key_to_address (2 :: (List.replicate 31 (0 : uint8_t) ++ [1])) false) false
      = true ∧
    verify_message mirror_curve "hi".toList
      (sign_message mirror_curve "hi".toList (List.replicate 31 (0 : uint8_t) ++ [1]) true)
      (public_key_to_address (2 :: (List.replicate 31 (0 : uint8_t) ++ [1])) false) = false :=
  ⟨(validate_own_address _ false (Or.inl (by decide))).1,
    verify_message_rejects_testnet mirror_curve _ _ _
      (validate_own_address _ false (Or.inl (by decide))).1⟩

/-! ## Keys outside the curve range -/

theorem seckey_verify_of_out_of_range {k : List uint8_t} (hlen : k.length = 32)
    (hbad : be_value k = 0 ∨ curve_order ≤ be_value k) :
    secp256k1_ec_seckey_verify k = false := by
  have htake : k.take 32 = k := List.take_of_length_le (by omega)
  simp only [secp256k1_ec_seckey_verify, htake]
  apply decide_eq_false
  omega

theorem private_key_to_wif_payload (k : List uint8_t) (c m : Bool) (hlen : k.length = 32) :
    private_key_to_wif k c m =
      base58check_encode
        ((if m then (0x9e : uint8_t) else 0xf1) :: (k ++ (if c then [0x01] else []))) := by
  have h : ¬ k.length ≠ 32 := by omega
  simp only [private_key_to_wif]
  rw [if_neg h]
  cases c <;> simp

theorem private_key_to_wif_eq_nil (k : List uint8_t) (c m : Bool) :
    private_key_to_wif k c m = [] ↔ k.length ≠ 32 := by
  constructor
  · intro h hlen
    rw [private_key_to_wif_payload k c m hlen] at h
    exact base58check_encode_ne_nil _ h
  · intro h
    simp only [private_key_to_wif]
    rw [if_pos h]

theorem wif_of_invalid_key_rejected (k : List uint8_t) (c m : Bool) (out : WifOutputs)
    (hlen : k.length = 32) (hbad : be_value k = 0 ∨ curve_order ≤ be_value k) :
    wif_to_private_key (private_key_to_wif k c m) out = (false, ⟨k, c, m⟩) := by
  have hkey := seckey_verify_of_out_of_range hlen hbad
  have hk : ∀ t : List uint8_t, (k ++ t).take 32 = k := fun t => List.take_left' hlen
  have hk' : k.take 32 = k := List.take_of_length_le (by omega)
  have hget : ∀ v : uint8_t, (v :: (k ++ [0x01])).getD 33 0 = 0x01 := by
    intro v
    rw [List.getD_cons_succ, List.getD_append_right _ _ _ _ (by omega), hlen]
    rfl
  cases c <;> cases m <;>
    simp [wif_to_private_key, private_key_to_wif, base58check_round_trip, hlen, hk, hk',
      hget, hkey]

set_option maxRecDepth 1000000 in
/-- C25 fails on the code for `private_key_to_wif`: the 32-byte key of value 0 fails the
curve-range check, yet `private_key_to_wif` returns a 52-character string for it, not its
failure value, the empty string. -/
theorem private_key_to_wif_accepts_zero_key :
    (List.replicate 32 (0 : uint8_t)).length = 32 ∧
    be_value (List.replicate 32 (0 : uint8_t)) = 0 ∧
    secp256k1_ec_seckey_verify (List.replicate 32 (0 : uint8_t)) = false ∧
    private_key_to_wif (List.replicate 32 (0 : uint8_t)) true true =
      "QNcdLVw8fHkixm6NNyN6nVwxKek4u7qrioRbQmjxac5TVJcEge99".toList ∧
    private_key_to_wif (List.replicate 32 (0 : uint8_t)) true true ≠ [] :=
  ⟨by rfl, by rfl, by rfl, by rfl, by decide⟩

/-- C25, as the code has it: for every 32-byte key whose big-endian value is 0 or at least the
curve order, `derive_public_key` fails whatever the curve primitives are, while
`private_key_to_wif`, which checks the length only, returns the non-empty Base58Check
encoding of the version byte, the key and the optional compression flag; that string is
rejected by `wif_to_private_key`. `private_key_to_wif` returns its failure value exactly for
keys whose length is not 32. -/
theorem invalid_key_artifacts (ec : Secp256k1) (k : List uint8_t) (c m : Bool)
    (out : WifOutputs) (hlen : k.length = 32)
    (hbad : be_value k = 0 ∨ curve_order ≤ be_value k) :
    derive_public_key ec k c = none ∧
    private_key_to_wif k c m =
      base58check_encode
        ((if m then (0x9e : uint8_t) else 0xf1) :: (k ++ (if c then [0x01] else []))) ∧
    private_key_to_wif k c m ≠ [] ∧
    (wif_to_private_key (private_key_to_wif k c m) out).1 = false ∧
    (∀ (key : List uint8_t) (c' m' : Bool),
      private_key_to_wif key c' m' = [] ↔ key.length ≠ 32) := by
  refine ⟨?_, private_key_to_wif_payload k c m hlen, ?_, ?_, private_key_to_wif_eq_nil⟩
  · have h : ¬ k.length ≠ 32 := by omega
    simp only [derive_public_key]
    rw [if_neg h, if_pos (seckey_verify_of_out_of_range hlen hbad)]
  · intro h
    exact (private_key_to_wif_eq_nil k c m).1 h hlen
  · rw [wif_of_invalid_key_rejected k c m out hlen hbad]

/-- The key of value 0 on the instance `mirror_curve`: no public key, but a string in the
wallet import format. -/
theorem invalid_key_artifacts_witness :
    (List.replicate 32 (0 : uint8_t)).length = 32 ∧
    (be_value (List.replicate 32 (0 : uint8_t)) = 0 ∨
      curve_order ≤ be_value (List.replicate 32 (0 : uint8_t))) ∧
    derive_public_key mirror_curve (List.replicate 32 (0 : uint8_t)) true = none ∧
    private_key_to_wif (List.replicate 32 (0 : uint8_t)) true true ≠ [] :=
  ⟨by rfl, Or.inl (by rfl),
    (invalid_key_artifacts mirror_curve (List.replicate 32 (0 : uint8_t)) true true
      ⟨[], false, false⟩ (by rfl) (Or.inl (by rfl))).1,
    (invalid_key_artifacts mirror_curve (List.replicate 32 (0 : uint8_t)) true true
      ⟨[], false, false⟩ (by rfl) (Or.inl (by rfl))).2.2.1⟩

/-! ## The output parameters of `wif_to_private_key` on failure -/

set_option maxRecDepth 1000000 in
/-- C26 fails on the code: the string is the wallet import format of the 32-byte key of value
0 (uncompressed, mainnet); `wif_to_private_key` returns false on it, and the output
parameters, which held an empty key, `compressed = true` and `mainnet = false` before the
call, hold the 32 zero bytes, `compressed = false` and `mainnet = true` after it. -/
theorem wif_to_private_key_partial_output :
    private_key_to_wif (List.replicate 32 (0 : uint8_t)) false true =
      "6J8csdv3eDrnJcpSEb4shfjMh2JTiG9MKzC1Yfge4Y4GyJL27tz".toList ∧
    wif_to_private_key "6J8csdv3eDrnJcpSEb4shfjMh2JTiG9MKzC1Yfge4Y4GyJL27tz".toList
        ⟨[], true, false⟩ =
      (false, ⟨List.replicate 32 (0 : uint8_t), false, true⟩) ∧
    (⟨List.replicate 32 (0 : uint8_t), false, true⟩ : WifOutputs) ≠ ⟨[], true, false⟩ :=
  ⟨by rfl, by rfl, by decide⟩

theorem wif_to_private_key_outputs (wif : List Char) (out : WifOutputs)
    (h : (wif_to_private_key wif out).1 = false) :
    (base58check_decode wif = none → (wif_to_private_key wif out).2 = out) ∧
    (∀ payload, base58check_decode wif = some payload →
      ((payload.length ≠ 33 ∧ payload.length ≠ 34) ∨
          (payload.getD 0 0 ≠ 0x9e ∧ payload.getD 0 0 ≠ 0xf1) →
        (wif_to_private_key wif out).2 = out) ∧
      ((payload.getD 0 0 = 0x9e ∨ payload.getD 0 0 = 0xf1) ∧
          payload.length = 34 ∧ payload.getD 33 0 ≠ 0x01 →
        (wif_to_private_key wif out).2 =
          ⟨out.private_key, out.compressed, decide (payload.getD 0 0 = 0x9e)⟩) ∧
      ((payload.getD 0 0 = 0x9e ∨ payload.getD 0 0 = 0xf1) ∧
          (payload.length = 33 ∨ (payload.length = 34 ∧ payload.getD 33 0 = 0x01)) →
        secp256k1_ec_seckey_verify ((payload.drop 1).take 32) = false ∧
        (wif_to_private_key wif out).2 =
          ⟨(payload.drop 1).take 32, decide (payload.length = 34),
            decide (payload.getD 0 0 = 0x9e)⟩)) := by
  constructor
  · intro hdec
    simp only [wif_to_private_key, hdec]
  · intro payload hdec
    rw [wif_to_private_key_of_payload wif out payload hdec] at h ⊢
    refine ⟨?_, ?_, ?_⟩
    · rintro (hl | hv)
      · rw [if_pos hl]
      · by_cases hl : payload.length ≠ 33 ∧ payload.length ≠ 34
        · rw [if_pos hl]
        · rw [if_neg hl, if_pos hv]
    · rintro ⟨hv, hl, hf⟩
      have h1 : ¬(payload.length ≠ 33 ∧ payload.length ≠ 34) := fun e => e.2 hl
      have h2 : ¬(payload.getD 0 0 ≠ 0x9e ∧ payload.getD 0 0 ≠ 0xf1) := by
        rintro ⟨ha, hb⟩
        rcases hv with e | e
        · exact ha e
        · exact hb e
      rw [if_neg h1, if_neg h2, if_pos ⟨hl, hf⟩]
    · rintro ⟨hv, hl⟩
      have h1 : ¬(payload.length ≠ 33 ∧ payload.length ≠ 34) := by
        rcases hl with e | ⟨e, -⟩ <;> omega
      have h2 : ¬(payload.getD 0 0 ≠ 0x9e ∧ payload.getD 0 0 ≠ 0xf1) := by
        rintro ⟨ha, hb⟩
        rcases hv with e | e
        · exact ha e
        · exact hb e
      have h3 : ¬(payload.length = 34 ∧ payload.getD 33 0 ≠ 0x01) := by
        rintro ⟨ha, hb⟩
        rcases hl with e | ⟨-, e⟩
        · omega
        · exact hb e
      rw [if_neg h1, if_neg h2, if_neg h3] at h ⊢
      by_cases hk : secp256k1_ec_seckey_verify ((payload.drop 1).take 32) = false
      · rw [if_pos hk]
        exact ⟨hk, rfl⟩
      · rw [if_neg hk] at h
        cases h

/-- C26, as the code has it: when `wif_to_private_key` returns false, its three output
parameters are unchanged if Base58Check decoding fails, if the payload length is neither 33
nor 34, or if the version byte is neither 0x9e nor 0xf1; if the failure is the compression
flag of a 34-byte payload, `mainnet` has been overwritten with the network of the version
byte and the other two are unchanged; otherwise the failure is the curve-range check and all
three hold the values decoded from the payload. -/
theorem wif_to_private_key_failure_outputs (wif : List Char) (out : WifOutputs)
    (h : (wif_to_private_key wif out).1 = false) :
    (base58check_decode wif = none → (wif_to_private_key wif out).2 = out) ∧
    (∀ payload, base58check_decode wif = some payload →
      ((payload.length ≠ 33 ∧ payload.length ≠ 34) ∨
          (payload.getD 0 0 ≠ 0x9e ∧ payload.getD 0 0 ≠ 0xf1) →
        (wif_to_private_key wif out).2 = out) ∧
      ((payload.getD 0 0 = 0x9e ∨ payload.getD 0 0 = 0xf1) ∧
          payload.length = 34 ∧ payload.getD 33 0 ≠ 0x01 →
        (wif_to_private_key wif out).2 =
          ⟨out.private_key, out.compressed, decide (payload.getD 0 0 = 0x9e)⟩) ∧
      ((payload.getD 0 0 = 0x9e ∨ payload.getD 0 0 = 0xf1) ∧
          (payload.length = 33 ∨ (payload.length = 34 ∧ payload.getD 33 0 = 0x01)) →
        secp256k1_ec_seckey_verify ((payload.drop 1).take 32) = false ∧
        (wif_to_private_key wif out).2 =
          ⟨(payload.drop 1).take 32, decide (payload.length = 34),
            decide (payload.getD 0 0 = 0x9e)⟩)) :=
  wif_to_private_key_outputs wif out h

/-- A string that is not Base58Check leaves the output parameters as they were. -/
theorem wif_to_private_key_failure_outputs_witness :
    (wif_to_private_key "0".toList ⟨[7], true, false⟩).1 = false ∧
    base58check_decode "0".toList = none ∧
    (wif_to_private_key "0".toList ⟨[7], true, false⟩).2 = ⟨[7], true, false⟩ :=
  ⟨by decide, by decide,
    (wif_to_private_key_failure_outputs "0".toList ⟨[7], true, false⟩ (by decide)).1
      (by decide)⟩

/-! ## The retries of `generate_private_key` -/

theorem generate_private_key_from (urandom : Nat → Option (List uint8_t)) :
    ∀ (n fuel start : Nat),
      (∀ i, i < n → ∃ bytes, urandom (start + i) = some bytes ∧
        secp256k1_ec_seckey_verify bytes = false) →
      (fuel ≤ n → generate_private_key urandom fuel start = none) ∧
      (n < fuel →
        (urandom (start + n) = none →
          generate_private_key urandom fuel start = some (none, start + n + 1)) ∧
        (∀ bytes, urandom (start + n) = some bytes →
          secp256k1_ec_seckey_verify bytes = true →
          generate_private_key urandom fuel start = some (some bytes, start + n + 1))) := by
  intro n
  induction n with
  | zero =>
    intro fuel start _
    constructor
    · intro hf
      have : fuel = 0 := by omega
      subst this
      rfl
    · intro hf
      obtain ⟨f, rfl⟩ : ∃ f, fuel = f + 1 := ⟨fuel - 1, by omega⟩
      constructor
      · intro hnone
        rw [Nat.add_zero] at hnone
        simp only [generate_private_key, hnone, Nat.add_zero]
      · intro bytes hsome hok
        rw [Nat.add_zero] at hsome
        simp only [generate_private_key, hsome, hok, Nat.add_zero]
        rfl
  | succ n ih =>
    intro fuel start hretry
    obtain ⟨b0, hb0, hbad⟩ := hretry 0 (by omega)
    rw [Nat.add_zero] at hb0
    have hrest : ∀ i, i < n → ∃ bytes, urandom (start + 1 + i) = some bytes ∧
        secp256k1_ec_seckey_verify bytes = false := by
      intro i hi
      have := hretry (i + 1) (by omega)
      rwa [show start + (i + 1) = start + 1 + i by omega] at this
    cases fuel with
    | zero => exact ⟨fun _ => rfl, fun h => absurd h (by omega)⟩
    | succ f =>
      have hstep : generate_private_key urandom (f + 1) start =
          generate_private_key urandom f (start + 1) := by
        simp only [generate_private_key, hb0, hbad]
        rfl
      have hih := ih f (start + 1) hrest
      rw [hstep, show start + (n + 1) = start + 1 + n by omega]
      exact ⟨fun h => hih.1 (by omega), fun h => hih.2 (by omega)⟩

/-- C27 fails on the code: on the entropy source that returns 32 zero bytes at every read,
`generate_private_key` does not return however many nested calls it is allowed; and for every
`N` the source that returns 32 zero bytes at the first `N` reads and then the key of value 1
makes it return after exactly `N + 1` reads, so no bound on the number of reads holds for
every source. -/
theorem generate_private_key_unbounded :
    secp256k1_ec_seckey_verify (List.replicate 32 (0 : uint8_t)) = false ∧
    (∀ fuel reads : Nat,
      generate_private_key (fun _ => some (List.replicate 32 (0 : uint8_t))) fuel reads = none) ∧
    (∀ N fuel : Nat, N < fuel →
      generate_private_key
          (fun n => if n < N then some (List.replicate 32 (0 : uint8_t))
            else some (List.replicate 31 (0 : uint8_t) ++ [1])) fuel 0 =
        some (some (List.replicate 31 (0 : uint8_t) ++ [1]), N + 1)) := by
  have hzero : secp256k1_ec_seckey_verify (List.replicate 32 (0 : uint8_t)) = false := by
    decide
  have hone : secp256k1_ec_seckey_verify (List.replicate 31 (0 : uint8_t) ++ [1]) = true := by
    decide
  refine ⟨hzero, ?_, ?_⟩
  · intro fuel
    induction fuel with
    | zero => intro reads; rfl
    | succ f ih =>
      intro reads
      simp only [generate_private_key, hzero]
      exact ih (reads + 1)
  · intro N fuel hN
    have h := (generate_private_key_from
      (fun n => if n < N then some (List.replicate 32 (0 : uint8_t))
        else some (List.replicate 31 (0 : uint8_t) ++ [1])) N fuel 0
      (fun i hi => ⟨_, by simp [hi], hzero⟩)).2 hN
    have h2 := h.2 (List.replicate 31 (0 : uint8_t) ++ [1]) (by simp) hone
    simpa using h2

/-- C27, as the code has it: `generate_private_key` retries by calling itself, without a
bound. If the first `n` reads of the entropy source succeed with bytes that fail the
curve-range check, then the function needs more than `n` nested calls; with more than `n`
calls it returns after exactly `n + 1` reads when read `n + 1` fails (result false) or yields
bytes that pass the check (result true, with those bytes as the key). -/
theorem generate_private_key_retries (urandom : Nat → Option (List uint8_t)) (n fuel : Nat)
    (hretry : ∀ i, i < n → ∃ bytes, urandom i = some bytes ∧
      secp256k1_ec_seckey_verify bytes = false) :
    (fuel ≤ n → generate_private_key urandom fuel 0 = none) ∧
    (n < fuel →
      (urandom n = none → generate_private_key urandom fuel 0 = some (none, n + 1)) ∧
      (∀ bytes, urandom n = some bytes → secp256k1_ec_seckey_verify bytes = true →
        generate_private_key urandom fuel 0 = some (some bytes, n + 1))) := by
  have h := generate_private_key_from urandom n fuel 0
    (fun i hi => by simpa using hretry i hi)
  simpa using h

/-- Two reads of 32 bytes of value 0xff, which is above the curve order, then a read that
fails: the function returns false after three reads. -/
theorem generate_private_key_retries_witness :
    secp256k1_ec_seckey_verify (List.replicate 32 (0xff : uint8_t)) = false ∧
    generate_private_key
      (fun n => if n < 2 then some (List.replicate 32 (0xff : uint8_t)) else none) 5 0 =
      some (none, 3) :=
  ⟨by decide,
    ((generate_private_key_retries
      (fun n => if n < 2 then some (List.replicate 32 (0xff : uint8_t)) else none) 2 5
      (fun i hi => ⟨List.replicate 32 (0xff : uint8_t), by simp [hi], by decide⟩)).2
      (by decide)).1 (by decide)⟩

/-! ## One altered character in a Base58Check string -/

theorem strchr_from_bounds {xs : List Char} {c : Char} {i j : Nat}
    (h : strchr_from xs c i = some j) : i ≤ j ∧ j ≤ i + xs.length := by
  induction xs generalizing i with
  | nil =>
    by_cases hc : c = Char.ofNat 0
    · simp only [strchr_from, hc, if_true, Option.some.injEq] at h
      simp only [List.length_nil]
      omega
    · simp [strchr_from, hc] at h
  | cons x xs ih =>
    by_cases hx : x = c
    · simp only [strchr_from, hx, if_true, Option.some.injEq] at h
      omega
    · simp only [strchr_from, hx, if_false] at h
      have := ih h
      simp only [List.length_cons]
      omega

theorem strchr_from_injective {xs : List Char} {c c' : Char} {i j : Nat}
    (h : strchr_from xs c i = some j) (h' : strchr_from xs c' i = some j) : c = c' := by
  induction xs generalizing i with
  | nil =>
    by_cases hc : c = Char.ofNat 0
    · by_cases hc' : c' = Char.ofNat 0
      · rw [hc, hc']
      · simp [strchr_from, hc'] at h'
    · simp [strchr_from, hc] at h
  | cons x xs ih =>
    by_cases hx : x = c
    · by_cases hx' : x = c'
      · rw [← hx, ← hx']
      · simp only [strchr_from, hx, if_true, Option.some.injEq] at h
        simp only [strchr_from, hx', if_false] at h'
        have := (strchr_from_bounds h').1
        omega
    · by_cases hx' : x = c'
      · simp only [strchr_from, hx', if_true, Option.some.injEq] at h'
        simp only [strchr_from, hx, if_false] at h
        have := (strchr_from_bounds h).1
        omega
      · simp only [strchr_from, hx, if_false] at h
        simp only [strchr_from, hx', if_false] at h'
        exact ih h h'

theorem base58_strchr_le {c : Char} {v : Nat} (h : strchr BASE58_ALPHABET c = some v) :
    v ≤ 58 := by
  have := (strchr_from_bounds h).2
  have hl : BASE58_ALPHABET.length = 58 := by decide
  omega

theorem base58_decode_loop_append (a b : List Char) :
    ∀ buf, base58_decode_loop (a ++ b) buf =
      match base58_decode_loop a buf with
      | none => none
      | some m => base58_decode_loop b m := by
  induction a with
  | nil => intro buf; rfl
  | cons x xs ih =>
    intro buf
    cases hs : strchr BASE58_ALPHABET x with
    | none => simp only [List.cons_append, base58_decode_loop, hs]
    | some p =>
      simp only [List.cons_append, base58_decode_loop, hs]
      exact ih _

theorem mul_add_pass_mod (buf : List uint8_t) (carry : Nat) (hc : carry ≤ 58) :
    (mul_add_pass 58 256 buf carry).1.length = buf.length ∧
    dval 256 (vals (mul_add_pass 58 256 buf carry).1) % 256 ^ buf.length =
      (58 * dval 256 (vals buf) + carry) % 256 ^ buf.length := by
  obtain ⟨hlen, -, -, hval⟩ := mul_add_pass_spec (M := 58) (B := 256) (by decide) (by decide)
    (by decide) buf carry (vals_lt_256 _) hc
  refine ⟨hlen, ?_⟩
  rw [← hval, Nat.add_mul_mod_self_right]

theorem base58_decode_loop_mod (s : List Char) :
    ∃ x : Nat, ∀ buf r, base58_decode_loop s buf = some r →
      r.length = buf.length ∧
      dval 256 (vals r) % 256 ^ buf.length =
        (dval 256 (vals buf) * 58 ^ s.length + x) % 256 ^ buf.length := by
  induction s with
  | nil =>
    refine ⟨0, ?_⟩
    intro buf r h
    simp only [base58_decode_loop, Option.some.injEq] at h
    subst h
    simp
  | cons c cs ih =>
    obtain ⟨x, hx⟩ := ih
    cases hs : strchr BASE58_ALPHABET c with
    | none =>
      refine ⟨0, ?_⟩
      intro buf r h
      simp [base58_decode_loop, hs] at h
    | some v =>
      refine ⟨v * 58 ^ cs.length + x, ?_⟩
      intro buf r h
      simp only [base58_decode_loop, hs] at h
      obtain ⟨hlen, hval⟩ := hx _ r h
      obtain ⟨plen, pval⟩ := mul_add_pass_mod buf v (base58_strchr_le hs)
      rw [plen] at hlen hval
      refine ⟨hlen, ?_⟩
      rw [hval, Nat.add_mod, Nat.mul_mod, pval, ← Nat.mul_mod, ← Nat.add_mod,
        List.length_cons, pow_succ]
      congr 1
      ring

theorem base58check_decode_eq_some (s : List Char) (p : List uint8_t) :
    base58check_decode s = some p ↔
      base58_decode s = some (p ++ (sha256_double p).take 4) := by
  constructor
  · intro h
    cases hd : base58_decode s with
    | none => simp [base58check_decode, hd] at h
    | some decoded =>
      simp only [base58check_decode, hd] at h
      by_cases h4 : decoded.length < 4
      · rw [if_pos h4] at h
        cases h
      · rw [if_neg h4] at h
        by_cases hck : (sha256_double (decoded.take (decoded.length - 4))).take 4 ≠
            (decoded.drop (decoded.length - 4)).take 4
        · rw [if_pos hck] at h
          cases h
        · rw [if_neg hck] at h
          have hp : decoded.take (decoded.length - 4) = p := Option.some.inj h
          have hck' := not_not.mp hck
          have hdrop : (decoded.drop (decoded.length - 4)).take 4 =
              decoded.drop (decoded.length - 4) :=
            List.take_of_length_le (by
              rw [List.length_drop]
              omega)
          rw [hdrop, hp] at hck'
          rw [hck', ← hp, List.take_append_drop]
  · intro h
    have hlen : ¬ (p ++ (sha256_double p).take 4).length < 4 := by
      rw [List.length_append, checksum_length]
      omega
    have hsub : (p ++ (sha256_double p).take 4).length - 4 = p.length := by
      rw [List.length_append, checksum_length]
      omega
    simp only [base58check_decode, h]
    rw [if_neg hlen, hsub, List.take_left', List.drop_left']
    · simp
    · rfl
    · rfl

theorem base58_decode_value {s : List Char} {decoded : List uint8_t} (hs : s ≠ [])
    (h : base58_decode s = some decoded) :
    ∃ b, base58_decode_loop s (List.replicate (s.length * 733 / 1000 + 1) 0) = some b ∧
      dval 256 (vals b) = dval 256 (vals decoded) := by
  have hlen : s.length ≠ 0 := fun e => hs (List.length_eq_zero.mp e)
  simp only [base58_decode, hlen, if_false] at h
  cases hl : base58_decode_loop s (List.replicate (s.length * 733 / 1000 + 1) 0) with
  | none => simp [hl] at h
  | some b =>
    refine ⟨b, rfl, ?_⟩
    simp only [hl, Option.some.injEq] at h
    rw [← h, dval_zeros_append, dval_drop_count_leading]

theorem base58_decode_altered {s s' : List Char} (halt : altered_in_one s s') :
    base58_decode s = none ∨ base58_decode s ≠ base58_decode s' := by
  obtain ⟨before, c, c', after, hne, rfl, rfl⟩ := halt
  cases hd : base58_decode (before ++ c :: after) with
  | none => exact Or.inl rfl
  | some decoded =>
    refine Or.inr ?_
    intro heq
    obtain ⟨b, hb, hbv⟩ := base58_decode_value (by simp) hd
    obtain ⟨b', hb', hbv'⟩ := base58_decode_value (by simp) heq.symm
    have hsame : (before ++ c' :: after).length = (before ++ c :: after).length := by simp
    rw [hsame] at hb'
    generalize hbuf : List.replicate ((before ++ c :: after).length * 733 / 1000 + 1)
      (0 : uint8_t) = buf at hb hb'
    have hbuflen : buf.length = (before ++ c :: after).length * 733 / 1000 + 1 := by
      rw [← hbuf, List.length_replicate]
    rw [base58_decode_loop_append] at hb hb'
    cases hA : base58_decode_loop before buf with
    | none => simp [hA] at hb
    | some m =>
      obtain ⟨y, hy⟩ := base58_decode_loop_mod before
      have hmlen := (hy buf m hA).1
      obtain ⟨x, hx⟩ := base58_decode_loop_mod after
      simp only [hA, base58_decode_loop] at hb hb'
      cases hc : strchr BASE58_ALPHABET c with
      | none => simp [hc] at hb
      | some d =>
        cases hc' : strchr BASE58_ALPHABET c' with
        | none => simp [hc'] at hb'
        | some d' =>
          simp only [hc] at hb
          simp only [hc'] at hb'
          have hd58 := base58_strchr_le hc
          have hd58' := base58_strchr_le hc'
          obtain ⟨p1, pv⟩ := mul_add_pass_mod m d hd58
          obtain ⟨p1', pv'⟩ := mul_add_pass_mod m d' hd58'
          obtain ⟨-, hv⟩ := hx _ b hb
          obtain ⟨-, hv'⟩ := hx _ b' hb'
          rw [p1] at hv
          rw [p1'] at hv'
          have hvals : dval 256 (vals b) = dval 256 (vals b') := by rw [hbv, hbv']
          rw [hvals] at hv
          rw [hv'] at hv
          -- both sides are congruent modulo `256 ^ m.length`
          have hmod : (d' * 58 ^ after.length) % 256 ^ m.length =
              (d * 58 ^ after.length) % 256 ^ m.length := by
            have e1 : (dval 256 (vals (mul_add_pass 58 256 m d').1) * 58 ^ after.length + x)
                % 256 ^ m.length =
                ((58 * dval 256 (vals m) * 58 ^ after.length + x) + d' * 58 ^ after.length)
                % 256 ^ m.length := by
              rw [Nat.add_mod, Nat.mul_mod, pv', ← Nat.mul_mod, ← Nat.add_mod]
              congr 1
              ring
            have e2 : (dval 256 (vals (mul_add_pass 58 256 m d).1) * 58 ^ after.length + x)
                % 256 ^ m.length =
                ((58 * dval 256 (vals m) * 58 ^ after.length + x) + d * 58 ^ after.length)
                % 256 ^ m.length := by
              rw [Nat.add_mod, Nat.mul_mod, pv, ← Nat.mul_mod, ← Nat.add_mod]
              congr 1
              ring
            rw [e1, e2] at hv
            exact Nat.ModEq.add_left_cancel' _ hv
          have hfit := decode_buffer_fits (before ++ c :: after).length
          rw [← hbuflen, ← hmlen] at hfit
          have hpow : 58 * 58 ^ after.length ≤ 58 ^ (before ++ c :: after).length := by
            rw [← pow_succ']
            apply Nat.pow_le_pow_right (by decide)
            simp only [List.length_append, List.length_cons]
            omega
          have hlt : d * 58 ^ after.length < 256 ^ m.length :=
            lt_of_le_of_lt (le_trans (Nat.mul_le_mul_right _ hd58) hpow) hfit
          have hlt' : d' * 58 ^ after.length < 256 ^ m.length :=
            lt_of_le_of_lt (le_trans (Nat.mul_le_mul_right _ hd58') hpow) hfit
          rw [Nat.mod_eq_of_lt hlt, Nat.mod_eq_of_lt hlt'] at hmod
          have hdd : d' = d := Nat.eq_of_mul_eq_mul_right (by positivity) hmod
          rw [hdd] at hc'
          exact hne (strchr_from_injective hc hc')

theorem base58check_altered_not_original (p : List uint8_t) (s' : List Char)
    (halt : altered_in_one (base58check_encode p) s') : base58check_decode s' ≠ some p := by
  intro h
  have h1 := (base58check_decode_eq_some s' p).1 h
  have h0 := (base58check_decode_eq_some (base58check_encode p) p).1
    (base58check_round_trip p)
  rcases base58_decode_altered halt with hn | hn
  · rw [hn] at h0
    cases h0
  · exact hn (h0.trans h1.symm)

set_option maxRecDepth 1000000 in
/-- C24 fails on the code: `ESkwdAUQVFw` is `base58check_encode` of the payload 50 60 83 4a;
replacing its sixth character `A` by `G` gives `ESkwdGUQVFw`, which `base58check_decode`
accepts, returning the payload 50 60 83 4b: the altered string decodes to the bytes
50 60 83 4b d2 31 f2 fa, whose last four are the checksum of the first four. -/
theorem base58check_decode_accepts_altered :
    base58check_encode [0x50, 0x60, 0x83, 0x4a] = "ESkwdAUQVFw".toList ∧
    altered_in_one "ESkwdAUQVFw".toList "ESkwdGUQVFw".toList ∧
    "ESkwdAUQVFw".toList.length = "ESkwdGUQVFw".toList.length ∧
    base58_decode "ESkwdGUQVFw".toList = some [0x50, 0x60, 0x83, 0x4b, 0xd2, 0x31, 0xf2, 0xfa] ∧
    (sha256_double [0x50, 0x60, 0x83, 0x4b]).take 4 = [0xd2, 0x31, 0xf2, 0xfa] ∧
    base58check_decode "ESkwdGUQVFw".toList = some [0x50, 0x60, 0x83, 0x4b] :=
  ⟨by rfl, ⟨"ESkwd".toList, 'A', 'G', "UQVFw".toList, by decide, rfl, rfl⟩, by rfl, by rfl,
    by rfl, by rfl⟩

/-- C24, as the code has it: for every payload `p` and every string `s'` that differs from
`base58check_encode p` in exactly one character, `base58check_decode s'` never returns `p`;
it fails when `s'` contains a character that is neither in the alphabet nor NUL; and it
returns a payload `q` exactly when `base58_decode s'` is `q` followed by the first four bytes
of the double SHA-256 of `q`, which by the first part can only happen for `q` other than
`p`. -/
theorem base58check_decode_altered (p : List uint8_t) (s' : List Char)
    (halt : altered_in_one (base58check_encode p) s') :
    base58check_decode s' ≠ some p ∧
    ((∃ c ∈ s', c ∉ BASE58_ALPHABET ∧ c ≠ Char.ofNat 0) → base58check_decode s' = none) ∧
    (∀ q, base58check_decode s' = some q ↔
      q ≠ p ∧ base58_decode s' = some (q ++ (sha256_double q).take 4)) := by
  have hnot := base58check_altered_not_original p s' halt
  refine ⟨hnot, ?_, ?_⟩
  · rintro ⟨c, hc, hout, hnul⟩
    simp only [base58check_decode, base58_decode_rejects s' c hc hout hnul]
  · intro q
    constructor
    · intro h
      refine ⟨?_, (base58check_decode_eq_some s' q).1 h⟩
      rintro rfl
      exact hnot h
    · rintro ⟨-, h⟩
      exact (base58check_decode_eq_some s' q).2 h

set_option maxRecDepth 1000000 in
/-- The string `ESkwdAUQVFw` with its last character replaced by `x` is rejected. -/
theorem base58check_decode_altered_witness :
    altered_in_one (base58check_encode [0x50, 0x60, 0x83, 0x4a]) "ESkwdAUQVFx".toList ∧
    base58check_decode "ESkwdAUQVFx".toList ≠ some [0x50, 0x60, 0x83, 0x4a] ∧
    base58check_decode "ESkwdAUQVFx".toList = none :=
  ⟨⟨"ESkwdAUQVF".toList, 'w', 'x', [], by decide, by rfl, rfl⟩,
    (base58check_decode_altered [0x50, 0x60, 0x83, 0x4a] "ESkwdAUQVFx".toList
      ⟨"ESkwdAUQVF".toList, 'w', 'x', [], by decide, by rfl, rfl⟩).1,
    by rfl⟩

/-! ## The streaming code of SHA-256 against the padded message -/

theorem blocks64_cons (block rest : List uint8_t) (h : block.length = 64) :
    blocks64 (block ++ rest) = block :: blocks64 rest := by
  have hlen : (block ++ rest).length / 64 = rest.length / 64 + 1 := by
    rw [List.length_append, h]
    omega
  simp only [blocks64]
  rw [hlen, List.range_succ_eq_map, List.map_cons, List.map_map]
  congr 1
  · rw [Nat.mul_zero, List.drop_zero, List.take_left' h]
  · apply List.map_congr_left
    intro k _
    show ((block ++ rest).drop (64 * (k + 1))).take 64 = (rest.drop (64 * k)).take 64
    rw [List.drop_append_eq_append_drop, List.drop_of_length_le (by omega), List.nil_append, h]
    rw [show 64 * (k + 1) - 64 = 64 * k by omega]

theorem blocks64_short (l : List uint8_t) (h : l.length < 64) : blocks64 l = [] := by
  simp only [blocks64]
  rw [Nat.div_eq_of_lt h]
  rfl

theorem blocks64_append : ∀ (m : Nat) (x y : List uint8_t), x.length = 64 * m →
    blocks64 (x ++ y) = blocks64 x ++ blocks64 y := by
  intro m
  induction m with
  | zero =>
    intro x y h
    have : x = [] := List.length_eq_zero.mp (by omega)
    subst this
    rfl
  | succ m ih =>
    intro x y h
    have h64 : (x.take 64).length = 64 := by
      rw [List.length_take]
      omega
    have hdrop : (x.drop 64).length = 64 * m := by
      rw [List.length_drop]
      omega
    have hx : x = x.take 64 ++ x.drop 64 := (List.take_append_drop 64 x).symm
    have e1 : blocks64 x = x.take 64 :: blocks64 (x.drop 64) := by
      conv_lhs => rw [hx]
      exact blocks64_cons _ _ h64
    have e2 : blocks64 (x ++ y) = x.take 64 :: blocks64 (x.drop 64 ++ y) := by
      conv_lhs => rw [hx, List.append_assoc]
      exact blocks64_cons _ _ h64
    rw [e1, e2, ih _ y hdrop, List.cons_append]

theorem blocks64_flatten : ∀ (m : Nat) (x : List uint8_t), x.length = 64 * m →
    (blocks64 x).flatten = x ∧ ∀ b ∈ blocks64 x, b.length = 64 := by
  intro m
  induction m with
  | zero =>
    intro x h
    have : x = [] := List.length_eq_zero.mp (by omega)
    subst this
    exact ⟨rfl, by simp [blocks64]⟩
  | succ m ih =>
    intro x h
    have h64 : (x.take 64).length = 64 := by
      rw [List.length_take]
      omega
    have hdrop : (x.drop 64).length = 64 * m := by
      rw [List.length_drop]
      omega
    have hx : x = x.take 64 ++ x.drop 64 := (List.take_append_drop 64 x).symm
    have e1 : blocks64 x = x.take 64 :: blocks64 (x.drop 64) := by
      conv_lhs => rw [hx]
      exact blocks64_cons _ _ h64
    obtain ⟨ih1, ih2⟩ := ih _ hdrop
    rw [e1]
    constructor
    · rw [List.flatten_cons, ih1, List.take_append_drop]
    · intro b hb
      rcases List.mem_cons.mp hb with rfl | hb
      · exact h64
      · exact ih2 b hb

theorem process_full_blocks_eq (transform : List Nat → List uint8_t → List Nat)
    (state : List Nat) (data : List uint8_t) :
    process_full_blocks transform state data = (blocks64 data).foldl transform state := by
  simp only [process_full_blocks, blocks64, List.foldl_map]

theorem blocks64_split (data rest : List uint8_t) :
    blocks64 (data ++ rest) = blocks64 data ++ blocks64 (data.drop (64 * (data.length / 64)) ++ rest) := by
  have hlen : (data.take (64 * (data.length / 64))).length = 64 * (data.length / 64) := by
    rw [List.length_take]
    omega
  have htail : (data.drop (64 * (data.length / 64))).length < 64 := by
    rw [List.length_drop]
    omega
  have e1 : blocks64 data = blocks64 (data.take (64 * (data.length / 64))) := by
    conv_lhs => rw [← List.take_append_drop (64 * (data.length / 64)) data]
    rw [blocks64_append _ _ _ hlen, blocks64_short _ htail, List.append_nil]
  conv_lhs => rw [← List.take_append_drop (64 * (data.length / 64)) data, List.append_assoc]
  rw [blocks64_append _ _ _ hlen, e1]

theorem streaming_eq_fold (transform : List Nat → List uint8_t → List Nat)
    (state : List Nat) (data length_bytes : List uint8_t) (hlb : length_bytes.length = 8) :
    process_tail transform (process_full_blocks transform state data) data length_bytes =
      (blocks64 (data ++ [0x80] ++ List.replicate (sha256_zero_count data.length) 0 ++
        length_bytes)).foldl transform state ∧
    (blocks64 (data ++ [0x80] ++ List.replicate (sha256_zero_count data.length) 0 ++
        length_bytes)).length =
      data.length / 64 + (if data.length % 64 < 56 then 1 else 2) := by
  have htail : (data.drop (64 * (data.length / 64))).length = data.length % 64 := by
    rw [List.length_drop]
    omega
  rw [process_full_blocks_eq, List.append_assoc, List.append_assoc, blocks64_split,
    List.foldl_append, List.length_append]
  have hq : (blocks64 data).length = data.length / 64 := by simp [blocks64]
  rw [hq]
  simp only [process_tail]
  by_cases hrem : data.length - 64 * (data.length / 64) + 1 > 56
  · rw [if_pos hrem, if_neg (by omega)]
    have hk : sha256_zero_count data.length =
        (64 - (data.length - 64 * (data.length / 64) + 1)) + 56 := by
      simp only [sha256_zero_count]
      omega
    rw [hk, List.replicate_add]
    have hb1 : (data.drop (64 * (data.length / 64)) ++ [0x80] ++
        List.replicate (64 - (data.length - 64 * (data.length / 64) + 1)) (0 : uint8_t)).length
          = 64 := by
      simp only [List.length_append, htail, List.length_replicate, List.length_singleton]
      omega
    have hb2 : (List.replicate 56 (0 : uint8_t) ++ length_bytes).length = 64 := by
      simp [hlb]
    have e : data.drop (64 * (data.length / 64)) ++ ([0x80] ++
        (List.replicate (64 - (data.length - 64 * (data.length / 64) + 1)) (0 : uint8_t) ++
          List.replicate 56 0 ++ length_bytes)) =
        (data.drop (64 * (data.length / 64)) ++ [0x80] ++
          List.replicate (64 - (data.length - 64 * (data.length / 64) + 1)) (0 : uint8_t)) ++
        ((List.replicate 56 (0 : uint8_t) ++ length_bytes) ++ []) := by
      simp only [List.append_assoc, List.append_nil]
    rw [e, blocks64_cons _ _ hb1, blocks64_cons _ _ hb2]
    exact ⟨rfl, rfl⟩
  · rw [if_neg hrem, if_pos (by omega)]
    have hk : sha256_zero_count data.length =
        56 - (data.length - 64 * (data.length / 64) + 1) := by
      simp only [sha256_zero_count]
      omega
    rw [hk]
    have hb1 : (data.drop (64 * (data.length / 64)) ++ [0x80] ++
        List.replicate (56 - (data.length - 64 * (data.length / 64) + 1)) (0 : uint8_t) ++
        length_bytes).length = 64 := by
      simp only [List.length_append, htail, List.length_replicate, List.length_singleton, hlb]
      omega
    have e : data.drop (64 * (data.length / 64)) ++ ([0x80] ++
        (List.replicate (56 - (data.length - 64 * (data.length / 64) + 1)) (0 : uint8_t) ++
          length_bytes)) =
        (data.drop (64 * (data.length / 64)) ++ [0x80] ++
          List.replicate (56 - (data.length - 64 * (data.length / 64) + 1)) (0 : uint8_t) ++
          length_bytes) ++ [] := by
      simp only [List.append_assoc, List.append_nil]
    rw [e, blocks64_cons _ _ hb1]
    exact ⟨rfl, rfl⟩

theorem sha256_length_bytes (len : Nat) (h : len < 2 ^ 61) :
    ((List.range 8).map fun j =>
        to_uint8 ((((len * 8) % 2 ^ 64) >>> (56 - j * 8)) &&& 0xff)) = be64 (8 * len) := by
  have hb : (len * 8) % 2 ^ 64 = 8 * len := by
    rw [Nat.mod_eq_of_lt (by omega)]
    omega
  rw [hb]
  simp only [be64]
  apply List.map_congr_left
  intro j hj
  have hj8 : j < 8 := List.mem_range.mp hj
  rw [and_ff, Nat.shiftRight_eq_div_pow]
  have hp : 2 ^ (56 - j * 8) = 256 ^ (7 - j) := by
    interval_cases j <;> rfl
  rw [hp]

theorem be_value_be64 (n : Nat) (h : n < 2 ^ 64) : be_value (be64 n) = n ∧ (be64 n).length = 8 := by
  have hr : List.range 8 = [0, 1, 2, 3, 4, 5, 6, 7] := by decide
  simp only [be64, be_value, hr, List.map_cons, List.map_nil, List.foldl_cons, List.foldl_nil,
    to_uint8_val, List.length_cons, List.length_nil]
  norm_num
  omega

theorem sha256_zero_count_least (len : Nat) :
    (len + 1 + sha256_zero_count len + 8) % 64 = 0 ∧
    ∀ j, (len + 1 + j + 8) % 64 = 0 → sha256_zero_count len ≤ j := by
  simp only [sha256_zero_count]
  constructor
  · omega
  · intro j hj
    omega

theorem sha256_padded_length (data : List uint8_t) :
    (sha256_padded data).length = data.length + 1 + sha256_zero_count data.length + 8 := by
  simp only [sha256_padded, be64, List.length_append, List.length_replicate, List.length_map,
    List.length_range, List.length_singleton]

theorem sha256_eq_of_padded (data : List uint8_t) (h : data.length < 2 ^ 61) :
    sha256 data = sha256_of_padded data := by
  have hlb := sha256_length_bytes data.length h
  have hlen : (be64 (8 * data.length)).length = 8 := by simp [be64]
  have hfold := (streaming_eq_fold sha256_transform sha256_init data
    (be64 (8 * data.length)) hlen).1
  simp only [sha256, sha256_of_padded, sha256_padded]
  rw [hlb, hfold]
  simp only [and_ff, Nat.shiftRight_eq_div_pow]

/-- C30: for every input of fewer than `2 ^ 61` bytes, `sha256` is the fold of
`sha256_transform`, from the initial state, over the consecutive 64-byte blocks of the padded
message `data || 0x80 || k zero bytes || (8 * len as 64-bit big-endian)`, written out as 32
bytes; `k` is the least number that makes the padded length a multiple of 64; the blocks are
the `len / 64` full blocks of the input followed by one padded block when `len % 64 < 56` and
by two otherwise, and together they are the whole padded message. -/
theorem sha256_refines_padded (data : List uint8_t) (h : data.length < 2 ^ 61) :
    sha256 data = sha256_of_padded data ∧
    process_tail sha256_transform (process_full_blocks sha256_transform sha256_init data) data
        ((List.range 8).map fun j =>
          to_uint8 ((((data.length * 8) % 2 ^ 64) >>> (56 - j * 8)) &&& 0xff)) =
      (blocks64 (sha256_padded data)).foldl sha256_transform sha256_init ∧
    (sha256_padded data).length =
      data.length + 1 + sha256_zero_count data.length + 8 ∧
    (sha256_padded data).length % 64 = 0 ∧
    (∀ j, (data.length + 1 + j + 8) % 64 = 0 → sha256_zero_count data.length ≤ j) ∧
    be_value (be64 (8 * data.length)) = 8 * data.length ∧
    (blocks64 (sha256_padded data)).length =
      data.length / 64 + (if data.length % 64 < 56 then 1 else 2) ∧
    (blocks64 (sha256_padded data)).flatten = sha256_padded data ∧
    (∀ b ∈ blocks64 (sha256_padded data), b.length = 64) ∧
    (blocks64 (sha256_padded data)).take (data.length / 64) = blocks64 data := by
  have hlen : (be64 (8 * data.length)).length = 8 := by simp [be64]
  have hstream := streaming_eq_fold sha256_transform sha256_init data
    (be64 (8 * data.length)) hlen
  have hpl := sha256_padded_length data
  have hmod : (sha256_padded data).length % 64 = 0 := by
    rw [hpl]
    exact (sha256_zero_count_least data.length).1
  have hflat := blocks64_flatten ((sha256_padded data).length / 64) (sha256_padded data)
    (by omega)
  refine ⟨sha256_eq_of_padded data h, ?_, hpl, hmod, (sha256_zero_count_least data.length).2,
    (be_value_be64 _ (by omega)).1, hstream.2, hflat.1, hflat.2, ?_⟩
  · rw [sha256_length_bytes data.length h]
    exact hstream.1
  · have hq : (blocks64 data).length = data.length / 64 := by simp [blocks64]
    simp only [sha256_padded]
    rw [List.append_assoc, List.append_assoc, blocks64_split, ← hq, List.take_left']
    rfl

set_option maxRecDepth 1000000 in
/-- The three bytes of `abc`: the padded message is one block, and the hash is the fold over
it. -/
theorem sha256_refines_padded_witness :
    (string_bytes "abc".toList).length < 2 ^ 61 ∧
    sha256_padded (string_bytes "abc".toList) =
      [0x61, 0x62, 0x63, 0x80] ++ List.replicate 52 0 ++ [0, 0, 0, 0, 0, 0, 0, 0x18] ∧
    sha256 (string_bytes "abc".toList) = sha256_of_padded (string_bytes "abc".toList) :=
  ⟨by decide, by decide, (sha256_refines_padded (string_bytes "abc".toList) (by decide)).1⟩

/-! ## The working buffer of `base58_encode` -/

theorem base58_encode_eq_b58 (data : List uint8_t) (h : data ≠ []) :
    base58_encode data =
      List.replicate (count_leading 0 data) '1' ++
        ((b58_after data data.length).drop (count_leading 0 (b58_after data data.length))).map
          (fun d => c_str_get BASE58_ALPHABET d.val) := by
  have hlen : data.length ≠ 0 := fun e => h (List.length_eq_zero.mp e)
  simp only [base58_encode, hlen, if_false, b58_after, base58_encode_size, List.take_length]

theorem b58_after_eq_fold (data : List uint8_t) (i : Nat) :
    b58_after data i = mul_add_fold 256 58 (vals (data.take i))
      (List.replicate (base58_encode_size data.length) (0 : uint8_t)) := by
  simp only [b58_after, mul_add_fold, vals, List.foldl_map]

theorem b58_after_succ (data : List uint8_t) (i : Nat) (hi : i < data.length) :
    b58_after data (i + 1) = (mul_add_pass 256 58 (b58_after data i) (data.getD i 0).val).1 := by
  have hget : data.getD i 0 = data[i] := by
    rw [List.getD_eq_getElem?_getD, List.getElem?_eq_getElem hi]
    rfl
  simp only [b58_after]
  rw [List.take_succ, List.getElem?_eq_getElem hi, List.foldl_append, hget]
  rfl

theorem be_value_eq_dval (l : List uint8_t) : be_value l = dval 256 (vals l) := by
  have h : ∀ (l : List uint8_t) (acc : Nat),
      l.foldl (fun acc b => acc * 256 + b.val) acc = acc * 256 ^ l.length + dval 256 (vals l) := by
    intro l
    induction l with
    | nil => intro acc; simp [vals, dval]
    | cons b bs ih =>
      intro acc
      rw [List.foldl_cons, ih]
      simp only [vals, List.map_cons, dval, List.length_cons, List.length_map, pow_succ]
      ring
  rw [be_value, h]
  simp

theorem b58_after_invariant (data : List uint8_t) (i : Nat) (hi : i ≤ data.length) :
    (b58_after data i).length = base58_encode_size data.length ∧
    (∀ d ∈ vals (b58_after data i), d < 58) ∧
    dval 58 (vals (b58_after data i)) = dval 256 (vals (data.take i)) := by
  have hfit := encode_buffer_fits data.length
  have hpow : 256 ^ i ≤ 256 ^ data.length := Nat.pow_le_pow_right (by decide) hi
  have htake : (data.take i).length = i := by
    rw [List.length_take]
    omega
  have hroom : (dval 58 (vals (List.replicate (base58_encode_size data.length) (0 : uint8_t)))
      + 1) * 256 ^ (vals (data.take i)).length
      ≤ 58 ^ (List.replicate (base58_encode_size data.length) (0 : uint8_t)).length := by
    rw [vals_replicate_zero, dval_replicate_zero, vals_length, List.length_replicate, htake]
    simp only [base58_encode_size]
    omega
  have hzero : ∀ d ∈ vals (List.replicate (base58_encode_size data.length) (0 : uint8_t)),
      d < 58 := by
    intro d hd
    rw [vals_replicate_zero] at hd
    rw [List.eq_of_mem_replicate hd]
    decide
  obtain ⟨h1, h2, h3⟩ := mul_add_fold_spec (M := 256) (B := 58) (by decide) (by decide)
    (by decide) (vals (data.take i)) _ (vals_lt_256 _) hzero hroom
  rw [b58_after_eq_fold]
  refine ⟨by rw [h1, List.length_replicate], h2, ?_⟩
  rw [h3, vals_replicate_zero, dval_replicate_zero, Nat.zero_mul, Nat.zero_add]

theorem b58_carry_zero (data : List uint8_t) (i : Nat) (hi : i < data.length) :
    b58_carry data i = 0 := by
  obtain ⟨hlen, hdig, hval⟩ := b58_after_invariant data i (Nat.le_of_lt hi)
  obtain ⟨-, hdig', hval'⟩ := b58_after_invariant data (i + 1) hi
  obtain ⟨-, -, -, hpass⟩ := mul_add_pass_spec (M := 256) (B := 58) (by decide) (by decide)
    (by decide) (b58_after data i) (data.getD i 0).val hdig (Nat.le_of_lt (Fin.isLt _))
  rw [← b58_after_succ data i hi, hlen] at hpass
  have hfit := encode_buffer_fits data.length
  have hlt := dval_lt (vals_lt_256 (data.take i))
  rw [vals_length, List.length_take, Nat.min_eq_left (Nat.le_of_lt hi)] at hlt
  have hpow : 256 ^ (i + 1) ≤ 256 ^ data.length := Nat.pow_le_pow_right (by decide) hi
  have hb : (data.getD i 0).val < 256 := Fin.isLt _
  rw [hval] at hpass
  simp only [b58_carry]
  by_contra hne
  have h1 : 1 ≤ (mul_add_pass 256 58 (b58_after data i) (data.getD i 0).val).2 :=
    Nat.one_le_iff_ne_zero.mpr hne
  have h2 : 1 * 58 ^ base58_encode_size data.length ≤
      (mul_add_pass 256 58 (b58_after data i) (data.getD i 0).val).2 *
        58 ^ base58_encode_size data.length := Nat.mul_le_mul_right _ h1
  simp only [base58_encode_size] at h2 hpass
  rw [pow_succ] at hpow
  omega

/-- C32: in `base58_encode`, for every input `data` of length `len`, the working buffer has
`size = len * 138 / 100 + 1` digits and `58 ^ size > 256 ^ len`; at the end of every pass
`i < len` of the outer loop the carry is 0, the buffer still has `size` digits, each below
58, and they are the base-58 digits of the big-endian value of the first `i + 1` bytes; the
string returned is made from the buffer left by the last pass. -/
theorem base58_encode_pass (data : List uint8_t) (i : Nat) (hi : i < data.length) :
    256 ^ data.length < 58 ^ base58_encode_size data.length ∧
    b58_after data 0 = List.replicate (data.length * 138 / 100 + 1) 0 ∧
    b58_after data (i + 1) =
      (mul_add_pass 256 58 (b58_after data i) (data.getD i 0).val).1 ∧
    b58_carry data i = 0 ∧
    (b58_after data (i + 1)).length = data.length * 138 / 100 + 1 ∧
    (∀ d ∈ vals (b58_after data (i + 1)), d < 58) ∧
    dval 58 (vals (b58_after data (i + 1))) = be_value (data.take (i + 1)) ∧
    base58_encode data =
      List.replicate (count_leading 0 data) '1' ++
        ((b58_after data data.length).drop (count_leading 0 (b58_after data data.length))).map
          (fun d => c_str_get BASE58_ALPHABET d.val) := by
  obtain ⟨hlen, hdig, hval⟩ := b58_after_invariant data (i + 1) hi
  have hne : data ≠ [] := by
    intro e
    rw [e] at hi
    simp at hi
  refine ⟨encode_buffer_fits data.length, rfl, b58_after_succ data i hi,
    b58_carry_zero data i hi, hlen, hdig, ?_, base58_encode_eq_b58 data hne⟩
  rw [hval, be_value_eq_dval]

/-- The second pass on the two bytes ff ff: no carry, and the buffer holds the digits
19, 27, 53 of 65535. -/
theorem base58_encode_pass_witness :
    b58_carry [0xff, 0xff] 1 = 0 ∧
    b58_after [0xff, 0xff] 2 = [19, 27, 53] ∧
    dval 58 (vals (b58_after [0xff, 0xff] 2)) = be_value ([0xff, 0xff].take 2) ∧
    be_value [0xff, 0xff] = 65535 :=
  ⟨(base58_encode_pass [0xff, 0xff] 1 (by decide)).2.2.2.1, by decide,
    (base58_encode_pass [0xff, 0xff] 1 (by decide)).2.2.2.2.2.2.1, by decide⟩

/-! ## The size of the working buffer against `log 256 / log 58` -/

theorem ceil_log_le_iff (len k : Nat) :
    ⌈(len : ℝ) * Real.log 256 / Real.log 58⌉₊ ≤ k ↔ 256 ^ len ≤ 58 ^ k := by
  have h58 : 0 < Real.log 58 := Real.log_pos (by norm_num)
  rw [Nat.ceil_le, div_le_iff₀ h58, ← Real.log_pow, ← Real.log_pow,
    Real.log_le_log_iff (by positivity) (by positivity)]
  exact_mod_cast Iff.rfl

theorem slack_iff (len : Nat) :
    ⌈(len : ℝ) * Real.log 256 / Real.log 58⌉₊ + 1 ≤ base58_encode_size len ↔
      256 ^ len ≤ 58 ^ (len * 138 / 100) := by
  rw [← ceil_log_le_iff]
  simp only [base58_encode_size]
  omega

set_option exponentiation.threshold 100000 in
theorem slack_scaled : ∀ len : Nat, 70 ≤ len →
    256 ^ (100 * len) * 58 ^ 99 ≤ 58 ^ (138 * len) := by
  intro len h
  induction len, h using Nat.le_induction with
  | base => norm_num
  | succ n _ ih =>
    have hstep : 256 ^ 100 ≤ 58 ^ 138 := by norm_num
    calc 256 ^ (100 * (n + 1)) * 58 ^ 99
        = (256 ^ (100 * n) * 58 ^ 99) * 256 ^ 100 := by ring
      _ ≤ 58 ^ (138 * n) * 58 ^ 138 := Nat.mul_le_mul ih hstep
      _ = 58 ^ (138 * (n + 1)) := by ring

theorem slack_large (len : Nat) (h : 70 ≤ len) : 256 ^ len ≤ 58 ^ (len * 138 / 100) := by
  have h1 := slack_scaled len h
  have h2 : 58 ^ (138 * len) ≤ 58 ^ (100 * (len * 138 / 100)) * 58 ^ 99 := by
    rw [← pow_add]
    apply Nat.pow_le_pow_right (by decide)
    omega
  have h3 : 256 ^ (100 * len) ≤ 58 ^ (100 * (len * 138 / 100)) :=
    Nat.le_of_mul_le_mul_right (le_trans h1 h2) (by positivity)
  rw [Nat.mul_comm 100 len, Nat.mul_comm 100 (len * 138 / 100), pow_mul, pow_mul] at h3
  exact (Nat.pow_le_pow_iff_left (by decide)).mp h3

set_option exponentiation.threshold 100000 in
set_option maxRecDepth 1000000 in
theorem slack_small : ∀ len : Nat, len < 70 →
    (256 ^ len ≤ 58 ^ (len * 138 / 100) ↔ len ∉ tight_lengths) := by
  decide

theorem slack_exact (len : Nat) :
    256 ^ len ≤ 58 ^ (len * 138 / 100) ↔ len ∉ tight_lengths := by
  by_cases h : len < 70
  · exact slack_small len h
  · have hge : 70 ≤ len := by omega
    have hnot : len ∉ tight_lengths := by
      intro hmem
      have hall : ∀ x ∈ tight_lengths, x < 70 := by decide
      have := hall len hmem
      omega
    exact ⟨fun _ => hnot, fun _ => slack_large len hge⟩

theorem b58_buffer_bound (data : List uint8_t) (hlen : 1 ≤ data.length) :
    base58_encode data =
      List.replicate (count_leading 0 data) '1' ++
        ((b58_after data data.length).drop (count_leading 0 (b58_after data data.length))).map
          (fun d => c_str_get BASE58_ALPHABET d.val) ∧
    b58_after data 0 = List.replicate (data.length * 138 / 100 + 1) 0 ∧
    (∀ i, i ≤ data.length → (b58_after data i).length = data.length * 138 / 100 + 1) ∧
    ⌈(data.length : ℝ) * Real.log 256 / Real.log 58⌉₊ ≤ (b58_after data 0).length ∧
    256 ^ data.length < 58 ^ (b58_after data 0).length ∧
    (⌈(data.length : ℝ) * Real.log 256 / Real.log 58⌉₊ + 1 ≤ (b58_after data 0).length ↔
      data.length ∉ tight_lengths) ∧
    (64 ≤ data.length →
      ⌈(data.length : ℝ) * Real.log 256 / Real.log 58⌉₊ + 1 ≤ (b58_after data 0).length) := by
  have hne : data ≠ [] := by
    intro e
    rw [e] at hlen
    simp at hlen
  have h0 : (b58_after data 0).length = base58_encode_size data.length :=
    (b58_after_invariant data 0 (Nat.zero_le _)).1
  have hfit : 256 ^ data.length < 58 ^ base58_encode_size data.length :=
    encode_buffer_fits data.length
  rw [h0]
  refine ⟨base58_encode_eq_b58 data hne, rfl, fun i hi => (b58_after_invariant data i hi).1,
    (ceil_log_le_iff data.length _).2 (Nat.le_of_lt hfit), hfit,
    (slack_iff data.length).trans (slack_exact data.length), ?_⟩
  intro h64
  apply ((slack_iff data.length).trans (slack_exact data.length)).2
  intro hmem
  have hall : ∀ x ∈ tight_lengths, x < 64 := by decide
  have := hall data.length hmem
  omega

/-- C31 fails on the code: for the one-byte input ff, `base58_encode` works on a buffer of
`1 * 138 / 100 + 1 = 2` digits, which end as 4, 23 and are both written to the result `5Q`,
while `ceil(1 * log 256 / log 58) + 1` is 3. -/
theorem base58_encode_buffer_one_byte :
    base58_encode [0xff] = "5Q".toList ∧
    base58_encode [0xff] =
      (b58_after [0xff] 1).map (fun d => c_str_get BASE58_ALPHABET d.val) ∧
    b58_after [0xff] 0 = [0, 0] ∧
    b58_after [0xff] 1 = [4, 23] ∧
    ⌈(([0xff] : List uint8_t).length : ℝ) * Real.log 256 / Real.log 58⌉₊ = 2 ∧
    ¬ (⌈(([0xff] : List uint8_t).length : ℝ) * Real.log 256 / Real.log 58⌉₊ + 1 ≤
      (b58_after [0xff] 0).length) := by
  have hle : ⌈(([0xff] : List uint8_t).length : ℝ) * Real.log 256 / Real.log 58⌉₊ ≤ 2 :=
    (ceil_log_le_iff 1 2).2 (by decide)
  have hgt : ¬ ⌈(([0xff] : List uint8_t).length : ℝ) * Real.log 256 / Real.log 58⌉₊ ≤ 1 :=
    fun h => absurd ((ceil_log_le_iff 1 1).1 h) (by decide)
  have hsize : (b58_after [0xff] 0).length = 2 := by decide
  refine ⟨by decide, by decide, by decide, by decide, by omega, ?_⟩
  rw [hsize]
  omega

/-- C31, as the code has it: for every input of `len ≥ 1` bytes, `base58_encode` makes its
result from a working buffer that is allocated with `len * 138 / 100 + 1` digits and keeps
that size through all passes; that size is at least `ceil(len * log 256 / log 58)` and enough
for every input (`58 ^ size > 256 ^ len`); it is at least `ceil(len * log 256 / log 58) + 1`
exactly when `len` is not one of the 34 lengths of `tight_lengths`, all below 64, so for
every `len ≥ 64`. -/
theorem base58_encode_buffer_bound (data : List uint8_t) (hlen : 1 ≤ data.length) :
    base58_encode data =
      List.replicate (count_leading 0 data) '1' ++
        ((b58_after data data.length).drop (count_leading 0 (b58_after data data.length))).map
          (fun d => c_str_get BASE58_ALPHABET d.val) ∧
    b58_after data 0 = List.replicate (data.length * 138 / 100 + 1) 0 ∧
    (∀ i, i ≤ data.length → (b58_after data i).length = data.length * 138 / 100 + 1) ∧
    ⌈(data.length : ℝ) * Real.log 256 / Real.log 58⌉₊ ≤ (b58_after data 0).length ∧
    256 ^ data.length < 58 ^ (b58_after data 0).length ∧
    (⌈(data.length : ℝ) * Real.log 256 / Real.log 58⌉₊ + 1 ≤ (b58_after data 0).length ↔
      data.length ∉ tight_lengths) ∧
    (64 ≤ data.length →
      ⌈(data.length : ℝ) * Real.log 256 / Real.log 58⌉₊ + 1 ≤ (b58_after data 0).length) :=
  b58_buffer_bound data hlen

/-- An input of 64 bytes ff: the buffer has 89 digits, at least one more than the ceiling,
and the result is made from it. -/
theorem base58_encode_buffer_bound_witness :
    (b58_after (List.replicate 64 (0xff : uint8_t)) 0).length = 89 ∧
    ⌈((List.replicate 64 (0xff : uint8_t)).length : ℝ) * Real.log 256 / Real.log 58⌉₊ + 1 ≤
      (b58_after (List.replicate 64 (0xff : uint8_t)) 0).length ∧
    base58_encode (List.replicate 64 (0xff : uint8_t)) =
      List.replicate (count_leading 0 (List.replicate 64 (0xff : uint8_t))) '1' ++
        ((b58_after (List.replicate 64 (0xff : uint8_t))
            (List.replicate 64 (0xff : uint8_t)).length).drop
          (count_leading 0 (b58_after (List.replicate 64 (0xff : uint8_t))
            (List.replicate 64 (0xff : uint8_t)).length))).map
          (fun d => c_str_get BASE58_ALPHABET d.val) :=
  ⟨by decide,
    (base58_encode_buffer_bound (List.replicate 64 (0xff : uint8_t)) (by decide)).2.2.2.2.2.2
      (by decide),
    (base58_encode_buffer_bound (List.replicate 64 (0xff : uint8_t)) (by decide)).1⟩

/-! ## Base58 is canonical on alphabet strings -/

set_option maxRecDepth 100000 in
theorem base58_alphabet_digit : ∀ c ∈ BASE58_ALPHABET,
    ∃ d : Fin 58, c_str_get BASE58_ALPHABET d.val = c := by
  decide

theorem alphabet_string_digits : ∀ s : List Char, (∀ c ∈ s, c ∈ BASE58_ALPHABET) →
    ∃ digits : List uint8_t, (∀ d ∈ vals digits, d < 58) ∧
      s = digits.map (fun d => c_str_get BASE58_ALPHABET d.val)
  | [], _ => ⟨[], by simp [vals], rfl⟩
  | c :: cs, h => by
    obtain ⟨ds, hds, hcs⟩ := alphabet_string_digits cs
      (fun x hx => h x (List.mem_cons_of_mem _ hx))
    obtain ⟨d, hd⟩ := base58_alphabet_digit c (h c (List.mem_cons_self _ _))
    have hval : (to_uint8 d.val).val = d.val := to_uint8_val_of_lt (by omega)
    refine ⟨to_uint8 d.val :: ds, ?_, ?_⟩
    · intro x hx
      simp only [vals, List.map_cons, List.mem_cons] at hx
      rcases hx with rfl | hx
      · rw [hval]
        exact d.isLt
      · exact hds x hx
    · rw [List.map_cons, hval, hd, ← hcs]

theorem count_leading_digits : ∀ digits : List uint8_t, (∀ d ∈ vals digits, d < 58) →
    count_leading '1' (digits.map (fun d => c_str_get BASE58_ALPHABET d.val)) =
      count_leading 0 digits
  | [], _ => rfl
  | d :: ds, h => by
    have hd : d.val < 58 := h d.val (by simp [vals])
    have ih := count_leading_digits ds (fun x hx => h x (by
      simp only [vals, List.map_cons, List.mem_cons] at hx ⊢
      exact Or.inr hx))
    by_cases h0 : d = 0
    · subst h0
      have e : c_str_get BASE58_ALPHABET (0 : uint8_t).val = '1' := base58_digit_zero
      simp only [count_leading, List.map_cons, List.takeWhile_cons, e, decide_True, if_true,
        List.length_cons] at ih ⊢
      rw [ih]
    · have hne : c_str_get BASE58_ALPHABET d.val ≠ '1' := by
        intro e
        exact h0 (Fin.ext (base58_digit_one ⟨d.val, hd⟩ e))
      simp [count_leading, List.takeWhile_cons, hne, h0]

theorem base58_canonical (s : List Char) (hs : ∀ c ∈ s, c ∈ BASE58_ALPHABET) :
    ∃ bytes, base58_decode s = some bytes ∧ base58_encode bytes = s := by
  obtain ⟨digits, hdig, rfl⟩ := alphabet_string_digits s hs
  obtain ⟨bytes, hdec, hbhead, hbval⟩ := base58_decode_digits digits hdig
  rw [count_leading_digits digits hdig] at hdec
  refine ⟨_, hdec, ?_⟩
  obtain ⟨out, henc, hout, hohead, hoval⟩ :=
    base58_encode_digits (List.replicate (count_leading 0 digits) (0 : uint8_t) ++ bytes)
  rw [count_leading_replicate_append 0 _ bytes hbhead] at henc
  rw [dval_zeros_append, hbval, ← dval_drop_count_leading 58 digits] at hoval
  have htail : out = digits.drop (count_leading 0 digits) := by
    apply vals_injective
    exact canonical_unique (B := 58) (by decide) (vals_head_ne_zero hohead)
      (vals_head_ne_zero (drop_count_leading_head 0 digits)) hout
      (mem_vals_drop hdig _) hoval
  rw [henc, htail]
  conv_rhs => rw [← replicate_append_drop_count_leading 0 digits]
  rw [List.map_append, List.map_replicate]
  rfl

/-- C33: for every string `s` made only of the 58 alphabet characters, `base58_decode s`
succeeds and `base58_encode` of the decoded bytes is `s` again; hence two alphabet strings
with the same decoding are equal. -/
theorem base58_encode_decode (s : List Char) (hs : ∀ c ∈ s, c ∈ BASE58_ALPHABET) :
    (∃ bytes, base58_decode s = some bytes ∧ base58_encode bytes = s) ∧
    (∀ t : List Char, (∀ c ∈ t, c ∈ BASE58_ALPHABET) →
      base58_decode t = base58_decode s → t = s) := by
  refine ⟨base58_canonical s hs, ?_⟩
  intro t ht heq
  obtain ⟨b, hb, hbe⟩ := base58_canonical s hs
  obtain ⟨b', hb', hbe'⟩ := base58_canonical t ht
  rw [hb, hb'] at heq
  rw [← hbe, ← hbe', Option.some.inj heq]

/-- The string `11z`: decoded to the three bytes 0, 0, 57 and encoded back. -/
theorem base58_encode_decode_witness :
    base58_decode "11z".toList = some [0, 0, 57] ∧
    base58_encode [0, 0, 57] = "11z".toList ∧
    ∃ bytes, base58_decode "11z".toList = some bytes ∧ base58_encode bytes = "11z".toList :=
  ⟨by decide, by decide, (base58_encode_decode "11z".toList (by decide)).1⟩

/-! ## The envelope determines the message -/

theorem encode_varint_length (v : Nat) :
    (encode_varint v).length =
      if v < 0xfd then 1 else if v ≤ 0xffff then 3 else if v ≤ 0xffffffff then 5 else 9 := by
  simp only [encode_varint]
  split_ifs <;> simp

theorem encode_varint_length_mono {a b : Nat} (h : a ≤ b) :
    (encode_varint a).length ≤ (encode_varint b).length := by
  rw [encode_varint_length, encode_varint_length]
  split_ifs <;> omega

theorem string_bytes_injective : ∀ (m1 m2 : List Char), (∀ c ∈ m1, c.toNat < 256) →
    (∀ c ∈ m2, c.toNat < 256) → string_bytes m1 = string_bytes m2 → m1 = m2
  | [], [], _, _, _ => rfl
  | [], _ :: _, _, _, h => by simp [string_bytes] at h
  | _ :: _, [], _, _, h => by simp [string_bytes] at h
  | c :: cs, d :: ds, h1, h2, h => by
    simp only [string_bytes, List.map_cons, List.cons.injEq] at h
    have hc : c.toNat < 256 := h1 c (List.mem_cons_self _ _)
    have hd : d.toNat < 256 := h2 d (List.mem_cons_self _ _)
    have hv : c.toNat = d.toNat := by
      have := congrArg Fin.val h.1
      rw [to_uint8_val_of_lt hc, to_uint8_val_of_lt hd] at this
      exact this
    have hcd : c = d := by
      have := congrArg Char.ofNat hv
      rwa [Char.ofNat_toNat, Char.ofNat_toNat] at this
    rw [hcd, string_bytes_injective cs ds (fun x hx => h1 x (List.mem_cons_of_mem _ hx))
      (fun x hx => h2 x (List.mem_cons_of_mem _ hx)) h.2]

theorem envelope_eq_iff (m1 m2 : List Char) :
    construct_bitcoin_message m1 = construct_bitcoin_message m2 ↔
      string_bytes m1 = string_bytes m2 := by
  constructor
  · intro h
    simp only [construct_bitcoin_message, List.append_assoc] at h
    have h' := List.append_cancel_left h
    have hlen : m1.length = m2.length := by
      have hl := congrArg List.length h'
      simp only [List.length_append, string_bytes, List.length_map] at hl
      rcases Nat.lt_trichotomy m1.length m2.length with hlt | heq | hgt
      · have := encode_varint_length_mono (Nat.le_of_lt hlt)
        omega
      · exact heq
      · have := encode_varint_length_mono (Nat.le_of_lt hgt)
        omega
    rw [hlen] at h'
    exact List.append_cancel_left h'
  · intro h
    have hlen : m1.length = m2.length := by
      have hl := congrArg List.length h
      simpa [string_bytes] using hl
    simp only [construct_bitcoin_message, hlen, h]

/-- C34: two different messages give two different envelopes. A message is a `std::string`,
so its characters are bytes: each has a code below 256. For such messages `m1 ≠ m2`, of any
length, `construct_bitcoin_message m1 ≠ construct_bitcoin_message m2`; in general the two
envelopes are equal exactly when the two messages have the same bytes. -/
theorem construct_bitcoin_message_injective (m1 m2 : List Char)
    (h1 : ∀ c ∈ m1, c.toNat < 256) (h2 : ∀ c ∈ m2, c.toNat < 256) (hne : m1 ≠ m2) :
    construct_bitcoin_message m1 ≠ construct_bitcoin_message m2 ∧
    (construct_bitcoin_message m1 = construct_bitcoin_message m2 ↔
      string_bytes m1 = string_bytes m2) := by
  refine ⟨?_, envelope_eq_iff m1 m2⟩
  intro h
  exact hne (string_bytes_injective m1 m2 h1 h2 ((envelope_eq_iff m1 m2).1 h))

/-- The messages `a` and `b` have different envelopes. -/
theorem construct_bitcoin_message_injective_witness :
    construct_bitcoin_message "a".toList ≠ construct_bitcoin_message "b".toList :=
  (construct_bitcoin_message_injective "a".toList "b".toList (by decide) (by decide)
    (by decide)).1

end doge
